import Mathlib

/-!
Verification development for the core retrieval engine sources:
shallow embeddings of the N-way AND postlist, the PL2+ weighting scheme,
the user-subclass registry, the writable-database facade, the OpenDocument
metadata parser, and the honey table cursor, together with theorems about
their specified behaviour.
-/

/-! ### Shared error kinds

The C++ code signals failures with typed exceptions.  We model a failing
operation as `Except XapianError`, with one constructor per error kind that
the embedded code can raise.  `Undefined` stands for executions the C++
leaves undefined (buffer overruns, unbounded loops on EOF): no well-formed
input reaches it. -/

inductive XapianError where
  | InvalidArgument
  | InvalidOperation
  | Serialisation
  | DatabaseCorrupt
  | DatabaseError
  | Undefined
deriving Repr, DecidableEq

/-! ## N-way AND postlist (multiandpostlist.cc)

A child postlist is modelled by the stream of docids it will emit, as a
strictly increasing list of naturals whose head is the child's current
docid.  `skip_to(did)` on such a stream drops every docid below `did`
(a positioned leaf stays put when already at or past the target).
`check(did)` for a leaf child is `skip_to` and always reports valid, so the
`!valid` replay branch of `find_next_match` is never taken for the leaf
children modelled here. -/

def skipTo (d : Nat) (l : List Nat) : List Nat := l.dropWhile (· < d)

/-- Result of the `for (i = 1; i < n_kids; ++i)` loop body of
`MultiAndPostList::find_next_match`: either every later child agreed on
`did` (`allMatch`, with the updated child streams), or some child ran out
(`atEnd`), or a child stopped on a different (necessarily larger) docid
(`mismatch`, carrying that docid and the updated child streams). -/
inductive ScanResult where
  | allMatch (rest : List (List Nat))
  | atEnd
  | mismatch (newDid : Nat) (rest : List (List Nat))
deriving Repr, DecidableEq

/-- The child-scanning loop of `MultiAndPostList::find_next_match`: check
each child `i = 1..n` against `did` in turn, mutating (here: rebuilding)
the scanned children. -/
def scanKids (did : Nat) : List (List Nat) → ScanResult
  | [] => .allMatch []
  | k :: ks =>
    match skipTo did k with
    | [] => .atEnd
    | d :: tl =>
      if d = did then
        match scanKids did ks with
        | .allMatch ks2 => .allMatch ((d :: tl) :: ks2)
        | .atEnd => .atEnd
        | .mismatch nd ks2 => .mismatch nd ((d :: tl) :: ks2)
      else .mismatch d ((d :: tl) :: ks)

/-- The full emission sequence of a `MultiAndPostList`: the fused loop of
`next` (which advances child 0 past its current docid and re-runs
`find_next_match`) and `find_next_match`'s `advanced_plist0` restart.
`c0` is child 0's stream positioned on its current candidate docid, `rest`
the remaining children.  On `mismatch nd` the code calls
`skip_to_helper(0, nd)`; since child 0 is positioned on `d` and `nd > d`
(the checked child stopped at or after `did = d`), that skip drops `d` and
then every tail element below `nd`, which we write as `skipTo nd c0` on
the tail. -/
def multiAndRun : List Nat → List (List Nat) → List Nat
  | [], _ => []
  | d :: c0, rest =>
    match scanKids d rest with
    | .atEnd => []
    | .allMatch rest2 => d :: multiAndRun c0 rest2
    | .mismatch nd rest2 => multiAndRun (skipTo nd c0) rest2
termination_by c0 _ => c0.length
decreasing_by
· simp
· simpa [skipTo] using Nat.lt_succ_of_le (List.dropWhile_sublist _).length_le

/-! ## MultiAndPostList weight bookkeeping

For `recalc_maxweight` and `get_weight` the children matter only through
the value their own `recalc_maxweight` returns and the weight they report
for the current document, so a child is abstracted to that pair. -/

structure AndChild where
  maxw : ℚ
  weight : Nat → Nat → Nat → ℚ

/-- `MultiAndPostList::recalc_maxweight`: recompute every child's bound and
return the running sum `max_total`. -/
def MultiAnd_recalc_maxweight (kids : List AndChild) : ℚ :=
  (kids.map AndChild.maxw).sum

/-- `MultiAndPostList::get_weight`: sum the children's `get_weight` for the
current document's statistics. -/
def MultiAnd_get_weight (kids : List AndChild)
    (doclen uniqueTerms wdfdocmax : Nat) : ℚ :=
  (kids.map (fun c => c.weight doclen uniqueTerms wdfdocmax)).sum

/-! ## PL2+ serialisation (weight/pl2plusweight.cc)

`serialise_double`/`unserialise_double` are not part of the surfaced
source.  Modelled from the spec: a scheme serialises to the concatenation
of its parameters, each encoded as one portable double-precision item; we
represent the byte sequence of one encoded double as one exact token, so a
serialised scheme is a token list and `unserialise_double` consumes one
token. -/

def serialise_double (x : ℚ) : List ℚ := [x]

/-- Modelled from the spec: reading one encoded double from the stream;
fails (as the real decoder does) when no data is left. -/
def unserialise_double : List ℚ → Option (ℚ × List ℚ)
  | [] => none
  | x :: r => some (x, r)

/-- `PL2PlusWeight::serialise`. -/
def pl2plus_serialise (c delta : ℚ) : List ℚ :=
  serialise_double c ++ serialise_double delta

/-- `PL2PlusWeight::unserialise`: read two doubles, reject trailing data,
then run the `PL2PlusWeight(c, delta)` constructor's parameter checks. -/
def pl2plus_unserialise (s : List ℚ) : Except XapianError (ℚ × ℚ) :=
  match unserialise_double s with
  | none => .error .Serialisation
  | some (c, r1) =>
    match unserialise_double r1 with
    | none => .error .Serialisation
    | some (delta, r2) =>
      if r2 ≠ [] then .error .Serialisation
      else if c ≤ 0 then .error .InvalidArgument
      else if delta ≤ 0 then .error .InvalidArgument
      else .ok (c, delta)

/-! ## Registry (registry.cc)

A registry category is a name-keyed map; we model the cloning overload of
`register_object` over an association list whose values are the stored
objects' payloads.  `clone()` of a model object is the object itself (the
claims under study do not involve a null-returning clone). -/

structure RegObj where
  name : String
  payload : Nat
deriving Repr, DecidableEq

def RegObj.clone (o : RegObj) : RegObj := o

def mapFind? (m : List (String × Nat)) (k : String) : Option Nat :=
  match m with
  | [] => none
  | (k', v) :: rest => if k' = k then some v else mapFind? rest k

def mapInsertOrReplace (m : List (String × Nat)) (k : String) (v : Nat) :
    List (String × Nat) :=
  match m with
  | [] => [(k, v)]
  | (k', v') :: rest =>
    if k' = k then (k, v) :: rest else (k', v') :: mapInsertOrReplace rest k v

/-- The cloning overload of `register_object`: reject an empty name, then
insert; when an entry with the name exists, delete (release) the prior
object and store the clone.  The second component of a successful result is
the released prior payload, if any. -/
def register_object (m : List (String × Nat)) (obj : RegObj) :
    Except XapianError (List (String × Nat) × Option Nat) :=
  if obj.name = "" then .error .InvalidOperation
  else
    .ok (mapInsertOrReplace m obj.name obj.clone.payload, mapFind? m obj.name)

/-! ## Writable database facade (omwritabledb.cc) -/

structure OmDatabaseModel where
  mydb : Nat
  writable : Bool
deriving Repr, DecidableEq

/-- Modelled from the spec: `is_writable` reports whether the handle was
opened writable (the accessor itself is declared outside the surfaced
source). -/
def OmDatabaseModel.is_writable (d : OmDatabaseModel) : Bool := d.writable

/-- `OmWritableDatabase::operator=(const OmDatabase&)`: copy the source's
internal database pointer only when the source is writable; otherwise
throw without touching the target. -/
def omwritable_assign (target source : OmDatabaseModel) :
    Except XapianError OmDatabaseModel :=
  if source.is_writable then .ok { target with mydb := source.mydb }
  else .error .InvalidArgument

structure OmDocumentTerm where
  tname : String
deriving Repr, DecidableEq

/-- `OmWritableDatabase::add_document`: validate that no term name is
empty, then forward to the underlying database (abstracted as `impl`,
mapping the database state and document to the new docid and state). -/
def om_add_document (impl : Nat → List OmDocumentTerm → Nat × Nat)
    (db : Nat) (terms : List OmDocumentTerm) :
    Except XapianError (Nat × Nat) :=
  if terms.any (fun t => t.tname.length = 0) then .error .InvalidArgument
  else .ok (impl db terms)

/-! ## OpenDocument metadata parser (opendocmetaparser.cc) -/

inductive MetaFieldKind where
  | KEYWORDS | TITLE | SAMPLE | AUTHOR | CREATED | NONE
deriving Repr, DecidableEq

/-- Modelled from the spec: `parse_datetime` (datetime.cc) is not part of
the surfaced source and no claim involves it; it is kept as the raw
content string. -/
def parse_datetime (s : String) : String := s

structure OpenDocMetaParser where
  field : MetaFieldKind
  keywords : String
  title : String
  sample : String
  author : String
  created : String
deriving Repr, DecidableEq

/-- One `case` arm of `OpenDocMetaParser::process_content`: append the
fragment, preceded by a single space exactly when the accumulator is
already non-empty. -/
def appendField (acc content : String) : String :=
  if acc.isEmpty then acc ++ content else acc ++ " " ++ content

/-- `OpenDocMetaParser::process_content`. -/
def process_content (p : OpenDocMetaParser) (content : String) :
    OpenDocMetaParser :=
  match p.field with
  | .KEYWORDS => { p with keywords := appendField p.keywords content }
  | .TITLE => { p with title := appendField p.title content }
  | .SAMPLE => { p with sample := appendField p.sample content }
  | .AUTHOR => { p with author := appendField p.author content }
  | .CREATED => { p with created := parse_datetime content }
  | .NONE => p

/-- Processing a sequence of content fragments in order. -/
def processAll (p : OpenDocMetaParser) (fragments : List String) :
    OpenDocMetaParser :=
  fragments.foldl process_content p

/-- The space-separated concatenation of a fragment list, following the
spec's words ("their space-separated concatenation"). -/
def spaceSeparated : List String → String
  | [] => ""
  | [c] => c
  | c :: rest => c ++ " " ++ spaceSeparated rest

/-! ## PL2+ weighting scheme (weight/pl2plusweight.cc)

Doubles are modelled as real numbers; `log2` is `Real.logb 2` and `log`
is `Real.log`.  The scheme object carries its constructor parameters, the
statistics the getters return, and the members `init` computes; fields not
yet assigned hold whatever value the record carried before `init` ran,
matching the uninitialised C++ members. -/

structure PL2PlusWeight where
  param_c : ℝ
  param_delta : ℝ
  wqf : Nat
  average_length : ℝ
  doclength_lower_bound : Nat
  doclength_upper_bound : Nat
  collection_size : Nat
  collection_freq : Nat
  wdf_upper_bound : Nat
  factor : ℝ
  mean : ℝ
  P1 : ℝ
  P2 : ℝ
  cl : ℝ
  dw : ℝ
  upper_bound : ℝ

open Classical in
/-- `PL2PlusWeight::init`. -/
noncomputable def PL2PlusWeight.init (s : PL2PlusWeight) (factor0 : ℝ) :
    PL2PlusWeight :=
  if factor0 = 0 then s
  else
    let factor := factor0 * (s.wqf : ℝ)
    let mean : ℝ := (s.collection_freq : ℝ) / (s.collection_size : ℝ)
    if s.wdf_upper_bound = 0 ∨ 1 < mean then
      { s with factor := factor, mean := mean, upper_bound := 0 }
    else
      let base_change : ℝ := 1 / Real.log 2
      let P1 := mean * base_change + 0.5 * Real.logb 2 (2 * Real.pi)
      let P2 := Real.logb 2 mean + base_change
      let cl := s.param_c * s.average_length
      let wdfn_lower := Real.logb 2 (1 + cl / (s.doclength_upper_bound : ℝ))
      let divisior : ℝ :=
        max (s.wdf_upper_bound : ℝ) (s.doclength_lower_bound : ℝ)
      let wdfn_upper := (s.wdf_upper_bound : ℝ) * Real.logb 2 (1 + cl / divisior)
      let P_delta :=
        P1 + (s.param_delta + 0.5) * Real.logb 2 s.param_delta -
          P2 * s.param_delta
      let dw := P_delta / (s.param_delta + 1)
      let P_max2a := (wdfn_upper + 0.5) * Real.logb 2 wdfn_upper / (wdfn_upper + 1)
      let wdfn_optb := if 0 < P1 + P2 then wdfn_upper else wdfn_lower
      let P_max2b := (P1 - P2 * wdfn_optb) / (wdfn_optb + 1)
      let ub := factor * (P_max2a + P_max2b + dw)
      { s with factor := factor, mean := mean, P1 := P1, P2 := P2, cl := cl,
               dw := dw, upper_bound := if ub < 0 then 0 else ub }

open Classical in
/-- `PL2PlusWeight::get_sumpart`. -/
noncomputable def PL2PlusWeight.get_sumpart (s : PL2PlusWeight)
    (wdf len : Nat) : ℝ :=
  if wdf = 0 ∨ 1 < s.mean then 0
  else
    let wdfn : ℝ := (wdf : ℝ) * Real.logb 2 (1 + s.cl / (len : ℝ))
    let P := s.P1 + (wdfn + 0.5) * Real.logb 2 wdfn - s.P2 * wdfn
    let wt := P / (wdfn + 1) + s.dw
    if wt ≤ 0 then 0 else s.factor * wt

/-- `PL2PlusWeight::get_maxpart`. -/
def PL2PlusWeight.get_maxpart (s : PL2PlusWeight) : ℝ := s.upper_bound

/-! ## Honey table cursor (backends/honey/honey_cursor.cc)

The table file is a list of bytes (naturals; well-formed files hold values
below 256) read through a position, with `f[i]?` as `fh.read()` (EOF when
out of range).  The trailing root index starts at offset `root`.

Modelling notes, each matching one line of the C++:
* bytes the C++ reads after an unchecked EOF (index headers, short key
  reads) are unspecified there; they are modelled as 0 and are unreachable
  from well-formed tables;
* `abort()` calls, the unbounded varint loop that spins on EOF, and the
  8-byte varint buffer overrun are modelled as `XapianError.Undefined`. -/

/-- Byte-lexicographic comparison, as `std::string::compare` on byte
strings. -/
def lexCompare : List Nat → List Nat → Ordering
  | [], [] => .eq
  | [], _ :: _ => .lt
  | _ :: _, [] => .gt
  | a :: as, b :: bs =>
    if a < b then .lt else if b < a then .gt else lexCompare as bs

/-- Decode a complete LEB128-style chunk (7 data bits per byte, little
endian, high bit = continuation), as `unpack_uint` does over the collected
bytes.  Fails on an empty or unterminated chunk. -/
def lebDecode : List Nat → Option Nat
  | [] => none
  | [b] => if b < 128 then some b else none
  | b :: rest =>
    if b < 128 then none
    else (lebDecode rest).map (fun v => (b - 128) + 128 * v)

/-- Encode a natural as a LEB128-style chunk (the writer side of
`pack_uint`). -/
def lebEncode (n : Nat) : List Nat :=
  if n < 128 then [n] else (n % 128 + 128) :: lebEncode (n / 128)
termination_by n
decreasing_by exact Nat.div_lt_self (by omega) (by omega)

/-- The byte-collection loop of `HoneyCursor::next_from_index`: read up to
`cap` bytes, stopping after the first byte below 128 or at EOF. -/
def readVarintBytes (f : List Nat) (pos : Nat) : Nat → List Nat
  | 0 => []
  | cap + 1 =>
    match f[pos]? with
    | none => []
    | some b => if b < 128 then [b] else b :: readVarintBytes f (pos + 1) cap

/-- The unbounded varint loop in the skiplist branch of
`HoneyCursor::do_find`: read until a byte below 128.  On EOF the C++ spins
forever reading EOF; that is reported as `none`. -/
def readVarintAll (f : List Nat) (pos : Nat) : Option (List Nat) :=
  match h : f[pos]? with
  | none => none
  | some b =>
    if b < 128 then some [b]
    else (readVarintAll f (pos + 1)).map (fun vb => b :: vb)
termination_by f.length - pos
decreasing_by
  have hp : pos < f.length := by
    by_contra hc
    rw [List.getElem?_eq_none (by omega)] at h
    exact Option.noConfusion h
  omega

/-- Pad or truncate a byte list to length `n` (`std::string::resize`
semantics: extension pads with NUL). -/
def resizePad (l : List Nat) (n : Nat) : List Nat :=
  l.take n ++ List.replicate (n - l.length) 0

structure HoneyCursor where
  pos : Nat
  last_key : List Nat
  current_key : List Nat
  val_size : Nat
  current_compressed : Bool
  is_at_end : Bool
deriving Repr, DecidableEq

/-- `HoneyCursor::next_from_index` minus the tag bookkeeping: decode the
value-size varint at `pos`; return the number of bytes consumed, the value
size, and the compression flag. -/
def next_from_index_read (f : List Nat) (pos : Nat) :
    Except XapianError (Nat × Nat × Bool) :=
  let vb := readVarintBytes f pos 8
  match lebDecode vb with
  | none => .error .DatabaseError
  | some v => .ok (vb.length, v / 2, v % 2 == 1)

/-- `HoneyCursor::next`.  Returns `(false, cursor)` at the end of the data
section, `(true, cursor)` on the next entry, and an error on the
corruption paths.  The first EOF (reading the entry's first byte) raises
`DatabaseCorrupt`; an EOF on the key-length byte raises `DatabaseError`
(`"EOF/error while reading key length"`), as does a bad value-size
varint. -/
def honeyNext (f : List Nat) (root : Nat) (c : HoneyCursor) :
    Except XapianError (Bool × HoneyCursor) :=
  if c.is_at_end then .ok (false, c)
  else
    let p0 := c.pos + c.val_size
    if root ≤ p0 then .ok (false, { c with pos := p0, val_size := 0, is_at_end := true })
    else
      match f[p0]? with
      | none => .error .DatabaseCorrupt
      | some ch =>
        let decodeFrom := fun (reuse key_size p1 : Nat) =>
          let ck := c.last_key.take reuse ++
            resizePad ((f.drop p1).take key_size) key_size
          match next_from_index_read f (p1 + key_size) with
          | .error e => .error e
          | .ok (cnt, vs, comp) =>
            .ok (true, { pos := p1 + key_size + cnt, last_key := ck,
                         current_key := ck, val_size := vs,
                         current_compressed := comp, is_at_end := false })
        if c.last_key = [] then decodeFrom 0 ch (p0 + 1)
        else
          match f[p0 + 1]? with
          | none => .error .DatabaseError
          | some ch2 => decodeFrom ch ch2 (p0 + 2)

/-- The `while (next())` tail of `HoneyCursor::do_find`: step forward
until the current key is at least `key`. -/
def findScan (f : List Nat) (root : Nat) (key : List Nat) (c : HoneyCursor) :
    Except XapianError (Bool × HoneyCursor) :=
  match h : honeyNext f root c with
  | .error e => .error e
  | .ok (false, c2) => .ok (false, c2)
  | .ok (true, c2) =>
    match lexCompare c2.current_key key with
    | .eq => .ok (true, c2)
    | .gt => .ok (false, c2)
    | .lt => findScan f root key c2
termination_by root - c.pos
decreasing_by
  have hkey : c.pos < c2.pos ∧ c.pos < root := by
    unfold honeyNext at h
    dsimp only at h
    repeat' split at h
    any_goals simp at h
    all_goals subst h
    all_goals dsimp only
    all_goals omega
  omega

/-- Big-endian 32-bit read, as the four `fh.read()` shifts in `do_find`
(`+` coincides with `|` on disjoint byte ranges).  Bytes past EOF are
modelled as 0; well-formed tables always contain them. -/
def be32 (f : List Nat) (i : Nat) : Nat :=
  f.getD i 0 * 2 ^ 24 + f.getD (i + 1) 0 * 2 ^ 16 +
    f.getD (i + 2) 0 * 2 ^ 8 + f.getD (i + 3) 0

/-- The `while (kkey_len > 0 && kkey[kkey_len - 1] == '\0') --kkey_len`
loop: truncate trailing NUL bytes. -/
def stripNul (l : List Nat) : List Nat :=
  (l.reverse.dropWhile (· = 0)).reverse

/-- The binary-chop loop of the `0x01` index branch: invariant candidates
`[i, j)`, record `k` holds a 4-byte NUL-padded key prefix followed by a
32-bit offset, 8 bytes per record starting at `base`.  `key4` is the
search key's first four bytes (`key.compare(0, 4, kkey, kkey_len)`). -/
def chopLoop (f : List Nat) (key4 : List Nat) (base i j : Nat) : Nat :=
  if 1 < j - i then
    let k := i + (j - i) / 2
    let kkey := stripNul ((f.drop (base + k * 8)).take 4)
    match lexCompare key4 kkey with
    | .lt => chopLoop f key4 base i k
    | .eq => k
    | .gt => chopLoop f key4 base k j
  else i
termination_by j - i
decreasing_by all_goals omega

/-- The skiplist-index scan of the `0x02` branch: decode prefix-compressed
index entries `(reuse, len, suffix, varint ptr)` until one compares above
`key` (keep the previous entry), compares equal (keep this entry), or EOF.
Returns the chosen index key, its data pointer, and the last comparison
result (`cmp0`). -/
def skipScan (f : List Nat) (key : List Nat) (pos : Nat)
    (ikey pkey : List Nat) (ptr : Nat) (cmp0 : Ordering) :
    Except XapianError (List Nat × Nat × Ordering) :=
  match hr : f[pos]? with
  | none => .ok (ikey, ptr, cmp0)
  | some reuse =>
    match f[pos + 1]? with
    | none => .error .Undefined
    | some len =>
      let ikey2 := resizePad ikey reuse ++ resizePad ((f.drop (pos + 2)).take len) len
      let cmp := lexCompare ikey2 key
      if cmp = .gt then .ok (pkey, ptr, .gt)
      else
        match readVarintAll f (pos + 2 + len) with
        | none => .error .Undefined
        | some vb =>
          if 8 < vb.length then .error .Undefined
          else
            match lebDecode vb with
            | none => .error .Undefined
            | some ptr2 =>
              if cmp = .eq then .ok (ikey2, ptr2, .eq)
              else skipScan f key (pos + 2 + len + vb.length) ikey2 ikey2 ptr2 .lt
termination_by f.length - pos
decreasing_by
  have hp : pos < f.length := by
    by_contra hc
    rw [List.getElem?_eq_none (by omega)] at hr
    exact Option.noConfusion hr
  omega

/-- The `use_index` arm of `HoneyCursor::do_find`: seek via the root index
then fall into the forward scan. -/
def honeyFindIndex (f : List Nat) (root : Nat) (key : List Nat)
    (c : HoneyCursor) : Except XapianError (Bool × HoneyCursor) :=
  match f[root]? with
  | none => .error .DatabaseCorrupt
  | some 0 =>
    let base := f.getD (root + 1) 0
    let range := f.getD (root + 2) 0
    let first := (((key.headD 0 : Int) - (base : Int)) % 256).toNat
    if range < first then
      .ok (false, { c with pos := root + 3, is_at_end := true })
    else
      let jump := be32 f (root + 3 + 4 * first)
      findScan f root key
        { c with pos := jump, last_key := [], is_at_end := false, val_size := 0 }
  | some 1 =>
    let count := be32 f (root + 1)
    if count = 0 then
      .ok (false, { c with pos := root + 5, is_at_end := true })
    else
      let base := root + 5
      let i := chopLoop f (key.take 4) base 0 count
      let kkey := stripNul ((f.drop (base + i * 8)).take 4)
      let jump := be32 f (base + i * 8 + 4)
      findScan f root key
        { c with pos := jump, last_key := if jump = 0 then [] else kkey,
                 is_at_end := false, val_size := 0 }
  | some 2 =>
    match skipScan f key (root + 1) [] [] 0 .gt with
    | .error e => .error e
    | .ok (ikey, ptr, cmp0) =>
      if ptr ≠ 0 then
        match next_from_index_read f ptr with
        | .error e => .error e
        | .ok (cnt, vs, comp) =>
          if cmp0 = .eq then
            .ok (true, { pos := ptr + cnt, last_key := ikey,
                         current_key := ikey, val_size := vs,
                         current_compressed := comp, is_at_end := false })
          else
            findScan f root key
              { pos := ptr + cnt + vs, last_key := ikey, current_key := ikey,
                val_size := 0, current_compressed := comp, is_at_end := false }
      else
        findScan f root key
          { c with pos := 0, last_key := [], current_key := [],
                   is_at_end := false, val_size := 0 }
  | some _ => .error .DatabaseCorrupt

/-- `HoneyCursor::do_find(key, greater_than)` (`greater_than` is unused by
the C++).  The early branch answers from the current position when
`last_key` shares the search key's first byte. -/
def honeyDoFind (f : List Nat) (root : Nat) (key : List Nat)
    (c : HoneyCursor) : Except XapianError (Bool × HoneyCursor) :=
  if c.is_at_end = false ∧ c.last_key ≠ [] ∧ c.last_key.headD 0 = key.headD 0 then
    match lexCompare c.last_key key with
    | .eq => .ok (true, { c with current_key := c.last_key })
    | .lt => findScan f root key c
    | .gt => honeyFindIndex f root key c
  else honeyFindIndex f root key c

/-- A freshly constructed cursor: positioned at the start of the data,
before any entry. -/
def HoneyCursor.fresh : HoneyCursor :=
  { pos := 0, last_key := [], current_key := [], val_size := 0,
    current_compressed := false, is_at_end := false }

/-! ## Honey table builder

The writer is not part of the surfaced source.  Modelled from the spec: a
well-formed table is a data section of prefix-compressed entries
`(reuse, new_len, suffix, varint of val_size shifted left by one with the
compressed bit clear, val)` — the very first entry carries no reuse byte —
followed at `root` by one of the three index layouts.  Index offsets
landing on an entry that opens a fresh key context skip that entry's reuse
byte (dense-first-byte jumps), or carry the priming key so that the reuse
byte can be consumed (binary-chop and skiplist jumps), as the reader
expects. -/

structure HEntry where
  key : List Nat
  val : List Nat
  reuse : Nat
deriving Repr, DecidableEq

/-- Big-endian 32-bit encoding (writer side of the 4-byte offset reads). -/
def be32enc (n : Nat) : List Nat :=
  [n / 2 ^ 24 % 256, n / 2 ^ 16 % 256, n / 2 ^ 8 % 256, n % 256]

/-- The bytes of one data entry; `first` marks the first entry of the
file, which has no reuse byte. -/
def entryBytes (first : Bool) (e : HEntry) : List Nat :=
  (if first then [] else [e.reuse]) ++ [e.key.length - e.reuse] ++
    e.key.drop e.reuse ++ lebEncode (2 * e.val.length) ++ e.val

/-- The data section. -/
def dataBytes : Bool → List HEntry → List Nat
  | _, [] => []
  | first, e :: es => entryBytes first e ++ dataBytes false es

/-- Byte offset of entry `j` within the data section. -/
def entryOffAux : Bool → List HEntry → Nat → Nat
  | _, _, 0 => 0
  | _, [], _ + 1 => 0
  | first, e :: es, j + 1 => (entryBytes first e).length + entryOffAux false es j

def entryOff (es : List HEntry) (j : Nat) : Nat := entryOffAux true es j

/-- Well-formedness of the data section: strictly increasing non-empty
byte keys of at most 255 bytes, byte-sized values, values small enough for
the reader's 8-byte varint buffer, and reuse counts that agree with the
previous key (the first entry reuses nothing). -/
def EntriesWF (es : List HEntry) : Prop :=
  (es.map HEntry.key).Chain' (fun a b => lexCompare a b = .lt) ∧
  (∀ e ∈ es, e.key ≠ [] ∧ e.key.length ≤ 255 ∧ (∀ b ∈ e.key, b < 256) ∧
    (∀ b ∈ e.val, b < 256) ∧ e.val.length < 2 ^ 32 ∧ e.reuse ≤ e.key.length) ∧
  (∀ e, es.head? = some e → e.reuse = 0) ∧
  es.Chain' (fun e e' => e'.key.take e'.reuse = e.key.take e'.reuse)

/-- Index of the first entry whose key's first byte is at least `b`
(`es.length` when there is none). -/
def firstGE (es : List HEntry) (b : Nat) : Nat :=
  es.findIdx (fun e => b ≤ e.key.headD 0)

/-- Offset stored in an index slot pointing at entry `j`: the entry's
offset, past the reuse byte when there is one. -/
def slotOff (es : List HEntry) (j : Nat) : Nat :=
  entryOff es j + (if j = 0 then 0 else 1)

/-- Dense-first-byte (type `0x00`) table: data, then
`(0x00, first_char_base, range, jump_table[range + 1])` where slot `c`
points past the reuse byte of the first entry whose first byte is at least
`base + c`. -/
def honeyTable0 (es : List HEntry) : List Nat × Nat :=
  let base := ((es.headD ⟨[], [], 0⟩).key).headD 0
  let lastb := ((es.getLastD ⟨[], [], 0⟩).key).headD 0
  let range := lastb - base
  let data := dataBytes true es
  (data ++ [0x00, base, range] ++
    ((List.range (range + 1)).map
      (fun c => be32enc (slotOff es (firstGE es (base + c))))).flatten,
   data.length)

/-- The stored 4-byte binary-chop prefix of a key (NUL padded). -/
def kkeyOf (k : List Nat) : List Nat := resizePad k 4

/-- Starts of the runs of entries sharing a stripped 4-byte prefix. -/
def groupStarts (es : List HEntry) : List Nat :=
  (List.range es.length).filter
    (fun j => j = 0 ∨
      stripNul (kkeyOf ((es.getD (j - 1) ⟨[], [], 0⟩).key)) ≠
        stripNul (kkeyOf ((es.getD j ⟨[], [], 0⟩).key)))

/-- Fixed-prefix binary-chop (type `0x01`) table: data, then
`(0x01, count, records)`, one record `(4-byte NUL-padded prefix,
32-bit offset of the group's first entry)` per distinct stripped prefix. -/
def honeyTable1 (es : List HEntry) : List Nat × Nat :=
  let data := dataBytes true es
  let gs := groupStarts es
  (data ++ [0x01] ++ be32enc gs.length ++
    (gs.map (fun j => kkeyOf ((es.getD j ⟨[], [], 0⟩).key) ++
      be32enc (entryOff es j))).flatten,
   data.length)

/-- Pointer stored for entry `j` in a skiplist index: the position of the
entry's value-size varint. -/
def ptrOf (es : List HEntry) (j : Nat) : Nat :=
  slotOff es j + 1 + ((es.getD j ⟨[], [], 0⟩).key.length - (es.getD j ⟨[], [], 0⟩).reuse)

/-- One skiplist index entry: `(reuse 0, len, key bytes, varint ptr)`. -/
def ixEntryBytes (q : List Nat × Nat) : List Nat :=
  [0, q.1.length] ++ q.1 ++ lebEncode q.2

/-- A skiplist index section for the key/pointer list `Q`. -/
def ixBytes (Q : List (List Nat × Nat)) : List Nat :=
  (Q.map ixEntryBytes).flatten

/-- The key/pointer pairs a skiplist index stores: every data entry's key
with the position of that entry's value-size varint. -/
def tableQ (es : List HEntry) : List (List Nat × Nat) :=
  (List.range es.length).map (fun j => ((es.getD j ⟨[], [], 0⟩).key, ptrOf es j))

/-- Skiplist (type `0x02`) table: data, then `0x02` followed by one
uncompressed index entry `(0, len, key, varint ptr)` per data entry. -/
def honeyTable2 (es : List HEntry) : List Nat × Nat :=
  let data := dataBytes true es
  (data ++ 0x02 :: ixBytes (tableQ es), data.length)

/-- Reference recursion for the skiplist scan loop: walk the index pairs,
carrying the last processed pair; stop below the first key above the
target (returning the carried pair), on an exact match (returning the
matching pair), or at the end (returning the carried pair and the last
comparison outcome). -/
def skipScanSpec (key : List Nat) :
    List (List Nat × Nat) → List Nat × Nat → Ordering →
      List Nat × Nat × Ordering
  | [], acc, c0 => (acc.1, acc.2, c0)
  | q :: rest, acc, c0 =>
    match lexCompare q.1 key with
    | .gt => (acc.1, acc.2, .gt)
    | .eq => (q.1, q.2, .eq)
    | .lt => skipScanSpec key rest q .lt

/-- The first stored key not below `k`, in table order. -/
def firstKeyGE (keys : List (List Nat)) (k : List Nat) : Option (List Nat) :=
  keys.find? (fun kk => decide (lexCompare kk k ≠ .lt))

/-- The priming condition a cursor's `last_key` must satisfy for a run of
entries: each entry's reuse count takes the same bytes from the previous
key (initially `prev`) as from its own key. -/
def reuseChain : List Nat → List HEntry → Prop
  | _, [] => True
  | prev, e :: es =>
    e.key.take e.reuse = prev.take e.reuse ∧ reuseChain e.key es

/-- Per-entry well-formedness used by the scan lemmas. -/
def entryWF (e : HEntry) : Prop :=
  e.key ≠ [] ∧ e.reuse ≤ e.key.length ∧ e.val.length < 2 ^ 32

/-- Specification of `do_find(key, false)` from a fresh cursor on a table
whose data section stores `es`, laid out in the file `F` with root `R`:
a stored key equal to `key` is found (`true`, cursor on it); otherwise the
cursor lands on the first stored key above `key` — which under sortedness
is the least stored key greater than `key` — returning `false`; when every
stored key is below `key` the call returns `false` with the cursor at the
end. -/
def FindBehaviour (es : List HEntry) (key : List Nat) (F : List Nat)
    (R : Nat) : Prop :=
  (key ∈ es.map HEntry.key →
    ∃ c', honeyDoFind F R key HoneyCursor.fresh = .ok (true, c') ∧
      c'.current_key = key ∧ c'.is_at_end = false) ∧
  (key ∉ es.map HEntry.key →
    ∀ kk, firstKeyGE (es.map HEntry.key) key = some kk →
      kk ∈ es.map HEntry.key ∧ lexCompare key kk = .lt ∧
      (∀ k2 ∈ es.map HEntry.key, lexCompare k2 key ≠ .lt →
        lexCompare kk k2 ≠ .gt) ∧
      ∃ c', honeyDoFind F R key HoneyCursor.fresh = .ok (false, c') ∧
        c'.current_key = kk ∧ c'.is_at_end = false) ∧
  (firstKeyGE (es.map HEntry.key) key = none →
    ∃ c', honeyDoFind F R key HoneyCursor.fresh = .ok (false, c') ∧
      c'.is_at_end = true)

/-! # Theorems -/

/-! ## C2: MultiAndPostList maxweight soundness -/

/-- C2: `MultiAndPostList::recalc_maxweight` returns the sum of the
children's `recalc_maxweight` results, and whenever every child's weight
for the current document is bounded by its own recalculated maximum, the
node's `get_weight` is bounded by the node's recalculated maximum. -/
theorem C2_multiand_maxweight (kids : List AndChild)
    (doclen uniqueTerms wdfdocmax : Nat)
    (hb : ∀ c ∈ kids, c.weight doclen uniqueTerms wdfdocmax ≤ c.maxw) :
    MultiAnd_recalc_maxweight kids = (kids.map AndChild.maxw).sum ∧
    MultiAnd_get_weight kids doclen uniqueTerms wdfdocmax ≤
      MultiAnd_recalc_maxweight kids := by
  refine ⟨rfl, ?_⟩
  simpa [MultiAnd_get_weight, MultiAnd_recalc_maxweight] using
    List.sum_le_sum hb

/-- Witness for C2 on a concrete two-child node. -/
theorem C2_multiand_maxweight_witness :
    MultiAnd_recalc_maxweight [⟨2, fun _ _ _ => 1⟩, ⟨3, fun _ _ _ => 3⟩] =
      ([⟨2, fun _ _ _ => 1⟩, ⟨3, fun _ _ _ => 3⟩].map AndChild.maxw).sum ∧
    MultiAnd_get_weight [⟨2, fun _ _ _ => 1⟩, ⟨3, fun _ _ _ => 3⟩] 5 4 3 ≤
      MultiAnd_recalc_maxweight [⟨2, fun _ _ _ => 1⟩, ⟨3, fun _ _ _ => 3⟩] :=
  C2_multiand_maxweight _ 5 4 3 (by
    intro c hc
    simp only [List.mem_cons, List.mem_singleton, List.not_mem_nil, or_false] at hc
    rcases hc with h | h <;> subst h <;> norm_num)

/-! ## C5: PL2+ serialisation round-trip -/

/-- C5: for valid parameters, `unserialise` after `serialise` returns the
same `(c, delta)` pair. -/
theorem C5_pl2plus_roundtrip (c delta : ℚ) (hc : 0 < c) (hd : 0 < delta) :
    pl2plus_unserialise (pl2plus_serialise c delta) = .ok (c, delta) := by
  simp [pl2plus_serialise, pl2plus_unserialise, serialise_double,
        unserialise_double, not_le.mpr hc, not_le.mpr hd]

/-- Witness for C5 at `c = 1`, `delta = 4/5`. -/
theorem C5_pl2plus_roundtrip_witness :
    pl2plus_unserialise (pl2plus_serialise 1 (4 / 5)) = .ok (1, 4 / 5) :=
  C5_pl2plus_roundtrip 1 (4 / 5) (by norm_num) (by norm_num)

/-! ## C7: registry registration -/

theorem mapFind?_insertOrReplace (m : List (String × Nat)) (k : String)
    (v : Nat) : mapFind? (mapInsertOrReplace m k v) k = some v := by
  induction m with
  | nil => simp [mapInsertOrReplace, mapFind?]
  | cons kv rest ih =>
    obtain ⟨k', v'⟩ := kv
    by_cases h : k' = k
    · simp [mapInsertOrReplace, mapFind?, h]
    · simp [mapInsertOrReplace, mapFind?, h, ih]

/-- C7 counterexample: registering an object whose `name()` is empty
raises `InvalidOperationError`, which is not the invalid-argument error
the claim states. -/
theorem C7_counterexample :
    register_object [] ⟨"", 7⟩ = .error .InvalidOperation ∧
    XapianError.InvalidOperation ≠ XapianError.InvalidArgument := by
  exact ⟨rfl, by decide⟩

/-- C7 (amended): registering an empty name raises an invalid-operation
error (leaving the map untouched); registering a duplicate name succeeds,
releases the prior entry, and stores the clone under the name. -/
theorem C7_register_object_amended (m : List (String × Nat)) (o : RegObj) :
    (o.name = "" → register_object m o = .error .InvalidOperation) ∧
    (o.name ≠ "" →
      register_object m o =
        .ok (mapInsertOrReplace m o.name o.payload, mapFind? m o.name) ∧
      mapFind? (mapInsertOrReplace m o.name o.payload) o.name =
        some o.payload) := by
  constructor
  · intro h
    simp [register_object, h]
  · intro h
    refine ⟨by simp [register_object, h, RegObj.clone], ?_⟩
    exact mapFind?_insertOrReplace m o.name o.payload

/-- Witness for C7's amended theorem: replacing the existing entry for
`"bm25"` releases payload 1 and stores payload 2. -/
theorem C7_register_object_amended_witness :
    register_object [("bm25", 1)] ⟨"bm25", 2⟩ =
      .ok (mapInsertOrReplace [("bm25", 1)] "bm25" 2,
           mapFind? [("bm25", 1)] "bm25") ∧
    mapFind? (mapInsertOrReplace [("bm25", 1)] "bm25" 2) "bm25" = some 2 :=
  (C7_register_object_amended [("bm25", 1)] ⟨"bm25", 2⟩).2 (by decide)

/-! ## C8: writable-database assignment -/

/-- C8: assigning into a writable handle succeeds exactly when the source
is writable, copying the source's internal pointer; a read-only source
raises an invalid-argument error (and, the operation failing before any
assignment, the target is unchanged). -/
theorem C8_omwritable_assign (t s : OmDatabaseModel) :
    (s.is_writable = true →
      omwritable_assign t s = .ok { t with mydb := s.mydb }) ∧
    (s.is_writable = false →
      omwritable_assign t s = .error .InvalidArgument) ∧
    ((∃ r, omwritable_assign t s = .ok r) ↔ s.is_writable = true) := by
  cases hw : s.is_writable <;>
    simp [omwritable_assign, hw]

/-- Witness for C8: a writable source and a read-only source. -/
theorem C8_omwritable_assign_witness :
    omwritable_assign ⟨1, true⟩ ⟨2, true⟩ = .ok ⟨2, true⟩ ∧
    omwritable_assign ⟨1, true⟩ ⟨2, false⟩ = .error .InvalidArgument :=
  ⟨(C8_omwritable_assign ⟨1, true⟩ ⟨2, true⟩).1 rfl,
   ((C8_omwritable_assign ⟨1, true⟩ ⟨2, false⟩).2).1 rfl⟩

/-! ## C9: add_document term validation -/

/-- C9: `add_document` raises an invalid-argument error whenever some term
name is empty — without consulting the underlying database (the result
does not depend on `impl`) — and otherwise forwards to the underlying
database, returning its result. -/
theorem C9_add_document (impl : Nat → List OmDocumentTerm → Nat × Nat)
    (db : Nat) (terms : List OmDocumentTerm) :
    ((∃ t ∈ terms, t.tname = "") →
      om_add_document impl db terms = .error .InvalidArgument) ∧
    ((∀ t ∈ terms, t.tname ≠ "") →
      om_add_document impl db terms = .ok (impl db terms)) := by
  constructor
  · rintro ⟨t, ht, hname⟩
    have : terms.any (fun t => t.tname.length = 0) = true := by
      refine List.any_eq_true.mpr ⟨t, ht, ?_⟩
      simp [hname]
    simp [om_add_document, this]
  · intro h
    have hall : terms.any (fun t => t.tname.length = 0) = false := by
      simp only [List.any_eq_false, decide_eq_false_iff_not]
      intro t ht
      obtain ⟨⟨data⟩⟩ := t
      have hne := h _ ht
      simp only [ne_eq] at hne
      intro hz
      apply hne
      simp only [String.length] at hz
      have hdata : data = [] := by simpa using hz
      subst hdata
      rfl
    simp [om_add_document, hall]

/-- Witness for C9: one document with an empty term name, one without. -/
theorem C9_add_document_witness :
    om_add_document (fun db _ => (42, db)) 0 [⟨""⟩] =
      .error .InvalidArgument ∧
    om_add_document (fun db _ => (42, db)) 0 [⟨"hello"⟩] = .ok (42, 0) :=
  ⟨(C9_add_document _ 0 [⟨""⟩]).1 ⟨⟨""⟩, by simp, rfl⟩,
   (C9_add_document _ 0 [⟨"hello"⟩]).2 (by decide)⟩

/-! ## C10: OpenDocument metadata accumulation -/

theorem spaceSeparated_cons_append (a b : String) (t : List String) :
    spaceSeparated ((a ++ " " ++ b) :: t) = a ++ " " ++ spaceSeparated (b :: t) := by
  cases t with
  | nil => rfl
  | cons c t' =>
    show (a ++ " " ++ b) ++ " " ++ spaceSeparated (c :: t') =
      a ++ " " ++ (b ++ " " ++ spaceSeparated (c :: t'))
    simp [String.append_assoc]

theorem append_space_ne_empty (a b : String) : a ++ " " ++ b ≠ "" := by
  intro h
  have h2 := congrArg String.length h
  rw [String.length_append, String.length_append] at h2
  have e1 : (" " : String).length = 1 := rfl
  have e2 : ("" : String).length = 0 := rfl
  omega

theorem foldl_appendField_of_ne (fs : List String) :
    ∀ acc : String, acc ≠ "" →
      fs.foldl appendField acc = spaceSeparated (acc :: fs) := by
  induction fs with
  | nil => intro acc _; rfl
  | cons c t ih =>
    intro acc hacc
    have hstep : appendField acc c = acc ++ " " ++ c := by
      simp [appendField, String.isEmpty_iff, hacc]
    show t.foldl appendField (appendField acc c) = spaceSeparated (acc :: c :: t)
    rw [hstep, ih _ (append_space_ne_empty acc c),
        spaceSeparated_cons_append]
    rfl

theorem foldl_appendField_empty (fs : List String) :
    fs.foldl appendField "" = spaceSeparated (fs.dropWhile (· == "")) := by
  induction fs with
  | nil => rfl
  | cons c t ih =>
    show t.foldl appendField (appendField "" c) = _
    have hisempty : ("" : String).isEmpty = true := rfl
    have hc : appendField "" c = c := by
      simp [appendField, hisempty, String.empty_append]
    rw [hc]
    by_cases h : c = ""
    · subst h
      simpa using ih
    · have hdrop : (c :: t).dropWhile (· == "") = c :: t := by
        simp [List.dropWhile_cons, h]
      rw [hdrop]
      exact foldl_appendField_of_ne t c h

theorem processAll_keywords (p : OpenDocMetaParser) (fs : List String)
    (hf : p.field = .KEYWORDS) :
    processAll p fs = { p with keywords := fs.foldl appendField p.keywords } := by
  induction fs generalizing p with
  | nil => rfl
  | cons c t ih =>
    show processAll (process_content p c) t = _
    rw [ih (process_content p c) (by simp [process_content, hf])]
    simp [process_content, hf]

theorem processAll_title (p : OpenDocMetaParser) (fs : List String)
    (hf : p.field = .TITLE) :
    processAll p fs = { p with title := fs.foldl appendField p.title } := by
  induction fs generalizing p with
  | nil => rfl
  | cons c t ih =>
    show processAll (process_content p c) t = _
    rw [ih (process_content p c) (by simp [process_content, hf])]
    simp [process_content, hf]

theorem processAll_sample (p : OpenDocMetaParser) (fs : List String)
    (hf : p.field = .SAMPLE) :
    processAll p fs = { p with sample := fs.foldl appendField p.sample } := by
  induction fs generalizing p with
  | nil => rfl
  | cons c t ih =>
    show processAll (process_content p c) t = _
    rw [ih (process_content p c) (by simp [process_content, hf])]
    simp [process_content, hf]

theorem processAll_author (p : OpenDocMetaParser) (fs : List String)
    (hf : p.field = .AUTHOR) :
    processAll p fs = { p with author := fs.foldl appendField p.author } := by
  induction fs generalizing p with
  | nil => rfl
  | cons c t ih =>
    show processAll (process_content p c) t = _
    rw [ih (process_content p c) (by simp [process_content, hf])]
    simp [process_content, hf]

/-- C10 counterexample: a leading empty fragment contributes nothing at
all — the accumulated keywords for `["", "x"]` are `"x"`, not the
space-separated concatenation `" x"` the claim predicts when an empty
fragment "contributes only a separator". -/
theorem C10_counterexample :
    (processAll ⟨.KEYWORDS, "", "", "", "", ""⟩ ["", "x"]).keywords = "x" ∧
    "x" ≠ " x" ∧ spaceSeparated ["", "x"] = " x" := by
  refine ⟨rfl, by decide, rfl⟩

/-- C10 (amended): for each accumulated field, `process_content` appends
the fragment with exactly one space separator iff the field is already
non-empty and never discards accumulated content, so processing
`f1..fn` in order starting from an empty field yields the space-separated
concatenation of the fragments with leading empty fragments dropped
(a fragment arriving while the field is still empty is appended bare, so
leading empty fragments contribute nothing; later empty fragments
contribute only a separator). -/
theorem C10_process_content_amended (p : OpenDocMetaParser)
    (fs : List String) :
    (p.field = .KEYWORDS → p.keywords = "" →
      (processAll p fs).keywords = spaceSeparated (fs.dropWhile (· == ""))) ∧
    (p.field = .TITLE → p.title = "" →
      (processAll p fs).title = spaceSeparated (fs.dropWhile (· == ""))) ∧
    (p.field = .SAMPLE → p.sample = "" →
      (processAll p fs).sample = spaceSeparated (fs.dropWhile (· == ""))) ∧
    (p.field = .AUTHOR → p.author = "" →
      (processAll p fs).author = spaceSeparated (fs.dropWhile (· == ""))) := by
  refine ⟨fun hf h0 => ?_, fun hf h0 => ?_, fun hf h0 => ?_, fun hf h0 => ?_⟩
  · rw [processAll_keywords p fs hf]
    simp [h0, foldl_appendField_empty]
  · rw [processAll_title p fs hf]
    simp [h0, foldl_appendField_empty]
  · rw [processAll_sample p fs hf]
    simp [h0, foldl_appendField_empty]
  · rw [processAll_author p fs hf]
    simp [h0, foldl_appendField_empty]

/-- Witness for C10's amended theorem on a concrete fragment list. -/
theorem C10_process_content_amended_witness :
    (processAll ⟨.KEYWORDS, "", "", "", "", ""⟩ ["ir", "", "search"]).keywords =
      spaceSeparated (["ir", "", "search"].dropWhile (· == "")) :=
  (C10_process_content_amended ⟨.KEYWORDS, "", "", "", "", ""⟩
    ["ir", "", "search"]).1 rfl rfl

/-! ## C3: PL2+ non-discriminative terms -/

/-- C3: after `init` with a positive factor, if the term's wdf upper bound
is 0 or its mean occurrence rate `collfreq / collection_size` exceeds 1,
then `get_sumpart` returns 0 for every posting the term can produce
(`wdf ≤ wdf_upper_bound`) and `get_maxpart` returns 0. -/
theorem C3_pl2plus_nondiscriminative (s : PL2PlusWeight) (factor0 : ℝ)
    (hf : 0 < factor0)
    (hnd : s.wdf_upper_bound = 0 ∨
      1 < (s.collection_freq : ℝ) / (s.collection_size : ℝ)) :
    (∀ wdf len : Nat, wdf ≤ s.wdf_upper_bound →
      (s.init factor0).get_sumpart wdf len = 0) ∧
    (s.init factor0).get_maxpart = 0 := by
  have hf0 : factor0 ≠ 0 := ne_of_gt hf
  have hinit : s.init factor0 =
      { s with factor := factor0 * (s.wqf : ℝ),
               mean := (s.collection_freq : ℝ) / (s.collection_size : ℝ),
               upper_bound := 0 } := by
    unfold PL2PlusWeight.init
    rw [if_neg hf0, if_pos hnd]
  constructor
  · intro wdf len hwdf
    rw [hinit]
    unfold PL2PlusWeight.get_sumpart
    rcases hnd with h0 | hmean
    · have : wdf = 0 := by omega
      rw [if_pos (Or.inl this)]
    · rw [if_pos (Or.inr hmean)]
  · rw [hinit]
    rfl

/-- Witness for C3: collection frequency 3 over collection size 2 gives a
mean above 1; the scheme scores 0 and bounds 0. -/
theorem C3_pl2plus_nondiscriminative_witness :
    (PL2PlusWeight.init
        ⟨1, 4 / 5, 1, 10, 1, 20, 2, 3, 5, 0, 0, 0, 0, 0, 0, 0⟩ 1).get_sumpart
        5 10 = 0 ∧
    (PL2PlusWeight.init
        ⟨1, 4 / 5, 1, 10, 1, 20, 2, 3, 5, 0, 0, 0, 0, 0, 0, 0⟩ 1).get_maxpart
        = 0 :=
  ⟨(C3_pl2plus_nondiscriminative _ 1 (by norm_num)
      (Or.inr (by norm_num))).1 5 10 (by norm_num),
   (C3_pl2plus_nondiscriminative _ 1 (by norm_num)
      (Or.inr (by norm_num))).2⟩

/-! ## C1: MultiAndPostList emits the intersection -/

theorem mem_skipTo_iff (d x : Nat) (hx : ¬ x < d) (l : List Nat) :
    x ∈ skipTo d l ↔ x ∈ l := by
  induction l with
  | nil => simp [skipTo]
  | cons a t ih =>
    by_cases ha : a < d
    · have hne : x ≠ a := fun he => hx (he ▸ ha)
      simp only [skipTo, List.dropWhile_cons, decide_eq_true_eq, if_pos ha]
      simp only [skipTo] at ih
      rw [ih]
      simp [hne]
    · simp [skipTo, List.dropWhile_cons, ha]

theorem skipTo_head_not_lt (d : Nat) (l : List Nat) (a : Nat) (tl : List Nat)
    (h : skipTo d l = a :: tl) : ¬ a < d := by
  induction l with
  | nil => simp [skipTo] at h
  | cons b t ih =>
    by_cases hb : b < d
    · exact ih (by simpa [skipTo, List.dropWhile_cons, hb] using h)
    · simp only [skipTo, List.dropWhile_cons, decide_eq_true_eq,
        if_neg hb, List.cons.injEq] at h
      exact h.1 ▸ hb

theorem sorted_skipTo (d : Nat) (l : List Nat)
    (h : List.Chain' (· < ·) l) : List.Chain' (· < ·) (skipTo d l) :=
  h.sublist (List.dropWhile_sublist _)

theorem skipTo_eq_cons_of_mem (d : Nat) (l : List Nat)
    (hs : List.Chain' (· < ·) l) (hd : d ∈ l) :
    ∃ tl, skipTo d l = d :: tl := by
  have hmem : d ∈ skipTo d l := (mem_skipTo_iff d d (lt_irrefl d) l).mpr hd
  rcases hsk : skipTo d l with _ | ⟨a, tl⟩
  · rw [hsk] at hmem; simp at hmem
  · have hha := skipTo_head_not_lt d l a tl hsk
    have hsorted := sorted_skipTo d l hs
    rw [hsk] at hmem hsorted
    rcases List.mem_cons.mp hmem with he | ht
    · exact ⟨tl, by rw [he]⟩
    · exact absurd
        ((List.pairwise_cons.mp (List.chain'_iff_pairwise.mp hsorted)).1 d ht)
        hha

theorem scanKids_atEnd_spec (did : Nat) (ks : List (List Nat))
    (h : scanKids did ks = .atEnd) :
    ∃ k ∈ ks, ∀ x ∈ k, x < did := by
  induction ks with
  | nil => simp [scanKids] at h
  | cons k t ih =>
    rw [scanKids] at h
    rcases hsk : skipTo did k with _ | ⟨d, tl⟩ <;> rw [hsk] at h <;>
      dsimp only at h
    · refine ⟨k, List.mem_cons_self k t, fun x hx => ?_⟩
      have := List.dropWhile_eq_nil_iff.mp hsk x hx
      simpa using this
    · split at h
      · rcases hsc : scanKids did t with ks2 | - | ⟨nd, ks2⟩ <;>
          simp only [hsc] at h
        · simp at h
        · obtain ⟨k2, hk2, hall⟩ := ih hsc
          exact ⟨k2, List.mem_cons_of_mem k hk2, hall⟩
        · simp at h
      · simp at h

theorem scanKids_allMatch_spec (did : Nat) (ks ks2 : List (List Nat))
    (hs : ∀ k ∈ ks, List.Chain' (· < ·) k)
    (h : scanKids did ks = .allMatch ks2) :
    ks2 = ks.map (skipTo did) ∧ ∀ k ∈ ks, did ∈ k := by
  induction ks generalizing ks2 with
  | nil =>
    simp only [scanKids, ScanResult.allMatch.injEq] at h
    simp [← h]
  | cons k t ih =>
    rw [scanKids] at h
    rcases hsk : skipTo did k with _ | ⟨d, tl⟩ <;> rw [hsk] at h <;>
      dsimp only at h
    · simp at h
    · split at h
      · rename_i hd
        subst hd
        rcases hsc : scanKids d t with ks2' | - | ⟨nd, ks2'⟩ <;>
          simp only [hsc] at h
        · simp only [ScanResult.allMatch.injEq] at h
          obtain ⟨hmap, hall⟩ :=
            ih _ (fun k hk => hs k (List.mem_cons_of_mem _ hk)) hsc
          subst hmap
          refine ⟨by rw [← h, List.map_cons, ← hsk], fun k2 hk2 => ?_⟩
          rcases List.mem_cons.mp hk2 with he | ht
          · subst he
            have : d ∈ skipTo d k2 := by rw [hsk]; exact List.mem_cons_self d tl
            exact (mem_skipTo_iff d d (lt_irrefl d) k2).mp this
          · exact hall _ ht
        · simp at h
        · simp at h
      · simp at h

theorem scanKids_mismatch_spec (did : Nat) (ks ks2 : List (List Nat))
    (nd : Nat) (hs : ∀ k ∈ ks, List.Chain' (· < ·) k)
    (h : scanKids did ks = .mismatch nd ks2) :
    did < nd ∧
    (∃ k ∈ ks, ∀ x ∈ k, x < did ∨ nd ≤ x) ∧
    (∀ x, ¬ x < did → ((∀ k ∈ ks2, x ∈ k) ↔ (∀ k ∈ ks, x ∈ k))) ∧
    (∀ k ∈ ks2, List.Chain' (· < ·) k) := by
  induction ks generalizing ks2 with
  | nil => simp [scanKids] at h
  | cons k t ih =>
    rw [scanKids] at h
    rcases hsk : skipTo did k with _ | ⟨d, tl⟩ <;> rw [hsk] at h <;>
      dsimp only at h
    · simp at h
    · have hnotlt : ¬ d < did := skipTo_head_not_lt did k d tl hsk
      have hksorted : List.Chain' (· < ·) (d :: tl) := by
        rw [← hsk]
        exact sorted_skipTo did k (hs k (List.mem_cons_self k t))
      split at h
      · rename_i hd
        subst hd
        rcases hsc : scanKids d t with ks2' | - | ⟨nd', ks2'⟩ <;>
          simp only [hsc] at h
        · simp at h
        · simp at h
        · simp only [ScanResult.mismatch.injEq] at h
          obtain ⟨hnd, hks2⟩ := h
          subst hnd
          obtain ⟨hlt, ⟨kg, hkg, hgap⟩, hmemiff, hsort2⟩ :=
            ih _ (fun k hk => hs k (List.mem_cons_of_mem _ hk)) hsc
          refine ⟨hlt, ⟨kg, List.mem_cons_of_mem _ hkg, hgap⟩,
            fun x hx => ?_, fun k2 hk2 => ?_⟩
          · rw [← hks2]
            simp only [List.forall_mem_cons]
            rw [hmemiff x hx, ← hsk, mem_skipTo_iff d x hx k]
          · rw [← hks2] at hk2
            rcases List.mem_cons.mp hk2 with he | ht2
            · exact he ▸ hksorted
            · exact hsort2 _ ht2
      · rename_i hdne
        simp only [ScanResult.mismatch.injEq] at h
        obtain ⟨hnd, hks2⟩ := h
        subst hnd
        have hdlt : did < d := by omega
        have hpair := List.chain'_iff_pairwise.mp hksorted
        refine ⟨hdlt, ⟨k, List.mem_cons_self k t, fun x hx => ?_⟩,
          fun x hx => ?_, fun k2 hk2 => ?_⟩
        · by_cases hxlt : x < did
          · exact Or.inl hxlt
          · right
            have hxsk : x ∈ d :: tl := by
              rw [← hsk]
              exact (mem_skipTo_iff did x hxlt k).mpr hx
            rcases List.mem_cons.mp hxsk with he | ht
            · omega
            · have := (List.pairwise_cons.mp hpair).1 x ht
              omega
        · rw [← hks2]
          simp only [List.forall_mem_cons]
          rw [← hsk, mem_skipTo_iff did x hx k]
        · rw [← hks2] at hk2
          rcases List.mem_cons.mp hk2 with he | ht2
          · exact he ▸ hksorted
          · exact hs _ (List.mem_cons_of_mem _ ht2)

theorem filter_eq_filter_dropWhile (p q : Nat → Bool) (l : List Nat)
    (h : ∀ x ∈ l, q x = true → p x = false) :
    l.filter p = (l.dropWhile q).filter p := by
  induction l with
  | nil => rfl
  | cons a t ih =>
    by_cases hq : q a = true
    · rw [List.dropWhile_cons_of_pos hq]
      rw [List.filter_cons_of_neg (by simp [h a (List.mem_cons_self a t) hq])]
      exact ih (fun x hx => h x (List.mem_cons_of_mem a hx))
    · rw [List.dropWhile_cons_of_neg (by simpa using hq)]

theorem mem_skipTo_not_lt (d x : Nat) (l : List Nat)
    (hs : List.Chain' (· < ·) l) (hx : x ∈ skipTo d l) : ¬ x < d := by
  rcases hsk : skipTo d l with _ | ⟨a, tl⟩
  · rw [hsk] at hx; simp at hx
  · rw [hsk] at hx
    have ha := skipTo_head_not_lt d l a tl hsk
    have hsort := sorted_skipTo d l hs
    rw [hsk] at hsort
    rcases List.mem_cons.mp hx with he | ht
    · exact he ▸ ha
    · have := (List.pairwise_cons.mp (List.chain'_iff_pairwise.mp hsort)).1 x ht
      omega

theorem multiAndRun_eq_filter (c0 : List Nat) (rest : List (List Nat)) :
    List.Chain' (· < ·) c0 → (∀ k ∈ rest, List.Chain' (· < ·) k) →
    multiAndRun c0 rest =
      c0.filter (fun x => decide (∀ k ∈ rest, x ∈ k)) := by
  induction c0, rest using multiAndRun.induct with
  | case1 rest => intro _ _; simp [multiAndRun]
  | case2 d c0 rest hscan =>
    intro h0 hs
    rw [multiAndRun]
    simp only [hscan]
    obtain ⟨kg, hkg, hall⟩ := scanKids_atEnd_spec d rest hscan
    have hpair := List.chain'_iff_pairwise.mp h0
    symm
    rw [List.filter_eq_nil_iff]
    intro x hx
    simp only [decide_eq_true_eq, not_forall]
    refine ⟨kg, hkg, fun hxin => ?_⟩
    have hxlt := hall x hxin
    rcases List.mem_cons.mp hx with he | ht
    · omega
    · have := (List.pairwise_cons.mp hpair).1 x ht
      omega
  | case3 d c0 rest rest2 hscan ih =>
    intro h0 hs
    rw [multiAndRun]
    simp only [hscan]
    obtain ⟨hmap, hall⟩ := scanKids_allMatch_spec d rest rest2 hs hscan
    have hpair := List.pairwise_cons.mp (List.chain'_iff_pairwise.mp h0)
    have hs2 : ∀ k ∈ rest2, List.Chain' (· < ·) k := by
      intro k hk
      rw [hmap] at hk
      obtain ⟨k0, hk0, rfl⟩ := List.mem_map.mp hk
      exact sorted_skipTo d k0 (hs k0 hk0)
    rw [ih (List.chain'_iff_pairwise.mpr hpair.2) hs2]
    have hfc : List.filter (fun x => decide (∀ k ∈ rest, x ∈ k)) (d :: c0) =
        d :: List.filter (fun x => decide (∀ k ∈ rest, x ∈ k)) c0 := by
      simp only [List.filter_cons, decide_eq_true_eq]
      rw [if_pos hall]
    rw [hfc]
    congr 1
    apply List.filter_congr
    intro x hx
    have hxd : ¬ x < d := by
      have := hpair.1 x hx
      omega
    simp only [decide_eq_decide]
    rw [hmap]
    constructor
    · intro hin k hk
      have := hin (skipTo d k) (List.mem_map_of_mem (skipTo d) hk)
      exact (mem_skipTo_iff d x hxd k).mp this
    · intro hin k2 hk2
      obtain ⟨k0, hk0, rfl⟩ := List.mem_map.mp hk2
      exact (mem_skipTo_iff d x hxd k0).mpr (hin k0 hk0)
  | case4 d c0 rest nd rest2 hscan ih =>
    intro h0 hs
    rw [multiAndRun]
    simp only [hscan]
    obtain ⟨hdnd, ⟨kg, hkg, hgap⟩, hmemiff, hsort2⟩ :=
      scanKids_mismatch_spec d rest rest2 nd hs hscan
    have hpair := List.pairwise_cons.mp (List.chain'_iff_pairwise.mp h0)
    have h0' : List.Chain' (· < ·) c0 := List.chain'_iff_pairwise.mpr hpair.2
    rw [ih (sorted_skipTo nd c0 h0') hsort2]
    have hPd : ¬ ∀ k ∈ rest, d ∈ k := by
      intro hdin
      have := hgap d (hdin kg hkg)
      omega
    have hfc : List.filter (fun x => decide (∀ k ∈ rest, x ∈ k)) (d :: c0) =
        List.filter (fun x => decide (∀ k ∈ rest, x ∈ k)) c0 := by
      simp only [List.filter_cons, decide_eq_true_eq]
      rw [if_neg hPd]
    rw [hfc]
    rw [filter_eq_filter_dropWhile _ (fun x => decide (x < nd)) c0 ?gap]
    case gap =>
      intro x hx hq
      simp only [decide_eq_true_eq] at hq
      simp only [decide_eq_false_iff_not, not_forall]
      have hxd : d < x := hpair.1 x hx
      refine ⟨kg, hkg, fun hxin => ?_⟩
      have := hgap x hxin
      omega
    show (skipTo nd c0).filter _ = (skipTo nd c0).filter _
    apply List.filter_congr
    intro x hx
    have hxnd : ¬ x < nd := mem_skipTo_not_lt nd x c0 h0' hx
    have hxd : ¬ x < d := by omega
    simp only [decide_eq_decide]
    exact hmemiff x hxd

/-- C1: over strictly increasing child streams, the fused
`next`/`find_next_match` loop of `MultiAndPostList` emits exactly the
docids present in every child's stream (the intersection), each exactly
once and in strictly increasing order; and whenever the child scan reports
agreement (an emission), every checked child is positioned on the emitted
docid. -/
theorem C1_multiand_intersection (c0 : List Nat) (rest : List (List Nat))
    (h0 : List.Chain' (· < ·) c0)
    (hs : ∀ k ∈ rest, List.Chain' (· < ·) k) :
    multiAndRun c0 rest =
      c0.filter (fun x => decide (∀ k ∈ rest, x ∈ k)) ∧
    List.Chain' (· < ·) (multiAndRun c0 rest) ∧
    (∀ did ks ks2, (∀ k ∈ ks, List.Chain' (· < ·) k) →
      scanKids did ks = .allMatch ks2 → ∀ k ∈ ks2, k.head? = some did) := by
  refine ⟨multiAndRun_eq_filter c0 rest h0 hs, ?_, ?_⟩
  · rw [multiAndRun_eq_filter c0 rest h0 hs]
    exact h0.sublist (List.filter_sublist _)
  · intro did ks ks2 hks hsc k hk
    obtain ⟨hmap, hall⟩ := scanKids_allMatch_spec did ks ks2 hks hsc
    subst hmap
    obtain ⟨k0, hk0, rfl⟩ := List.mem_map.mp hk
    obtain ⟨tl, htl⟩ := skipTo_eq_cons_of_mem did k0 (hks k0 hk0) (hall k0 hk0)
    rw [htl]
    rfl

/-- Witness for C1, scenario S3: children on docids `[1,3,5,7]` and
`[3,4,5,8]` emit exactly `[3, 5]`. -/
theorem C1_multiand_intersection_witness :
    multiAndRun [1, 3, 5, 7] [[3, 4, 5, 8]] =
      [1, 3, 5, 7].filter (fun x => decide (∀ k ∈ [[3, 4, 5, 8]], x ∈ k)) ∧
    multiAndRun [1, 3, 5, 7] [[3, 4, 5, 8]] = [3, 5] :=
  ⟨(C1_multiand_intersection [1, 3, 5, 7] [[3, 4, 5, 8]]
      (by simp [List.chain'_cons])
      (by intro k hk; simp only [List.mem_singleton] at hk; subst hk
          simp [List.chain'_cons])).1,
   ((C1_multiand_intersection [1, 3, 5, 7] [[3, 4, 5, 8]]
      (by simp [List.chain'_cons])
      (by intro k hk; simp only [List.mem_singleton] at hk; subst hk
          simp [List.chain'_cons])).1).trans (by decide)⟩

/-! ## C6: cursor failure modes -/

/-- C6 counterexample: stepping a cursor whose entry's key-length byte
lies beyond EOF raises `DatabaseError` (the I/O database error kind, from
`"EOF/error while reading key length"`), which is not the
database-corruption error the claim requires for every mid-entry EOF. -/
theorem C6_counterexample :
    honeyNext [5] 10
      { pos := 0, last_key := [97], current_key := [97], val_size := 0,
        current_compressed := false, is_at_end := false } =
      .error .DatabaseError ∧
    XapianError.DatabaseError ≠ XapianError.DatabaseCorrupt :=
  ⟨rfl, by decide⟩

/-- C6 (amended): in `next`, EOF reading the first byte of an entry
raises the database-corruption error, while EOF reading the key-length
byte raises a database I/O error (not corruption); in `find`, an
index-type byte other than 0x00/0x01/0x02 raises the corruption error.
Each failure aborts the operation with an error instead of returning a
result. -/
theorem C6_cursor_errors (f : List Nat) (root : Nat) (c : HoneyCursor)
    (key : List Nat) (b : Nat) :
    (c.is_at_end = false → c.pos + c.val_size < root →
      f[c.pos + c.val_size]? = none →
      honeyNext f root c = .error .DatabaseCorrupt) ∧
    (∀ ch, c.is_at_end = false → c.pos + c.val_size < root →
      f[c.pos + c.val_size]? = some ch → c.last_key ≠ [] →
      f[c.pos + c.val_size + 1]? = none →
      honeyNext f root c = .error .DatabaseError) ∧
    (c.last_key = [] → f[root]? = some b → b ≠ 0 → b ≠ 1 → b ≠ 2 →
      honeyDoFind f root key c = .error .DatabaseCorrupt) := by
  refine ⟨fun hend hlt hnone => ?_, fun ch hend hlt hsome hlk hnone => ?_,
    fun hlk hroot h0 h1 h2 => ?_⟩
  · unfold honeyNext
    rw [if_neg (by simp [hend]), if_neg (by omega)]
    rw [hnone]
  · unfold honeyNext
    rw [if_neg (by simp [hend]), if_neg (by omega)]
    rw [hsome]
    dsimp only
    rw [if_neg hlk, hnone]
  · unfold honeyDoFind
    rw [if_neg (fun hcond => hcond.2.1 hlk)]
    unfold honeyFindIndex
    rw [hroot]
    rcases b with _ | _ | _ | b'
    · omega
    · omega
    · omega
    · rfl

/-- Witness for C6's amended theorem at three concrete corrupt inputs. -/
theorem C6_cursor_errors_witness :
    honeyNext [] 1 HoneyCursor.fresh = .error .DatabaseCorrupt ∧
    honeyNext [5] 10
      { pos := 0, last_key := [97], current_key := [97], val_size := 0,
        current_compressed := false, is_at_end := false } =
      .error .DatabaseError ∧
    honeyDoFind [3] 0 [97] HoneyCursor.fresh = .error .DatabaseCorrupt :=
  ⟨(C6_cursor_errors [] 1 HoneyCursor.fresh [97] 3).1 rfl (by decide) rfl,
   (C6_cursor_errors [5] 10
      { pos := 0, last_key := [97], current_key := [97], val_size := 0,
        current_compressed := false, is_at_end := false } [97] 3).2.1
     5 rfl (by decide) rfl (by decide) rfl,
   (C6_cursor_errors [3] 0 HoneyCursor.fresh [97] 3).2.2 rfl rfl
     (by decide) (by decide) (by decide)⟩

/-! ## C4: honey `find` over well-formed tables

First the varint codec facts, then file-access bookkeeping, then the
single-entry decode step, the forward-scan characterisation, and finally
one theorem per index type. -/

theorem lebEncode_ne_nil (n : Nat) : lebEncode n ≠ [] := by
  rw [lebEncode]
  split <;> simp

theorem lebDecode_lebEncode (n : Nat) : lebDecode (lebEncode n) = some n := by
  induction n using lebEncode.induct with
  | case1 n h =>
    rw [lebEncode, if_pos h]
    simp [lebDecode, h]
  | case2 n h ih =>
    rw [lebEncode, if_neg h]
    rcases hrest : lebEncode (n / 128) with _ | ⟨b2, rest2⟩
    · exact absurd hrest (lebEncode_ne_nil _)
    · rw [hrest] at ih
      show lebDecode ((n % 128 + 128) :: b2 :: rest2) = some n
      rw [lebDecode, if_neg (by omega), ih]
      show some (n % 128 + 128 - 128 + 128 * (n / 128)) = some n
      congr 1
      omega
      simp

theorem lebEncode_length (k : Nat) : ∀ n : Nat, n < 128 ^ (k + 1) →
    (lebEncode n).length ≤ k + 1 := by
  induction k with
  | zero =>
    intro n hn
    rw [lebEncode, if_pos (by simpa using hn)]
    simp
  | succ k ih =>
    intro n hn
    rw [lebEncode]
    split
    · simp
    · have hq : n / 128 < 128 ^ (k + 1) := by
        apply Nat.div_lt_of_lt_mul
        calc n < 128 ^ (k + 1 + 1) := hn
          _ = 128 * 128 ^ (k + 1) := by ring
      simpa using ih (n / 128) hq

theorem getElem?_of_drop_cons (f : List Nat) (pos a : Nat) (l : List Nat)
    (h : f.drop pos = a :: l) : f[pos]? = some a := by
  have h0 := List.getElem?_drop f pos 0
  rw [h] at h0
  simpa using h0.symm

theorem drop_succ_of_drop_cons (f : List Nat) (pos a : Nat) (l : List Nat)
    (h : f.drop pos = a :: l) : f.drop (pos + 1) = l := by
  rw [← List.drop_drop 1 pos f, h]
  rfl

theorem readVarintBytes_encode (n : Nat) :
    ∀ (f : List Nat) (pos cap : Nat) (rest : List Nat),
      f.drop pos = lebEncode n ++ rest →
      (lebEncode n).length ≤ cap →
      readVarintBytes f pos cap = lebEncode n := by
  induction n using lebEncode.induct with
  | case1 n h =>
    intro f pos cap rest hdrop hcap
    rw [lebEncode, if_pos h] at hdrop hcap ⊢
    obtain ⟨cap', rfl⟩ : ∃ cap', cap = cap' + 1 := by
      rcases cap with _ | c
      · simp at hcap
      · exact ⟨c, rfl⟩
    rw [readVarintBytes, getElem?_of_drop_cons f pos n rest hdrop]
    dsimp only
    rw [if_pos h]
  | case2 n h ih =>
    intro f pos cap rest hdrop hcap
    rw [lebEncode, if_neg h] at hdrop hcap ⊢
    obtain ⟨cap', rfl⟩ : ∃ cap', cap = cap' + 1 := by
      rcases cap with _ | c
      · simp at hcap
      · exact ⟨c, rfl⟩
    rw [List.cons_append] at hdrop
    rw [readVarintBytes, getElem?_of_drop_cons f pos _ _ hdrop]
    dsimp only
    rw [if_neg (by omega)]
    congr 1
    apply ih f (pos + 1) cap' rest
      (drop_succ_of_drop_cons f pos _ _ hdrop)
    simpa using hcap

theorem readVarintAll_encode (n : Nat) :
    ∀ (f : List Nat) (pos : Nat) (rest : List Nat),
      f.drop pos = lebEncode n ++ rest →
      readVarintAll f pos = some (lebEncode n) := by
  induction n using lebEncode.induct with
  | case1 n h =>
    intro f pos rest hdrop
    rw [lebEncode, if_pos h] at hdrop ⊢
    rw [readVarintAll]
    split
    · rename_i heq
      rw [getElem?_of_drop_cons f pos n rest hdrop] at heq
      exact absurd heq (by simp)
    · rename_i b heq
      rw [getElem?_of_drop_cons f pos n rest hdrop] at heq
      obtain rfl : n = b := Option.some.inj heq
      rw [if_pos h]
  | case2 n h ih =>
    intro f pos rest hdrop
    rw [lebEncode, if_neg h] at hdrop ⊢
    rw [List.cons_append] at hdrop
    rw [readVarintAll]
    split
    · rename_i heq
      rw [getElem?_of_drop_cons f pos _ _ hdrop] at heq
      exact absurd heq (by simp)
    · rename_i b heq
      rw [getElem?_of_drop_cons f pos _ _ hdrop] at heq
      obtain rfl : n % 128 + 128 = b := Option.some.inj heq
      rw [if_neg (by omega),
        ih f (pos + 1) rest (drop_succ_of_drop_cons f pos _ _ hdrop)]
      rfl

theorem resizePad_self (l : List Nat) : resizePad l l.length = l := by
  simp [resizePad]

theorem entryBytes_length (first : Bool) (e : HEntry) :
    (entryBytes first e).length =
      (if first then 0 else 1) + 1 + (e.key.length - e.reuse) +
        (lebEncode (2 * e.val.length)).length + e.val.length := by
  rcases first <;> simp [entryBytes] <;> omega

theorem leb_val_length_le (v : Nat) (hv : v < 2 ^ 32) :
    (lebEncode (2 * v)).length ≤ 8 := by
  have h5 : (128 : Nat) ^ (4 + 1) = 34359738368 := by norm_num
  have := lebEncode_length 4 (2 * v) (by omega)
  omega

theorem honeyNext_atEnd (f : List Nat) (root : Nat) (c : HoneyCursor)
    (hend : c.is_at_end = false) (hroot : root ≤ c.pos + c.val_size) :
    honeyNext f root c = .ok (false,
      { c with pos := c.pos + c.val_size, val_size := 0, is_at_end := true }) := by
  unfold honeyNext
  rw [if_neg (by simp [hend]), if_pos hroot]

theorem honeyNext_decodes_cons (f : List Nat) (root : Nat) (c : HoneyCursor)
    (e : HEntry) (tail : List Nat)
    (hend : c.is_at_end = false)
    (hlk : c.last_key ≠ [])
    (hdrop : f.drop (c.pos + c.val_size) = entryBytes false e ++ tail)
    (hroot : c.pos + c.val_size < root)
    (hreuse : e.key.take e.reuse = c.last_key.take e.reuse)
    (hrlen : e.reuse ≤ e.key.length)
    (hvwf : e.val.length < 2 ^ 32) :
    honeyNext f root c = .ok (true,
      { pos := c.pos + c.val_size + 2 + (e.key.length - e.reuse) +
          (lebEncode (2 * e.val.length)).length,
        last_key := e.key, current_key := e.key,
        val_size := e.val.length, current_compressed := false,
        is_at_end := false }) := by
  have hd0 : f.drop (c.pos + c.val_size) =
      e.reuse :: ((e.key.length - e.reuse) ::
        (e.key.drop e.reuse ++ (lebEncode (2 * e.val.length) ++
          (e.val ++ tail)))) := by
    rw [hdrop]
    simp [entryBytes]
  have hd1 : f.drop (c.pos + c.val_size + 1) =
      (e.key.length - e.reuse) ::
        (e.key.drop e.reuse ++ (lebEncode (2 * e.val.length) ++
          (e.val ++ tail))) :=
    drop_succ_of_drop_cons f _ _ _ hd0
  have hd2 : f.drop (c.pos + c.val_size + 2) =
      e.key.drop e.reuse ++ (lebEncode (2 * e.val.length) ++
        (e.val ++ tail)) := by
    have := drop_succ_of_drop_cons f _ _ _ hd1
    rw [show c.pos + c.val_size + 1 + 1 = c.pos + c.val_size + 2 by omega] at this
    exact this
  have hslen : (e.key.drop e.reuse).length = e.key.length - e.reuse := by
    simp
  have htake : (f.drop (c.pos + c.val_size + 2)).take (e.key.length - e.reuse) =
      e.key.drop e.reuse := by
    rw [hd2, ← hslen, List.take_left]
  have hd3 : f.drop (c.pos + c.val_size + 2 + (e.key.length - e.reuse)) =
      lebEncode (2 * e.val.length) ++ (e.val ++ tail) := by
    rw [← List.drop_drop, hd2, ← hslen, List.drop_left]
  have hread : next_from_index_read f
      (c.pos + c.val_size + 2 + (e.key.length - e.reuse)) =
      .ok ((lebEncode (2 * e.val.length)).length, e.val.length, false) := by
    unfold next_from_index_read
    rw [readVarintBytes_encode (2 * e.val.length) f _ 8 _ hd3
      (leb_val_length_le _ hvwf)]
    dsimp only
    rw [lebDecode_lebEncode]
    have h2 : 2 * e.val.length / 2 = e.val.length := by omega
    have h3 : 2 * e.val.length % 2 = 0 := by omega
    simp [h2, h3]
  have hck : c.last_key.take e.reuse ++
      resizePad ((f.drop (c.pos + c.val_size + 2)).take
        (e.key.length - e.reuse)) (e.key.length - e.reuse) = e.key := by
    rw [htake, ← hslen, resizePad_self, ← hreuse, List.take_append_drop]
  unfold honeyNext
  rw [if_neg (by simp [hend]), if_neg (by omega)]
  rw [getElem?_of_drop_cons f _ _ _ hd0]
  dsimp only
  rw [if_neg hlk]
  rw [getElem?_of_drop_cons f _ _ _ hd1]
  dsimp only
  rw [show c.pos + c.val_size + 1 + 1 = c.pos + c.val_size + 2 by omega]
  rw [hread]
  rw [hck]

theorem honeyNext_decodes_first (f : List Nat) (root : Nat) (c : HoneyCursor)
    (e : HEntry) (tail : List Nat)
    (hend : c.is_at_end = false)
    (hlk : c.last_key = [])
    (hdrop : f.drop (c.pos + c.val_size) = entryBytes true e ++ tail)
    (hroot : c.pos + c.val_size < root)
    (hr0 : e.reuse = 0)
    (hvwf : e.val.length < 2 ^ 32) :
    honeyNext f root c = .ok (true,
      { pos := c.pos + c.val_size + 1 + e.key.length +
          (lebEncode (2 * e.val.length)).length,
        last_key := e.key, current_key := e.key,
        val_size := e.val.length, current_compressed := false,
        is_at_end := false }) := by
  have hd0 : f.drop (c.pos + c.val_size) =
      e.key.length :: (e.key ++ (lebEncode (2 * e.val.length) ++
        (e.val ++ tail))) := by
    rw [hdrop]
    simp [entryBytes, hr0]
  have hd1 : f.drop (c.pos + c.val_size + 1) =
      e.key ++ (lebEncode (2 * e.val.length) ++ (e.val ++ tail)) :=
    drop_succ_of_drop_cons f _ _ _ hd0
  have htake : (f.drop (c.pos + c.val_size + 1)).take e.key.length = e.key := by
    rw [hd1, List.take_left]
  have hd2 : f.drop (c.pos + c.val_size + 1 + e.key.length) =
      lebEncode (2 * e.val.length) ++ (e.val ++ tail) := by
    rw [← List.drop_drop, hd1, List.drop_left]
  have hread : next_from_index_read f
      (c.pos + c.val_size + 1 + e.key.length) =
      .ok ((lebEncode (2 * e.val.length)).length, e.val.length, false) := by
    unfold next_from_index_read
    rw [readVarintBytes_encode (2 * e.val.length) f _ 8 _ hd2
      (leb_val_length_le _ hvwf)]
    dsimp only
    rw [lebDecode_lebEncode]
    have h2 : 2 * e.val.length / 2 = e.val.length := by omega
    have h3 : 2 * e.val.length % 2 = 0 := by omega
    simp [h2, h3]
  unfold honeyNext
  rw [if_neg (by simp [hend]), if_neg (by omega)]
  rw [getElem?_of_drop_cons f _ _ _ hd0]
  dsimp only
  rw [if_pos hlk]
  rw [hread, htake]
  rw [hlk]
  simp [resizePad_self]

theorem entryBytes_cons_length_pos (first : Bool) (e : HEntry) :
    1 ≤ (entryBytes first e).length := by
  rw [entryBytes_length]
  rcases first <;> simp <;> omega

theorem dataBytes_cons (first : Bool) (e : HEntry) (es : List HEntry) :
    dataBytes first (e :: es) = entryBytes first e ++ dataBytes false es := rfl

theorem lexCompare_eq_iff (a : List Nat) : ∀ b : List Nat,
    lexCompare a b = .eq ↔ a = b := by
  induction a with
  | nil => intro b; cases b <;> simp [lexCompare]
  | cons x xs ih =>
    intro b
    cases b with
    | nil => simp [lexCompare]
    | cons y ys =>
      rw [lexCompare]
      by_cases h1 : x < y
      · rw [if_pos h1]
        simp
        omega
      · rw [if_neg h1]
        by_cases h2 : y < x
        · rw [if_pos h2]
          simp
          omega
        · rw [if_neg h2]
          have hxy : x = y := by omega
          subst hxy
          rw [ih ys]
          simp

theorem findScan_run (rest : List HEntry) :
    ∀ (f : List Nat) (root : Nat) (key : List Nat) (c : HoneyCursor),
      c.is_at_end = false →
      c.last_key ≠ [] →
      c.pos + c.val_size + (dataBytes false rest).length = root →
      f.drop (c.pos + c.val_size) = dataBytes false rest ++ f.drop root →
      (∀ e ∈ rest, entryWF e) →
      reuseChain c.last_key rest →
      ((firstKeyGE (rest.map HEntry.key) key = none →
        ∃ c', findScan f root key c = .ok (false, c') ∧
          c'.is_at_end = true) ∧
       (∀ kk, firstKeyGE (rest.map HEntry.key) key = some kk →
        ∃ c', findScan f root key c =
            .ok (lexCompare kk key == Ordering.eq, c') ∧
          c'.current_key = kk ∧ c'.last_key = kk ∧ c'.is_at_end = false)) := by
  induction rest with
  | nil =>
    intro f root key c hend hlk hlen hdrop hwf hchain
    have hstep := honeyNext_atEnd f root c hend
      (by simp [dataBytes] at hlen; omega)
    have hrun : findScan f root key c = .ok (false,
        { c with pos := c.pos + c.val_size, val_size := 0,
                 is_at_end := true }) := by
      rw [findScan]
      split
      · rename_i heq; rw [hstep] at heq; simp at heq
      · rename_i c2 heq
        rw [hstep] at heq
        simp only [Except.ok.injEq, Prod.mk.injEq, true_and] at heq
        rw [← heq]
      · rename_i c2 heq
        rw [hstep] at heq
        simp at heq
    refine ⟨fun _ => ⟨_, hrun, rfl⟩, fun kk hkk => ?_⟩
    simp [firstKeyGE] at hkk
  | cons e rest' ih =>
    intro f root key c hend hlk hlen hdrop hwf hchain
    have hewf := hwf e (List.mem_cons_self e rest')
    obtain ⟨hkne, hrlen, hvwf⟩ := hewf
    rw [dataBytes_cons] at hlen hdrop
    rw [List.append_assoc] at hdrop
    have hroot : c.pos + c.val_size < root := by
      have h1 := entryBytes_cons_length_pos false e
      simp only [List.length_append] at hlen
      omega
    have hstep := honeyNext_decodes_cons f root c e _ hend hlk hdrop hroot
      hchain.1 hrlen hvwf
    set c1 : HoneyCursor :=
      { pos := c.pos + c.val_size + 2 + (e.key.length - e.reuse) +
          (lebEncode (2 * e.val.length)).length,
        last_key := e.key, current_key := e.key,
        val_size := e.val.length, current_compressed := false,
        is_at_end := false } with hc1
    have hpos1 : c1.pos + c1.val_size =
        c.pos + c.val_size + (entryBytes false e).length := by
      rw [hc1, entryBytes_length]
      simp
      omega
    have hlen1 : c1.pos + c1.val_size + (dataBytes false rest').length =
        root := by
      rw [hpos1]
      simp only [List.length_append] at hlen
      omega
    have hdrop1 : f.drop (c1.pos + c1.val_size) =
        dataBytes false rest' ++ f.drop root := by
      rw [hpos1, ← List.drop_drop, hdrop, List.drop_left]
    have hscan : findScan f root key c =
        match lexCompare e.key key with
        | Ordering.eq => .ok (true, c1)
        | Ordering.gt => .ok (false, c1)
        | Ordering.lt => findScan f root key c1 := by
      rw [findScan]
      split
      · rename_i heq; rw [hstep] at heq; simp at heq
      · rename_i c2 heq
        rw [hstep] at heq
        simp at heq
      · rename_i c2 heq
        rw [hstep] at heq
        simp only [Except.ok.injEq, Prod.mk.injEq, true_and] at heq
        rw [← heq]
    rcases hcmp : lexCompare e.key key with _ | _ | _
    · -- lt: this entry is below the key; the scan continues
      have hih := ih f root key c1 rfl hkne hlen1 hdrop1
        (fun e2 he2 => hwf e2 (List.mem_cons_of_mem e he2)) hchain.2
      have hfind : firstKeyGE ((e :: rest').map HEntry.key) key =
          firstKeyGE (rest'.map HEntry.key) key := by
        simp only [List.map_cons, firstKeyGE]
        rw [List.find?_cons_of_neg _ (by simp [hcmp])]
      rw [hscan, hcmp]
      dsimp only
      rw [hfind]
      exact hih
    · -- eq: found the key
      have hkeq : e.key = key := (lexCompare_eq_iff e.key key).mp hcmp
      constructor
      · intro hnone
        simp only [List.map_cons, firstKeyGE] at hnone
        rw [List.find?_cons_of_pos _ (by simp [hcmp])] at hnone
        cases hnone
      · intro kk hkk
        simp only [List.map_cons, firstKeyGE] at hkk
        rw [List.find?_cons_of_pos _ (by simp [hcmp])] at hkk
        obtain rfl : e.key = kk := Option.some.inj hkk
        refine ⟨c1, ?_, rfl, rfl, rfl⟩
        rw [hscan]
        simp [hcmp]
        decide
    · -- gt: first stored key above the target
      constructor
      · intro hnone
        simp only [List.map_cons, firstKeyGE] at hnone
        rw [List.find?_cons_of_pos _ (by simp [hcmp])] at hnone
        cases hnone
      · intro kk hkk
        simp only [List.map_cons, firstKeyGE] at hkk
        rw [List.find?_cons_of_pos _ (by simp [hcmp])] at hkk
        obtain rfl : e.key = kk := Option.some.inj hkk
        refine ⟨c1, ?_, rfl, rfl, rfl⟩
        rw [hscan]
        simp [hcmp]
        decide

theorem entryBytes_false_eq (e : HEntry) :
    entryBytes false e = e.reuse :: entryBytes true e := by
  simp [entryBytes]

theorem findScan_run_first (es : List HEntry) (f : List Nat) (root : Nat)
    (key : List Nat) (c : HoneyCursor)
    (hend : c.is_at_end = false)
    (hlk : c.last_key = [])
    (hlen : c.pos + c.val_size + (dataBytes true es).length = root)
    (hdrop : f.drop (c.pos + c.val_size) = dataBytes true es ++ f.drop root)
    (hwf : ∀ e ∈ es, entryWF e)
    (hchain : reuseChain [] es) :
    ((firstKeyGE (es.map HEntry.key) key = none →
      ∃ c', findScan f root key c = .ok (false, c') ∧
        c'.is_at_end = true) ∧
     (∀ kk, firstKeyGE (es.map HEntry.key) key = some kk →
      ∃ c', findScan f root key c =
          .ok (lexCompare kk key == Ordering.eq, c') ∧
        c'.current_key = kk ∧ c'.last_key = kk ∧ c'.is_at_end = false)) := by
  rcases es with _ | ⟨e, tl⟩
  · have hstep := honeyNext_atEnd f root c hend
      (by simp [dataBytes] at hlen; omega)
    have hrun : findScan f root key c = .ok (false,
        { c with pos := c.pos + c.val_size, val_size := 0,
                 is_at_end := true }) := by
      rw [findScan]
      split
      · rename_i heq; rw [hstep] at heq; simp at heq
      · rename_i c2 heq
        rw [hstep] at heq
        simp only [Except.ok.injEq, Prod.mk.injEq, true_and] at heq
        rw [← heq]
      · rename_i c2 heq
        rw [hstep] at heq
        simp at heq
    refine ⟨fun _ => ⟨_, hrun, rfl⟩, fun kk hkk => ?_⟩
    simp [firstKeyGE] at hkk
  · have hewf := hwf e (List.mem_cons_self e tl)
    obtain ⟨hkne, hrlen, hvwf⟩ := hewf
    have hr0 : e.reuse = 0 := by
      have h1 := hchain.1
      simp only [List.take_nil] at h1
      rcases List.take_eq_nil_iff.mp h1 with h | h
      · exact h
      · exact absurd h hkne
    rw [dataBytes_cons] at hlen hdrop
    rw [List.append_assoc] at hdrop
    have hroot : c.pos + c.val_size < root := by
      have h1 := entryBytes_cons_length_pos true e
      simp only [List.length_append] at hlen
      omega
    have hstep := honeyNext_decodes_first f root c e _ hend hlk hdrop hroot
      hr0 hvwf
    set c1 : HoneyCursor :=
      { pos := c.pos + c.val_size + 1 + e.key.length +
          (lebEncode (2 * e.val.length)).length,
        last_key := e.key, current_key := e.key,
        val_size := e.val.length, current_compressed := false,
        is_at_end := false } with hc1
    have hpos1 : c1.pos + c1.val_size =
        c.pos + c.val_size + (entryBytes true e).length := by
      rw [hc1, entryBytes_length]
      simp [hr0]
      omega
    have hlen1 : c1.pos + c1.val_size + (dataBytes false tl).length =
        root := by
      rw [hpos1]
      simp only [List.length_append] at hlen
      omega
    have hdrop1 : f.drop (c1.pos + c1.val_size) =
        dataBytes false tl ++ f.drop root := by
      rw [hpos1, ← List.drop_drop, hdrop, List.drop_left]
    have hscan : findScan f root key c =
        match lexCompare e.key key with
        | Ordering.eq => .ok (true, c1)
        | Ordering.gt => .ok (false, c1)
        | Ordering.lt => findScan f root key c1 := by
      rw [findScan]
      split
      · rename_i heq; rw [hstep] at heq; simp at heq
      · rename_i c2 heq
        rw [hstep] at heq
        simp at heq
      · rename_i c2 heq
        rw [hstep] at heq
        simp only [Except.ok.injEq, Prod.mk.injEq, true_and] at heq
        rw [← heq]
    rcases hcmp : lexCompare e.key key with _ | _ | _
    · have hih := findScan_run tl f root key c1 rfl hkne hlen1 hdrop1
        (fun e2 he2 => hwf e2 (List.mem_cons_of_mem e he2)) hchain.2
      have hfind : firstKeyGE ((e :: tl).map HEntry.key) key =
          firstKeyGE (tl.map HEntry.key) key := by
        simp only [List.map_cons, firstKeyGE]
        rw [List.find?_cons_of_neg _ (by simp [hcmp])]
      rw [hscan, hcmp]
      dsimp only
      rw [hfind]
      exact hih
    · constructor
      · intro hnone
        simp only [List.map_cons, firstKeyGE] at hnone
        rw [List.find?_cons_of_pos _ (by simp [hcmp])] at hnone
        cases hnone
      · intro kk hkk
        simp only [List.map_cons, firstKeyGE] at hkk
        rw [List.find?_cons_of_pos _ (by simp [hcmp])] at hkk
        obtain rfl : e.key = kk := Option.some.inj hkk
        refine ⟨c1, ?_, rfl, rfl, rfl⟩
        rw [hscan]
        simp [hcmp]
        decide
    · constructor
      · intro hnone
        simp only [List.map_cons, firstKeyGE] at hnone
        rw [List.find?_cons_of_pos _ (by simp [hcmp])] at hnone
        cases hnone
      · intro kk hkk
        simp only [List.map_cons, firstKeyGE] at hkk
        rw [List.find?_cons_of_pos _ (by simp [hcmp])] at hkk
        obtain rfl : e.key = kk := Option.some.inj hkk
        refine ⟨c1, ?_, rfl, rfl, rfl⟩
        rw [hscan]
        simp [hcmp]
        decide

theorem drop_append_add (X Y : List Nat) (t : Nat) :
    (X ++ Y).drop (X.length + t) = Y.drop t := by
  rw [List.drop_append_eq_append_drop]
  simp

theorem entryOffAux_zero (first : Bool) (es : List HEntry) :
    entryOffAux first es 0 = 0 := by
  cases es <;> rfl

theorem dataBytes_drop_aux (es : List HEntry) : ∀ (first : Bool) (j : Nat),
    1 ≤ j → j ≤ es.length →
    (dataBytes first es).drop (entryOffAux first es j) =
      dataBytes false (es.drop j) ∧
    entryOffAux first es j + (dataBytes false (es.drop j)).length =
      (dataBytes first es).length := by
  induction es with
  | nil => intro first j h1 h2; simp at h2; omega
  | cons e tl ih =>
    intro first j h1 h2
    rcases j with _ | j'
    · omega
    · have hoff : entryOffAux first (e :: tl) (j' + 1) =
          (entryBytes first e).length + entryOffAux false tl j' := rfl
      have hdb : dataBytes first (e :: tl) =
          entryBytes first e ++ dataBytes false tl := rfl
      have hdropj : (e :: tl).drop (j' + 1) = tl.drop j' := rfl
      rcases Nat.eq_zero_or_pos j' with hz | hp
      · subst hz
        rw [hoff, hdb, hdropj]
        constructor
        · rw [drop_append_add, entryOffAux_zero]
          rfl
        · rw [entryOffAux_zero]
          simp
      · have hih := ih false j' hp (by simpa using h2)
        rw [hoff, hdb, hdropj]
        constructor
        · rw [drop_append_add]
          exact hih.1
        · simp only [List.length_append]
          omega

theorem drop_append_le (X Y : List Nat) (n : Nat) (h : n ≤ X.length) :
    (X ++ Y).drop n = X.drop n ++ Y := by
  rw [List.drop_append_eq_append_drop, Nat.sub_eq_zero_of_le h]
  simp

theorem range_map_getD {α : Type} (l : List α) (d : α) :
    (List.range l.length).map (fun j => l.getD j d) = l := by
  induction l with
  | nil => simp
  | cons a t ih =>
    simp only [List.length_cons, List.range_succ_eq_map, List.map_cons,
      List.map_map]
    refine congrArg (a :: ·) ?_
    have hf : ((fun j => (a :: t).getD j d) ∘ Nat.succ) =
        (fun j => t.getD j d) := by
      funext j
      simp [List.getD_cons_succ]
    rw [hf, ih]

theorem getD_range_map {α : Type} (g : Nat → α) (n j : Nat) (d : α)
    (h : j < n) : ((List.range n).map g).getD j d = g j := by
  rw [List.getD_eq_getElem _ _ (by simpa using h)]
  rw [List.getElem_map]
  congr 1
  exact List.getElem_range _ _

theorem tableQ_map_fst (es : List HEntry) :
    (tableQ es).map Prod.fst = es.map HEntry.key := by
  rw [tableQ, List.map_map]
  have h1 : (Prod.fst ∘ fun j => ((es.getD j ⟨[], [], 0⟩).key, ptrOf es j)) =
      (HEntry.key ∘ fun j => es.getD j ⟨[], [], 0⟩) := rfl
  rw [h1, ← List.map_map]
  rw [range_map_getD]

theorem tableQ_getD (es : List HEntry) (j : Nat) (h : j < es.length) :
    (tableQ es).getD j ([], 0) =
      ((es.getD j ⟨[], [], 0⟩).key, ptrOf es j) := by
  rw [tableQ, getD_range_map _ _ _ _ h]

theorem tableQ_length (es : List HEntry) :
    (tableQ es).length = es.length := by
  simp [tableQ]

theorem table_drop_data (es : List HEntry) (I : List Nat) (j : Nat)
    (h1 : 1 ≤ j) (h2 : j ≤ es.length) :
    (dataBytes true es ++ I).drop (entryOff es j) =
      dataBytes false (es.drop j) ++ I := by
  have haux := dataBytes_drop_aux es true j h1 h2
  have hle : entryOff es j ≤ (dataBytes true es).length := by
    rw [entryOff]
    omega
  rw [drop_append_le _ _ _ hle, entryOff, haux.1]

theorem dataBytes_false_ne_nil (es : List HEntry) (e : HEntry)
    (h : es ≠ []) : dataBytes false es ≠ [] := by
  rcases es with _ | ⟨e2, tl⟩
  · exact absurd rfl h
  · rw [dataBytes_cons]
    intro hc
    have := entryBytes_cons_length_pos false e2
    have h1 : (entryBytes false e2 ++ dataBytes false tl).length = 0 := by
      rw [hc]; rfl
    simp only [List.length_append] at h1
    omega

theorem table_slot_drop (es : List HEntry) (I : List Nat) (j : Nat)
    (h : j < es.length) :
    (dataBytes true es ++ I).drop (slotOff es j) =
      entryBytes true (es.getD j ⟨[], [], 0⟩) ++
        (dataBytes false (es.drop (j + 1)) ++ I) := by
  rcases Nat.eq_zero_or_pos j with hz | hp
  · subst hz
    rcases es with _ | ⟨e, tl⟩
    · simp at h
    · have hso : slotOff (e :: tl) 0 = 0 := by
        simp [slotOff, entryOff, entryOffAux]
      rw [hso, List.drop_zero, dataBytes_cons]
      simp [List.append_assoc]
  · have hdj : es.drop j = es.getD j ⟨[], [], 0⟩ :: es.drop (j + 1) := by
      rw [List.getD_eq_getElem _ _ h]
      exact List.drop_eq_getElem_cons h
    have hso : slotOff es j = entryOff es j + 1 := by
      rw [slotOff, if_neg (by omega)]
    have hsplit : (dataBytes true es ++ I).drop (entryOff es j + 1) =
        ((dataBytes true es ++ I).drop (entryOff es j)).drop 1 := by
      rw [List.drop_drop]
    rw [hso, hsplit, table_drop_data es I j hp h.le, hdj, dataBytes_cons,
      entryBytes_false_eq]
    simp [List.append_assoc]

theorem ptr_drop (es : List HEntry) (I : List Nat) (j : Nat)
    (h : j < es.length) :
    (dataBytes true es ++ I).drop (ptrOf es j) =
      lebEncode (2 * (es.getD j ⟨[], [], 0⟩).val.length) ++
        ((es.getD j ⟨[], [], 0⟩).val ++
          (dataBytes false (es.drop (j + 1)) ++ I)) := by
  set e := es.getD j ⟨[], [], 0⟩ with he
  have h2 : (dataBytes true es ++ I).drop (ptrOf es j) =
      ((dataBytes true es ++ I).drop (slotOff es j)).drop
        (1 + (e.key.length - e.reuse)) := by
    rw [List.drop_drop, ptrOf, ← he]
    congr 1
    omega
  rw [h2, table_slot_drop es I j h, ← he]
  have h3 : entryBytes true e ++ (dataBytes false (es.drop (j + 1)) ++ I) =
      ([e.key.length - e.reuse] ++ e.key.drop e.reuse) ++
        (lebEncode (2 * e.val.length) ++
          (e.val ++ (dataBytes false (es.drop (j + 1)) ++ I))) := by
    simp [entryBytes, List.append_assoc]
  rw [h3]
  have h4 : 1 + (e.key.length - e.reuse) =
      ([e.key.length - e.reuse] ++ e.key.drop e.reuse).length := by
    simp
    omega
  rw [h4, List.drop_left]

theorem entryOffAux_succ (es : List HEntry) : ∀ (first : Bool) (j : Nat),
    j < es.length →
    entryOffAux first es (j + 1) = entryOffAux first es j +
      (entryBytes (if j = 0 then first else false)
        (es.getD j ⟨[], [], 0⟩)).length := by
  induction es with
  | nil => intro first j h; simp at h
  | cons e tl ih =>
    intro first j h
    rcases j with _ | j'
    · show (entryBytes first e).length + entryOffAux false tl 0 = _
      rw [entryOffAux_zero, entryOffAux_zero]
      simp [List.getD_cons_zero]
    · have hih := ih false j' (by simpa using h)
      show (entryBytes first e).length + entryOffAux false tl (j' + 1) =
        ((entryBytes first e).length + entryOffAux false tl j') + _
      rw [hih, List.getD_cons_succ]
      have hif1 : (if j' + 1 = 0 then first else false) = false := rfl
      have hif2 : (if j' = 0 then false else false) = false := by
        split <;> rfl
      rw [hif1, hif2]
      omega

theorem entryOff_succ (es : List HEntry) (j : Nat) (h : j < es.length) :
    entryOff es (j + 1) = entryOff es j +
      (entryBytes (if j = 0 then true else false)
        (es.getD j ⟨[], [], 0⟩)).length := by
  rw [entryOff, entryOff, entryOffAux_succ es true j h]

theorem ptrOf_lt_data (es : List HEntry) (j : Nat) (h : j < es.length) :
    ptrOf es j < (dataBytes true es).length := by
  have hsucc := entryOff_succ es j h
  have haux := dataBytes_drop_aux es true (j + 1) (by omega) (by omega)
  have h1 : entryOff es (j + 1) ≤ (dataBytes true es).length := by
    rw [entryOff]
    omega
  have hleb : 1 ≤ (lebEncode (2 * (es.getD j ⟨[], [], 0⟩).val.length)).length := by
    rcases hl : lebEncode (2 * (es.getD j ⟨[], [], 0⟩).val.length) with _ | ⟨b, r⟩
    · exact absurd hl (lebEncode_ne_nil _)
    · simp
  have h2 : ptrOf es j < entryOff es (j + 1) := by
    rw [hsucc, ptrOf, slotOff, entryBytes_length]
    have ht : (if (true : Bool) then (0 : Nat) else 1) = 0 := rfl
    have hf : (if (false : Bool) then (0 : Nat) else 1) = 1 := rfl
    by_cases hj0 : j = 0
    · rw [if_pos hj0, if_pos hj0, ht]
      omega
    · rw [if_neg hj0, if_neg hj0, hf]
      omega
  omega

theorem chain'_drop {α : Type} (R : α → α → Prop) (l : List α) (n : Nat)
    (h : l.Chain' R) : (l.drop n).Chain' R :=
  h.suffix (List.drop_suffix n l)

theorem reuseChain_of_chain' (es : List HEntry) :
    ∀ e : HEntry, (e :: es).Chain'
        (fun a b => b.key.take b.reuse = a.key.take b.reuse) →
      reuseChain e.key es := by
  induction es with
  | nil => intro e _; trivial
  | cons e2 tl ih =>
    intro e h
    rw [List.chain'_cons] at h
    exact ⟨h.1, ih e2 h.2⟩

theorem reuseChain_drop (es : List HEntry) (j : Nat) (h1 : 1 ≤ j)
    (h2 : j ≤ es.length)
    (hch : es.Chain' (fun a b => b.key.take b.reuse = a.key.take b.reuse)) :
    reuseChain ((es.getD (j - 1) ⟨[], [], 0⟩).key) (es.drop j) := by
  have hlt : j - 1 < es.length := by omega
  have hdj : es.drop (j - 1) = es.getD (j - 1) ⟨[], [], 0⟩ :: es.drop j := by
    rw [List.getD_eq_getElem _ _ hlt]
    have hco := List.drop_eq_getElem_cons hlt
    have heq : j - 1 + 1 = j := by omega
    rw [heq] at hco
    exact hco
  have hsuf := chain'_drop _ es (j - 1) hch
  rw [hdj] at hsuf
  exact reuseChain_of_chain' _ _ hsuf

theorem reuseChain_relax (prev : List Nat) (e : HEntry) (tl : List HEntry)
    (h : reuseChain prev (e :: tl)) (hr : e.reuse = 0) :
    reuseChain [] (e :: tl) := by
  refine ⟨?_, h.2⟩
  rw [hr]
  simp

theorem reuse_zero_of_head_ne (ep e : HEntry)
    (hstep : e.key.take e.reuse = ep.key.take e.reuse)
    (hne : ep.key.headD 0 ≠ e.key.headD 0) : e.reuse = 0 := by
  by_contra hc
  obtain ⟨r, hr⟩ : ∃ r, e.reuse = r + 1 := by
    rcases hrr : e.reuse with _ | r
    · exact absurd hrr hc
    · exact ⟨r, rfl⟩
  rcases hk : e.key with _ | ⟨a, as⟩
  · rw [hk] at hstep
    rcases hkp : ep.key with _ | ⟨b, bs⟩
    · rw [hkp, hk] at hne
      exact hne rfl
    · rw [hkp] at hstep
      rw [hr] at hstep
      simp [List.take_succ_cons] at hstep
  · rcases hkp : ep.key with _ | ⟨b, bs⟩
    · rw [hk, hkp, hr] at hstep
      simp [List.take_succ_cons] at hstep
    · rw [hk, hkp, hr] at hstep
      simp only [List.take_succ_cons, List.cons.injEq] at hstep
      rw [hk, hkp] at hne
      simp only [List.headD_cons] at hne
      exact hne hstep.1.symm

theorem resizePad_zero (l : List Nat) : resizePad l 0 = [] := by
  simp [resizePad]

theorem skipScan_eq_spec (Q : List (List Nat × Nat)) :
    ∀ (f : List Nat) (key : List Nat) (pos : Nat) (pk : List Nat)
      (pp : Nat) (c0 : Ordering),
      f.drop pos = ixBytes Q →
      f.length = pos + (ixBytes Q).length →
      (∀ q ∈ Q, q.2 < 2 ^ 32) →
      skipScan f key pos pk pk pp c0 = .ok (skipScanSpec key Q (pk, pp) c0) := by
  induction Q with
  | nil =>
    intro f key pos pk pp c0 hdrop hlen hq
    have hnone : f[pos]? = none := by
      rw [List.getElem?_eq_none]
      simp [ixBytes] at hlen
      omega
    rw [skipScan]
    split
    · rfl
    · rename_i b heq
      rw [hnone] at heq
      exact absurd heq (by simp)
  | cons q rest ih =>
    obtain ⟨k0, p0⟩ := q
    intro f key pos pk pp c0 hdrop hlen hq
    rw [ixBytes, List.map_cons, List.flatten_cons] at hdrop hlen
    have hshape : ixEntryBytes (k0, p0) =
        0 :: (k0.length :: (k0 ++ lebEncode p0)) := by
      simp [ixEntryBytes]
    rw [hshape] at hdrop hlen
    rw [List.cons_append, List.cons_append, List.append_assoc] at hdrop
    have h0 : f[pos]? = some 0 := getElem?_of_drop_cons _ _ _ _ hdrop
    have hd1 : f.drop (pos + 1) =
        k0.length :: (k0 ++ (lebEncode p0 ++ (rest.map ixEntryBytes).flatten)) :=
      drop_succ_of_drop_cons _ _ _ _ hdrop
    have h1 : f[pos + 1]? = some k0.length :=
      getElem?_of_drop_cons _ _ _ _ hd1
    have hd2 : f.drop (pos + 2) =
        k0 ++ (lebEncode p0 ++ (rest.map ixEntryBytes).flatten) :=
      drop_succ_of_drop_cons _ _ _ _ hd1
    have htake : (f.drop (pos + 2)).take k0.length = k0 := by
      rw [hd2, List.take_left]
    have hd3 : f.drop (pos + 2 + k0.length) =
        lebEncode p0 ++ (rest.map ixEntryBytes).flatten := by
      rw [← List.drop_drop, hd2, List.drop_left]
    have hvarint := readVarintAll_encode p0 f (pos + 2 + k0.length) _ hd3
    have hp032 := hq (k0, p0) (List.mem_cons_self _ _)
    have hlebl : (lebEncode p0).length ≤ 8 := by
      have h32 : p0 < 128 ^ (4 + 1) := by
        have hpow : (2 : Nat) ^ 32 < 128 ^ (4 + 1) := by norm_num
        omega
      have := lebEncode_length 4 p0 h32
      omega
    have hikey : resizePad pk 0 ++
        resizePad ((f.drop (pos + 2)).take k0.length) k0.length = k0 := by
      rw [resizePad_zero, htake, resizePad_self]
      rfl
    rw [skipScan]
    split
    · rename_i heq
      rw [h0] at heq
      exact absurd heq (by simp)
    · rename_i reuse heq
      rw [h0] at heq
      obtain rfl : (0 : Nat) = reuse := Option.some.inj heq
      rw [h1]
      dsimp only
      rw [hikey]
      rcases hcmp : lexCompare k0 key with _ | _ | _
      · -- lt: keep scanning
        rw [if_neg (by simp [hcmp]), hvarint]
        dsimp only
        rw [if_neg (by omega), lebDecode_lebEncode]
        dsimp only
        rw [if_neg (by simp [hcmp])]
        have hd4 : f.drop (pos + 2 + k0.length + (lebEncode p0).length) =
            (rest.map ixEntryBytes).flatten := by
          rw [← List.drop_drop, hd3, List.drop_left]
        have hih := ih f key (pos + 2 + k0.length + (lebEncode p0).length)
          k0 p0 .lt hd4
          (by
            simp only [List.length_cons, List.length_append] at hlen
            rw [ixBytes]
            omega)
          (fun q2 hq2 => hq q2 (List.mem_cons_of_mem _ hq2))
        rw [hih]
        simp [skipScanSpec, hcmp]
      · -- eq: stop on the matching index entry
        rw [if_neg (by simp [hcmp]), hvarint]
        dsimp only
        rw [if_neg (by omega), lebDecode_lebEncode]
        dsimp only
        rw [if_pos (by simp [hcmp])]
        simp [skipScanSpec, hcmp]
      · -- gt: keep the previous entry
        rw [if_pos (by simp [hcmp])]
        simp [skipScanSpec, hcmp]

theorem firstKeyGE_none_iff (keys : List (List Nat)) (k : List Nat) :
    firstKeyGE keys k = none ↔ ∀ kk ∈ keys, lexCompare kk k = .lt := by
  rw [firstKeyGE, List.find?_eq_none]
  constructor
  · intro h kk hkk
    have := h kk hkk
    simpa using this
  · intro h kk hkk
    simp [h kk hkk]

theorem skipScanSpec_all_lt (key : List Nat) (Q : List (List Nat × Nat)) :
    ∀ (pk : List Nat) (pp : Nat) (c0 : Ordering),
      (∀ q ∈ Q, lexCompare q.1 key = .lt) →
      skipScanSpec key Q (pk, pp) c0 =
        ((Q.getLastD (pk, pp)).1, (Q.getLastD (pk, pp)).2,
          if Q = [] then c0 else .lt) := by
  induction Q with
  | nil =>
    intro pk pp c0 _
    simp [skipScanSpec]
  | cons q rest ih =>
    intro pk pp c0 hall
    obtain ⟨k0, p0⟩ := q
    have hk0 : lexCompare k0 key = .lt := hall _ (List.mem_cons_self _ _)
    have hih := ih (k0) (p0) .lt (fun q2 hq2 => hall q2 (List.mem_cons_of_mem _ hq2))
    show skipScanSpec key ((k0, p0) :: rest) (pk, pp) c0 = _
    simp only [skipScanSpec, hk0]
    rw [hih, List.getLastD_cons]
    have hor : (if rest = [] then Ordering.lt else Ordering.lt) = .lt := by
      split <;> rfl
    rw [hor, if_neg (by simp)]

theorem skipScanSpec_found (key : List Nat) (Q : List (List Nat × Nat)) :
    ∀ (pk : List Nat) (pp : Nat) (c0 : Ordering) (j : Nat),
      j < Q.length →
      (∀ i, i < j → lexCompare ((Q.getD i ([], 0)).1) key = .lt) →
      ((lexCompare ((Q.getD j ([], 0)).1) key = .eq →
        skipScanSpec key Q (pk, pp) c0 =
          ((Q.getD j ([], 0)).1, (Q.getD j ([], 0)).2, .eq)) ∧
       (lexCompare ((Q.getD j ([], 0)).1) key = .gt →
        skipScanSpec key Q (pk, pp) c0 =
          (if j = 0 then (pk, pp, Ordering.gt)
           else ((Q.getD (j - 1) ([], 0)).1, (Q.getD (j - 1) ([], 0)).2,
             Ordering.gt)))) := by
  induction Q with
  | nil =>
    intro pk pp c0 j hj
    simp at hj
  | cons q rest ih =>
    intro pk pp c0 j hj hbefore
    obtain ⟨k0, p0⟩ := q
    rcases j with _ | j'
    · simp only [List.getD_cons_zero]
      constructor
      · intro heq
        show skipScanSpec key ((k0, p0) :: rest) (pk, pp) c0 = _
        simp only [skipScanSpec, heq]
      · intro hgt
        show skipScanSpec key ((k0, p0) :: rest) (pk, pp) c0 = _
        simp only [skipScanSpec, hgt]
        simp
    · have hk0 : lexCompare k0 key = .lt := by
        have := hbefore 0 (by omega)
        simpa using this
      have hih := ih k0 p0 .lt j' (by simpa using hj)
        (fun i hi => by
          have := hbefore (i + 1) (by omega)
          simpa using this)
      simp only [List.getD_cons_succ]
      constructor
      · intro heq
        show skipScanSpec key ((k0, p0) :: rest) (pk, pp) c0 = _
        simp only [skipScanSpec, hk0]
        exact hih.1 heq
      · intro hgt
        show skipScanSpec key ((k0, p0) :: rest) (pk, pp) c0 = _
        simp only [skipScanSpec, hk0]
        rw [hih.2 hgt]
        rcases Nat.eq_zero_or_pos j' with hz | hp
        · subst hz
          simp
        · rw [if_neg (by omega), if_neg (by omega)]
          obtain ⟨j2, rfl⟩ : ∃ j2, j' = j2 + 1 := ⟨j' - 1, by omega⟩
          simp [List.getD_cons_succ]

theorem ptrOf_pos (es : List HEntry) (j : Nat) : 1 ≤ ptrOf es j := by
  rw [ptrOf]
  omega

theorem ptrOf_add (es : List HEntry) (j : Nat) (h : j < es.length) :
    ptrOf es j + (lebEncode (2 * (es.getD j ⟨[], [], 0⟩).val.length)).length +
      (es.getD j ⟨[], [], 0⟩).val.length = entryOff es (j + 1) := by
  rw [entryOff_succ es j h, ptrOf, slotOff, entryBytes_length]
  have ht : (if (true : Bool) then (0 : Nat) else 1) = 0 := rfl
  have hf : (if (false : Bool) then (0 : Nat) else 1) = 1 := rfl
  by_cases hj0 : j = 0
  · rw [if_pos hj0, if_pos hj0, ht]
    omega
  · rw [if_neg hj0, if_neg hj0, hf]
    omega

theorem keys_getD (es : List HEntry) (j : Nat) (h : j < es.length) :
    (es.map HEntry.key).getD j [] = (es.getD j ⟨[], [], 0⟩).key := by
  rw [List.getD_eq_getElem _ _ (by simpa using h), List.getD_eq_getElem _ _ h]
  exact List.getElem_map _

theorem getD_map_fst (Q : List (List Nat × Nat)) (i : Nat) (h : i < Q.length) :
    (Q.map Prod.fst).getD i [] = (Q.getD i ([], 0)).1 := by
  rw [List.getD_eq_getElem _ _ (by simpa using h), List.getD_eq_getElem _ _ h]
  exact List.getElem_map _

theorem getLastD_getD {α : Type} (l : List α) (d : α) :
    l.getLastD d = l.getD (l.length - 1) d := by
  rw [List.getLastD_eq_getLast?, List.getLast?_eq_getElem?,
    List.getD_eq_getElem?_getD]

theorem firstKeyGE_some_idx (keys : List (List Nat)) (k : List Nat) :
    ∀ kk, firstKeyGE keys k = some kk →
      ∃ j, j < keys.length ∧ keys.getD j [] = kk ∧
        (∀ i, i < j → lexCompare (keys.getD i []) k = .lt) ∧
        lexCompare kk k ≠ .lt := by
  induction keys with
  | nil => intro kk h; simp [firstKeyGE] at h
  | cons k0 rest ih =>
    intro kk h
    by_cases hp : lexCompare k0 k = .lt
    · rw [firstKeyGE, List.find?_cons_of_neg _ (by simp [hp])] at h
      obtain ⟨j, hj, hget, hbef, hnlt⟩ := ih kk h
      refine ⟨j + 1, by simpa using Nat.succ_lt_succ hj, by simpa using hget,
        ?_, hnlt⟩
      intro i hi
      rcases i with _ | i'
      · simpa using hp
      · have := hbef i' (by omega)
        simpa using this
    · rw [firstKeyGE, List.find?_cons_of_pos _ (by simp [hp])] at h
      obtain rfl : k0 = kk := Option.some.inj h
      exact ⟨0, by simp, by simp, by omega, hp⟩

theorem firstKeyGE_suffix (keys : List (List Nat)) (k : List Nat) :
    ∀ j, j ≤ keys.length →
      (∀ i, i < j → lexCompare (keys.getD i []) k = .lt) →
      firstKeyGE keys k = firstKeyGE (keys.drop j) k := by
  induction keys with
  | nil => intro j _ _; simp
  | cons k0 rest ih =>
    intro j hj hbef
    rcases j with _ | j'
    · rfl
    · have hk0 : lexCompare k0 k = .lt := by
        have := hbef 0 (by omega)
        simpa using this
      rw [firstKeyGE, List.find?_cons_of_neg _ (by simp [hk0])]
      have := ih j' (by simpa using hj)
        (fun i hi => by
          have := hbef (i + 1) (by omega)
          simpa using this)
      rw [firstKeyGE] at this
      rw [this]
      rfl

theorem reuseChain_full (es : List HEntry) (hwf : EntriesWF es) :
    reuseChain [] es := by
  rcases hes : es with _ | ⟨e, tl⟩
  · trivial
  · have hr0 : e.reuse = 0 := hwf.2.2.1 e (by rw [hes]; rfl)
    refine ⟨?_, ?_⟩
    · rw [hr0]
      simp
    · apply reuseChain_of_chain' tl e
      have := hwf.2.2.2
      rw [hes] at this
      exact this

theorem next_read_of_drop (f : List Nat) (p v : Nat) (rest : List Nat)
    (hdrop : f.drop p = lebEncode (2 * v) ++ rest) (hv : v < 2 ^ 32) :
    next_from_index_read f p =
      .ok ((lebEncode (2 * v)).length, v, false) := by
  have hb := readVarintBytes_encode (2 * v) f p 8 rest hdrop
    (leb_val_length_le v hv)
  rw [next_from_index_read]
  rw [hb, lebDecode_lebEncode]
  dsimp only
  have h1 : 2 * v / 2 = v := by omega
  have h2 : ((2 * v) % 2 == 1) = false := by simp [Nat.mul_mod_right]
  rw [h1, h2]

theorem mem_tableQ (es : List HEntry) (q : List Nat × Nat)
    (h : q ∈ tableQ es) :
    ∃ j, j < es.length ∧ q = ((es.getD j ⟨[], [], 0⟩).key, ptrOf es j) := by
  rw [tableQ] at h
  obtain ⟨j, hj, rfl⟩ := List.mem_map.mp h
  exact ⟨j, List.mem_range.mp hj, rfl⟩

theorem getD_key_mem (es : List HEntry) (j : Nat) (h : j < es.length) :
    (es.getD j ⟨[], [], 0⟩).key ∈ es.map HEntry.key := by
  rw [List.getD_eq_getElem _ _ h]
  exact List.mem_map_of_mem _ (es.getElem_mem h)

theorem getD_mem (es : List HEntry) (j : Nat) (h : j < es.length) :
    es.getD j ⟨[], [], 0⟩ ∈ es := by
  rw [List.getD_eq_getElem _ _ h]
  exact es.getElem_mem h

theorem honeyTable2_find (es : List HEntry) (key : List Nat)
    (hwf : EntriesWF es) (hes : es ≠ [])
    (hsmall : (dataBytes true es).length < 2 ^ 32) :
    ((firstKeyGE (es.map HEntry.key) key = none →
      ∃ c', honeyDoFind (honeyTable2 es).1 (honeyTable2 es).2 key
          HoneyCursor.fresh = .ok (false, c') ∧ c'.is_at_end = true) ∧
     (∀ kk, firstKeyGE (es.map HEntry.key) key = some kk →
      ∃ c', honeyDoFind (honeyTable2 es).1 (honeyTable2 es).2 key
          HoneyCursor.fresh = .ok (lexCompare kk key == Ordering.eq, c') ∧
        c'.current_key = kk ∧ c'.is_at_end = false)) := by
  have hfe : (honeyTable2 es).1 = dataBytes true es ++ 2 :: ixBytes (tableQ es) := rfl
  have hroote : (honeyTable2 es).2 = (dataBytes true es).length := rfl
  set data := dataBytes true es with hdata
  set ix := ixBytes (tableQ es) with hix
  set f := (honeyTable2 es).1 with hfdef
  set root := (honeyTable2 es).2 with hrootdef
  have hdrop_root : f.drop root = 2 :: ix := by
    rw [hfe, hroote, List.drop_left]
  have hrootb : f[root]? = some 2 := getElem?_of_drop_cons _ _ _ _ hdrop_root
  have hdrop_ix : f.drop (root + 1) = ix :=
    drop_succ_of_drop_cons _ _ _ _ hdrop_root
  have hflen : f.length = root + 1 + ix.length := by
    rw [hfe, hroote]
    simp
    omega
  have hnpos : 0 < es.length := List.length_pos.mpr hes
  have hq32 : ∀ q ∈ tableQ es, q.2 < 2 ^ 32 := by
    intro q hq
    obtain ⟨j, hj, rfl⟩ := mem_tableQ es q hq
    have h1 : ptrOf es j < data.length := ptrOf_lt_data es j hj
    show ptrOf es j < 2 ^ 32
    omega
  have hscan := skipScan_eq_spec (tableQ es) f key (root + 1) [] 0 .gt
    hdrop_ix (by rw [← hix]; exact hflen) hq32
  have hdofind : honeyDoFind f root key HoneyCursor.fresh =
      honeyFindIndex f root key HoneyCursor.fresh := by
    rw [honeyDoFind, if_neg]
    simp [HoneyCursor.fresh]
  constructor
  · -- no stored key is ≥ the target: the scan falls off the end
    intro hnone
    have halllt := (firstKeyGE_none_iff _ _).mp hnone
    have hallQ : ∀ q ∈ tableQ es, lexCompare q.1 key = .lt := by
      intro q hq
      obtain ⟨j, hj, rfl⟩ := mem_tableQ es q hq
      exact halllt _ (getD_key_mem es j hj)
    have hspec := skipScanSpec_all_lt key (tableQ es) [] 0 .gt hallQ
    have hQne : tableQ es ≠ [] := by
      intro hc
      have := tableQ_length es
      rw [hc] at this
      simp at this
      omega
    rw [if_neg hQne, getLastD_getD, tableQ_length,
      tableQ_getD es (es.length - 1) (by omega)] at hspec
    set j := es.length - 1 with hjdef
    set e := es.getD j ⟨[], [], 0⟩ with he
    have hj : j < es.length := by omega
    have hewf := hwf.2.1 e (getD_mem es j hj)
    have hptr : f.drop (ptrOf es j) =
        lebEncode (2 * e.val.length) ++
          (e.val ++ (dataBytes false (es.drop (j + 1)) ++ (2 :: ix))) := by
      rw [hfe]
      exact ptr_drop es (2 :: ix) j hj
    have hread := next_read_of_drop f (ptrOf es j) e.val.length _ hptr
      hewf.2.2.2.2.1
    have hc1pos : ptrOf es j + (lebEncode (2 * e.val.length)).length +
        e.val.length = root := by
      rw [ptrOf_add es j hj, hroote]
      have haux := dataBytes_drop_aux es true (j + 1) (by omega) (by omega)
      have hdn : es.drop (j + 1) = [] := by
        have : j + 1 = es.length := by omega
        rw [this]
        exact List.drop_length es
      rw [hdn] at haux
      have := haux.2
      simpa [entryOff] using this
    have hrun := findScan_run (es.drop (j + 1)) f root key
      { pos := ptrOf es j + (lebEncode (2 * e.val.length)).length +
          e.val.length,
        last_key := e.key, current_key := e.key, val_size := 0,
        current_compressed := false, is_at_end := false }
      rfl hewf.1
      (by
        have hdn : es.drop (j + 1) = [] := by
          have : j + 1 = es.length := by omega
          rw [this]
          exact List.drop_length es
        rw [hdn]
        simpa [dataBytes] using hc1pos)
      (by
        have hdn : es.drop (j + 1) = [] := by
          have : j + 1 = es.length := by omega
          rw [this]
          exact List.drop_length es
        rw [hdn]
        simp only [dataBytes, List.nil_append]
        rw [show ptrOf es j + (lebEncode (2 * e.val.length)).length +
            e.val.length + 0 = root by omega])
      (fun e2 he2 => by
        have := hwf.2.1 e2 (List.mem_of_mem_drop he2)
        exact ⟨this.1, this.2.2.2.2.2, this.2.2.2.2.1⟩)
      (by
        have hdn : es.drop (j + 1) = [] := by
          have : j + 1 = es.length := by omega
          rw [this]
          exact List.drop_length es
        rw [hdn]
        trivial)
    have hdn : es.drop (j + 1) = [] := by
      have : j + 1 = es.length := by omega
      rw [this]
      exact List.drop_length es
    rw [hdn] at hrun
    obtain ⟨c', hc', hcend⟩ := hrun.1 (by simp [firstKeyGE])
    refine ⟨c', ?_, hcend⟩
    rw [hdofind, honeyFindIndex, hrootb]
    dsimp only
    rw [hscan, hspec]
    dsimp only
    rw [if_pos (by have := ptrOf_pos es j; omega)]
    rw [hread]
    dsimp only
    rw [if_neg (by decide)]
    exact hc'
  · -- some stored key is ≥ the target
    intro kk hsome
    obtain ⟨j, hjlen, hget, hbef, hnlt⟩ := firstKeyGE_some_idx _ key kk hsome
    rw [List.length_map] at hjlen
    rw [keys_getD es j hjlen] at hget
    set e := es.getD j ⟨[], [], 0⟩ with he
    have hewf := hwf.2.1 e (getD_mem es j hjlen)
    have hbefQ : ∀ i, i < j →
        lexCompare (((tableQ es).getD i ([], 0)).1) key = .lt := by
      intro i hi
      rw [tableQ_getD es i (by omega)]
      have := hbef i hi
      rw [keys_getD es i (by omega)] at this
      exact this
    have hfound := skipScanSpec_found key (tableQ es) [] 0 .gt j
      (by rw [tableQ_length]; exact hjlen) hbefQ
    rw [tableQ_getD es j hjlen] at hfound
    rw [← he] at hfound
    rcases hcmp : lexCompare e.key key with _ | _ | _
    · -- impossible: the found key is not below the target
      rw [hget] at hcmp
      exact absurd hcmp hnlt
    · -- exact hit: the skiplist returns directly
      have hspec := hfound.1 (by simpa using hcmp)
      have hptr : f.drop (ptrOf es j) =
          lebEncode (2 * e.val.length) ++
            (e.val ++ (dataBytes false (es.drop (j + 1)) ++ (2 :: ix))) := by
        rw [hfe]
        exact ptr_drop es (2 :: ix) j hjlen
      have hread := next_read_of_drop f (ptrOf es j) e.val.length _ hptr
        hewf.2.2.2.2.1
      refine ⟨{ pos := ptrOf es j + (lebEncode (2 * e.val.length)).length,
                last_key := e.key, current_key := e.key,
                val_size := e.val.length, current_compressed := false,
                is_at_end := false }, ?_, ?_, rfl⟩
      · rw [hdofind, honeyFindIndex, hrootb]
        dsimp only
        rw [hscan, hspec]
        dsimp only
        rw [if_pos (by have := ptrOf_pos es j; omega)]
        rw [hread]
        dsimp only
        rw [if_pos rfl]
        have hflag : (lexCompare kk key == Ordering.eq) = true := by
          rw [← hget, hcmp]
          rfl
        rw [hflag]
      · rw [← hget]
    · -- first key above the target: drop to the data layer and scan
      have hspec := hfound.2 (by simpa using hcmp)
      rcases Nat.eq_zero_or_pos j with hj0 | hjpos
      · -- the very first entry is above: jump to the table start
        subst hj0
        rw [if_pos rfl] at hspec
        have hrun := findScan_run_first es f root key
          { HoneyCursor.fresh with pos := 0, last_key := [], current_key := [], is_at_end := false, val_size := 0 }
          rfl rfl
          (by
            show 0 + 0 + (dataBytes true es).length = root
            rw [hroote, ← hdata]
            omega)
          (by
            show f.drop 0 = dataBytes true es ++ f.drop root
            rw [List.drop_zero, hdrop_root, ← hdata]
            exact hfe)
          (fun e2 he2 => by
            have := hwf.2.1 e2 he2
            exact ⟨this.1, this.2.2.2.2.2, this.2.2.2.2.1⟩)
          (reuseChain_full es hwf)
        obtain ⟨c', hc', hck, hclk, hcend⟩ := hrun.2 kk hsome
        refine ⟨c', ?_, hck, hcend⟩
        rw [hdofind, honeyFindIndex, hrootb]
        dsimp only
        rw [hscan, hspec]
        dsimp only
        rw [if_neg (by simp)]
        exact hc'
      · -- land on the previous entry and scan forward
        rw [if_neg (by omega)] at hspec
        rw [tableQ_getD es (j - 1) (by omega)] at hspec
        set ep := es.getD (j - 1) ⟨[], [], 0⟩ with hep
        have hepwf := hwf.2.1 ep (getD_mem es (j - 1) (by omega))
        have hptr : f.drop (ptrOf es (j - 1)) =
            lebEncode (2 * ep.val.length) ++
              (ep.val ++ (dataBytes false (es.drop (j - 1 + 1)) ++ (2 :: ix))) := by
          rw [hfe]
          exact ptr_drop es (2 :: ix) (j - 1) (by omega)
        have hread := next_read_of_drop f (ptrOf es (j - 1)) ep.val.length _
          hptr hepwf.2.2.2.2.1
        have hj1 : j - 1 + 1 = j := by omega
        have hc1pos : ptrOf es (j - 1) +
            (lebEncode (2 * ep.val.length)).length + ep.val.length =
            entryOff es j := by
          rw [ptrOf_add es (j - 1) (by omega), hj1]
        have haux := dataBytes_drop_aux es true j (by omega) (by omega)
        have hsuffix : firstKeyGE ((es.drop j).map HEntry.key) key = some kk := by
          have hsfx := firstKeyGE_suffix (es.map HEntry.key) key j
            (by simpa using hjlen.le) hbef
          rw [← hsome, hsfx, List.map_drop]
        have hrun := findScan_run (es.drop j) f root key
          { pos := ptrOf es (j - 1) + (lebEncode (2 * ep.val.length)).length +
              ep.val.length,
            last_key := ep.key, current_key := ep.key, val_size := 0,
            current_compressed := false, is_at_end := false }
          rfl hepwf.1
          (by
            show ptrOf es (j - 1) + (lebEncode (2 * ep.val.length)).length +
              ep.val.length + 0 + (dataBytes false (es.drop j)).length = root
            rw [hroote]
            rw [entryOff] at hc1pos
            have h2 := haux.2
            rw [← hdata] at h2
            omega)
          (by
            show f.drop (ptrOf es (j - 1) +
              (lebEncode (2 * ep.val.length)).length + ep.val.length + 0) =
              dataBytes false (es.drop j) ++ f.drop root
            rw [Nat.add_zero, hc1pos, hfe, hroote, List.drop_left]
            exact table_drop_data es (2 :: ix) j (by omega) (by omega))
          (fun e2 he2 => by
            have := hwf.2.1 e2 (List.mem_of_mem_drop he2)
            exact ⟨this.1, this.2.2.2.2.2, this.2.2.2.2.1⟩)
          (by
            have := reuseChain_drop es j (by omega) (by omega) hwf.2.2.2
            rw [← hep] at this
            exact this)
        obtain ⟨c', hc', hck, hclk, hcend⟩ := hrun.2 kk hsuffix
        refine ⟨c', ?_, hck, hcend⟩
        rw [hdofind, honeyFindIndex, hrootb]
        dsimp only
        rw [hscan, hspec]
        dsimp only
        rw [if_pos (by have := ptrOf_pos es (j - 1); omega)]
        rw [hread]
        dsimp only
        rw [if_neg (by decide)]
        exact hc'

theorem lexCompare_trans_lt (a : List Nat) : ∀ b c : List Nat,
    lexCompare a b = .lt → lexCompare b c = .lt → lexCompare a c = .lt := by
  induction a with
  | nil =>
    intro b c hab hbc
    rcases b with _ | ⟨y, ys⟩
    · simp [lexCompare] at hab
    · rcases c with _ | ⟨z, zs⟩
      · simp [lexCompare] at hbc
      · rfl
  | cons x xs ih =>
    intro b c hab hbc
    rcases b with _ | ⟨y, ys⟩
    · simp [lexCompare] at hab
    · rcases c with _ | ⟨z, zs⟩
      · simp [lexCompare] at hbc
      · rw [lexCompare] at hab hbc ⊢
        split at hab
        · rename_i hxy
          split at hbc
          · rename_i hyz
            rw [if_pos (by omega)]
          · split at hbc
            · simp at hbc
            · rename_i hzy hyz
              rw [if_pos (by omega)]
        · split at hab
          · simp at hab
          · rename_i hyx hxy
            split at hbc
            · rename_i hyz
              rw [if_pos (by omega)]
            · split at hbc
              · simp at hbc
              · rename_i hzy hyz
                rw [if_neg (by omega), if_neg (by omega)]
                exact ih ys zs hab hbc

theorem head_le_of_lexLt (a b : List Nat) (h : lexCompare a b = .lt) :
    a.headD 0 ≤ b.headD 0 ∨ a = [] := by
  rcases a with _ | ⟨x, xs⟩
  · right; rfl
  · rcases b with _ | ⟨y, ys⟩
    · rw [lexCompare] at h
      simp at h
    · left
      rw [lexCompare] at h
      split at h
      · simp only [List.headD_cons]
        omega
      · split at h
        · simp at h
        · rename_i hyx hxy
          simp only [List.headD_cons]
          omega

theorem lexLt_of_head_lt (a b : List Nat) (ha : a ≠ [])
    (h : a.headD 0 < b.headD 0) : lexCompare a b = .lt := by
  rcases a with _ | ⟨x, xs⟩
  · exact absurd rfl ha
  · rcases b with _ | ⟨y, ys⟩
    · simp at h
    · simp only [List.headD_cons] at h
      rw [lexCompare, if_pos h]

theorem keys_pairwise (es : List HEntry) (hwf : EntriesWF es) :
    (es.map HEntry.key).Pairwise (fun a b => lexCompare a b = .lt) := by
  haveI : IsTrans (List Nat) (fun a b => lexCompare a b = .lt) :=
    ⟨fun a b c => lexCompare_trans_lt a b c⟩
  exact List.chain'_iff_pairwise.mp hwf.1

theorem range_getD (n c : Nat) (h : c < n) : (List.range n).getD c 0 = c := by
  rw [List.getD_eq_getElem _ _ (by simpa using h)]
  exact List.getElem_range _ _

theorem flatten_map_drop {α : Type} (d : α) (g : α → List Nat) (B : Nat) :
    ∀ (l : List α) (c : Nat), (∀ a ∈ l, (g a).length = B) → c < l.length →
      ∃ rest, ((l.map g).flatten).drop (B * c) = g (l.getD c d) ++ rest := by
  intro l
  induction l with
  | nil => intro c _ hc; simp at hc
  | cons a tl ih =>
    intro c hlen hc
    rcases c with _ | c'
    · exact ⟨(tl.map g).flatten, by simp⟩
    · obtain ⟨rest, hrest⟩ := ih c' (fun x hx => hlen x (List.mem_cons_of_mem _ hx))
        (by simpa using hc)
      refine ⟨rest, ?_⟩
      rw [List.map_cons, List.flatten_cons]
      have hg : (g a).length = B := hlen a (List.mem_cons_self _ _)
      have hmul : B * (c' + 1) = (g a).length + B * c' := by
        rw [hg]
        ring
      rw [hmul, drop_append_add, hrest]
      simp

theorem getD_of_getElem? (f : List Nat) (i a : Nat) (h : f[i]? = some a) :
    f.getD i 0 = a := by
  rw [List.getD_eq_getElem?_getD, h]
  rfl

theorem be32_of_drop (f : List Nat) (i n : Nat) (rest : List Nat)
    (hdrop : f.drop i = be32enc n ++ rest) (hn : n < 2 ^ 32) :
    be32 f i = n := by
  have h0 : f[i]? = some (n / 2 ^ 24 % 256) := getElem?_of_drop_cons _ _ _ _ hdrop
  have hd1 := drop_succ_of_drop_cons _ _ _ _ hdrop
  have h1 : f[i + 1]? = some (n / 2 ^ 16 % 256) := getElem?_of_drop_cons _ _ _ _ hd1
  have hd2 := drop_succ_of_drop_cons _ _ _ _ hd1
  have h2 : f[i + 1 + 1]? = some (n / 2 ^ 8 % 256) := getElem?_of_drop_cons _ _ _ _ hd2
  have hd3 := drop_succ_of_drop_cons _ _ _ _ hd2
  have h3 : f[i + 1 + 1 + 1]? = some (n % 256) := getElem?_of_drop_cons _ _ _ _ hd3
  rw [be32, getD_of_getElem? _ _ _ h0,
    getD_of_getElem? _ _ _ (by rw [show i + 1 = i + 1 from rfl]; exact h1),
    getD_of_getElem? _ _ _ (by rw [show i + 2 = i + 1 + 1 from rfl]; exact h2),
    getD_of_getElem? _ _ _ (by rw [show i + 3 = i + 1 + 1 + 1 from rfl]; exact h3)]
  omega

theorem slot_data_len (es : List HEntry) (j : Nat) (h : j < es.length) :
    slotOff es j + (dataBytes true (es.drop j)).length =
      (dataBytes true es).length := by
  rcases Nat.eq_zero_or_pos j with hz | hp
  · subst hz
    rw [slotOff, entryOff, entryOffAux_zero]
    simp
  · have haux := dataBytes_drop_aux es true j hp h.le
    have hdj : es.drop j = es.getD j ⟨[], [], 0⟩ :: es.drop (j + 1) := by
      rw [List.getD_eq_getElem _ _ h]
      exact List.drop_eq_getElem_cons h
    have hso : slotOff es j = entryOff es j + 1 := by
      rw [slotOff, if_neg (by omega)]
    have hlen2 : (dataBytes false (es.drop j)).length =
        (dataBytes true (es.drop j)).length + 1 := by
      rw [hdj, dataBytes_cons, dataBytes_cons, entryBytes_false_eq]
      simp
    rw [hso]
    rw [entryOff] at hso ⊢
    omega

theorem slot_data_drop (es : List HEntry) (I : List Nat) (j : Nat)
    (h : j < es.length) :
    (dataBytes true es ++ I).drop (slotOff es j) =
      dataBytes true (es.drop j) ++ I := by
  rw [table_slot_drop es I j h]
  have hdj : es.drop j = es.getD j ⟨[], [], 0⟩ :: es.drop (j + 1) := by
    rw [List.getD_eq_getElem _ _ h]
    exact List.drop_eq_getElem_cons h
  rw [hdj, dataBytes_cons]
  simp [List.append_assoc]

theorem reuseChain_nil_drop (es : List HEntry) (j : Nat) (h : j < es.length)
    (hwf : EntriesWF es) (hr0 : (es.getD j ⟨[], [], 0⟩).reuse = 0) :
    reuseChain [] (es.drop j) := by
  rcases Nat.eq_zero_or_pos j with hz | hp
  · subst hz
    rw [List.drop_zero]
    exact reuseChain_full es hwf
  · have hch := reuseChain_drop es j hp h.le hwf.2.2.2
    have hdj : es.drop j = es.getD j ⟨[], [], 0⟩ :: es.drop (j + 1) := by
      rw [List.getD_eq_getElem _ _ h]
      exact List.drop_eq_getElem_cons h
    rw [hdj] at hch ⊢
    exact reuseChain_relax _ _ _ hch hr0

theorem headD_mem (l : List Nat) (h : l ≠ []) : l.headD 0 ∈ l := by
  rcases l with _ | ⟨a, t⟩
  · exact absurd rfl h
  · simp

theorem be32enc_length (n : Nat) : (be32enc n).length = 4 := rfl

theorem slotOff_lt_data (es : List HEntry) (j : Nat) (h : j < es.length) :
    slotOff es j < (dataBytes true es).length := by
  have h1 := ptrOf_lt_data es j h
  have h2 : slotOff es j < ptrOf es j := by
    rw [ptrOf]
    omega
  omega

theorem firstGE_lt_length (es : List HEntry) (b : Nat)
    (hex : ∃ e ∈ es, b ≤ e.key.headD 0) : firstGE es b < es.length := by
  rw [firstGE]
  apply List.findIdx_lt_length_of_exists
  obtain ⟨e, he, hb⟩ := hex
  exact ⟨e, he, by simpa using hb⟩

theorem firstGE_before (es : List HEntry) (b i : Nat)
    (hi : i < firstGE es b) (hlen : i < es.length) :
    (es.getD i ⟨[], [], 0⟩).key.headD 0 < b := by
  rw [firstGE] at hi
  have h2 := List.not_of_lt_findIdx hi
  rw [List.getD_eq_getElem _ _ hlen]
  simpa using h2

theorem firstGE_at (es : List HEntry) (b : Nat)
    (h : firstGE es b < es.length) :
    b ≤ (es.getD (firstGE es b) ⟨[], [], 0⟩).key.headD 0 := by
  have h' : es.findIdx (fun e => decide (b ≤ e.key.headD 0)) < es.length := h
  have h2 : (fun e : HEntry => decide (b ≤ e.key.headD 0))
      (es[es.findIdx (fun e => decide (b ≤ e.key.headD 0))]) = true :=
    @List.findIdx_getElem _ (fun e => decide (b ≤ e.key.headD 0)) es h'
  rw [List.getD_eq_getElem _ _ h]
  exact of_decide_eq_true h2

theorem reuse_zero_at_boundary (es : List HEntry) (hwf : EntriesWF es)
    (j : Nat) (hj : j < es.length) (hp : 1 ≤ j)
    (hne : (es.getD (j - 1) ⟨[], [], 0⟩).key.headD 0 ≠
      (es.getD j ⟨[], [], 0⟩).key.headD 0) :
    (es.getD j ⟨[], [], 0⟩).reuse = 0 := by
  have hch := reuseChain_drop es j hp hj.le hwf.2.2.2
  have hdj : es.drop j = es.getD j ⟨[], [], 0⟩ :: es.drop (j + 1) := by
    rw [List.getD_eq_getElem _ _ hj]
    exact List.drop_eq_getElem_cons hj
  rw [hdj] at hch
  exact reuse_zero_of_head_ne (es.getD (j - 1) ⟨[], [], 0⟩)
    (es.getD j ⟨[], [], 0⟩) hch.1 hne

theorem keys_getD_lt (es : List HEntry) (hwf : EntriesWF es) (i j : Nat)
    (hi : i < es.length) (hj : j < es.length) (hij : i < j) :
    lexCompare ((es.getD i ⟨[], [], 0⟩).key) ((es.getD j ⟨[], [], 0⟩).key) =
      .lt := by
  have hpw := keys_pairwise es hwf
  have := List.pairwise_iff_getElem.mp hpw i j (by simpa using hi)
    (by simpa using hj) hij
  rw [List.getD_eq_getElem _ _ hi, List.getD_eq_getElem _ _ hj]
  simpa using this

theorem head_byte_lt_256 (es : List HEntry) (hwf : EntriesWF es) (j : Nat)
    (hj : j < es.length) : (es.getD j ⟨[], [], 0⟩).key.headD 0 < 256 := by
  have hewf := hwf.2.1 _ (getD_mem es j hj)
  exact hewf.2.2.1 _ (headD_mem _ hewf.1)

theorem head_le_last (es : List HEntry) (hwf : EntriesWF es) (i : Nat)
    (hi : i < es.length) :
    (es.getD i ⟨[], [], 0⟩).key.headD 0 ≤
      (es.getLastD ⟨[], [], 0⟩).key.headD 0 := by
  have hlast : es.getLastD ⟨[], [], 0⟩ =
      es.getD (es.length - 1) ⟨[], [], 0⟩ := getLastD_getD es _
  rw [hlast]
  rcases Nat.lt_or_ge i (es.length - 1) with hlt | hge
  · have hcmp := keys_getD_lt es hwf i (es.length - 1) hi (by omega) hlt
    have hhead := head_le_of_lexLt _ _ hcmp
    rcases hhead with h | h
    · exact h
    · have := hwf.2.1 _ (getD_mem es i hi)
      exact absurd h this.1
  · have : i = es.length - 1 := by omega
    rw [this]

theorem headD_eq_getD (es : List HEntry) :
    es.headD ⟨[], [], 0⟩ = es.getD 0 ⟨[], [], 0⟩ := by
  cases es <;> simp

theorem reuse_zero_head (es : List HEntry) (hwf : EntriesWF es)
    (hes : es ≠ []) : (es.getD 0 ⟨[], [], 0⟩).reuse = 0 := by
  rcases es with _ | ⟨e, tl⟩
  · exact absurd rfl hes
  · simpa using hwf.2.2.1 e rfl

theorem honeyTable0_find (es : List HEntry) (key : List Nat)
    (hwf : EntriesWF es) (hes : es ≠ []) (hkey : key ≠ [])
    (hkb : ∀ b ∈ key, b < 256)
    (hsmall : (dataBytes true es).length < 2 ^ 32) :
    ((key.headD 0 < ((es.headD ⟨[], [], 0⟩).key).headD 0 →
      ∃ c', honeyDoFind (honeyTable0 es).1 (honeyTable0 es).2 key
          HoneyCursor.fresh = .ok (false, c') ∧ c'.is_at_end = true) ∧
     (((es.headD ⟨[], [], 0⟩).key).headD 0 ≤ key.headD 0 →
      ((firstKeyGE (es.map HEntry.key) key = none →
        ∃ c', honeyDoFind (honeyTable0 es).1 (honeyTable0 es).2 key
            HoneyCursor.fresh = .ok (false, c') ∧ c'.is_at_end = true) ∧
       (∀ kk, firstKeyGE (es.map HEntry.key) key = some kk →
        ∃ c', honeyDoFind (honeyTable0 es).1 (honeyTable0 es).2 key
            HoneyCursor.fresh = .ok (lexCompare kk key == Ordering.eq, c') ∧
          c'.current_key = kk ∧ c'.is_at_end = false)))) := by
  have hn : 0 < es.length := List.length_pos.mpr hes
  set b0 := ((es.headD ⟨[], [], 0⟩).key).headD 0 with hb0
  set lb := ((es.getLastD ⟨[], [], 0⟩).key).headD 0 with hlb
  set slots := ((List.range (lb - b0 + 1)).map
    (fun c => be32enc (slotOff es (firstGE es (b0 + c))))).flatten with hslots
  have hfe : (honeyTable0 es).1 =
      dataBytes true es ++ 0 :: b0 :: (lb - b0) :: slots := by
    rw [honeyTable0]
    dsimp only
    rw [List.append_assoc, hslots, hb0, hlb]
    rfl
  have hroote : (honeyTable0 es).2 = (dataBytes true es).length := rfl
  set f := (honeyTable0 es).1 with hfdef
  set root := (honeyTable0 es).2 with hrootdef
  have hdropr : f.drop root = 0 :: b0 :: (lb - b0) :: slots := by
    rw [hfe, hroote, List.drop_left]
  have hrootb : f[root]? = some 0 := getElem?_of_drop_cons _ _ _ _ hdropr
  have hd1 := drop_succ_of_drop_cons _ _ _ _ hdropr
  have hb1 : f[root + 1]? = some b0 := getElem?_of_drop_cons _ _ _ _ hd1
  have hd2 := drop_succ_of_drop_cons _ _ _ _ hd1
  have hr1 : f[root + 1 + 1]? = some (lb - b0) :=
    getElem?_of_drop_cons _ _ _ _ hd2
  have hd3 := drop_succ_of_drop_cons _ _ _ _ hd2
  have hbase : f.getD (root + 1) 0 = b0 := getD_of_getElem? _ _ _ hb1
  have hrange : f.getD (root + 2) 0 = lb - b0 := getD_of_getElem? _ _ _ hr1
  have hb0lt : b0 < 256 := by
    rw [hb0, headD_eq_getD]
    exact head_byte_lt_256 es hwf 0 hn
  have hlblt : lb < 256 := by
    rw [hlb, getLastD_getD]
    exact head_byte_lt_256 es hwf (es.length - 1) (by omega)
  have hble : b0 ≤ lb := by
    rw [hb0, hlb, headD_eq_getD]
    exact head_le_last es hwf 0 hn
  have hk0lt : key.headD 0 < 256 := hkb _ (headD_mem key hkey)
  have hdofind : honeyDoFind f root key HoneyCursor.fresh =
      honeyFindIndex f root key HoneyCursor.fresh := by
    rw [honeyDoFind, if_neg]
    simp [HoneyCursor.fresh]
  constructor
  · -- quirk branch: a key whose first byte is below the index base wraps
    -- around and the reader reports at-end regardless of the contents
    intro hklt
    refine ⟨{ HoneyCursor.fresh with pos := root + 3, is_at_end := true },
      ?_, rfl⟩
    rw [hdofind, honeyFindIndex, hrootb]
    dsimp only
    rw [hbase, hrange]
    rw [if_pos (by omega)]
  · intro hge
    have hfirst : (((key.headD 0 : Int) - (b0 : Int)) % 256).toNat =
        key.headD 0 - b0 := by omega
    rcases Nat.lt_or_ge lb (key.headD 0) with hB1 | hB2
    · -- all stored keys are below the target: early at-end return
      constructor
      · intro _
        refine ⟨{ HoneyCursor.fresh with pos := root + 3, is_at_end := true },
          ?_, rfl⟩
        rw [hdofind, honeyFindIndex, hrootb]
        dsimp only
        rw [hbase, hrange]
        rw [if_pos (by omega)]
      · intro kk hsome
        obtain ⟨j, hjl, hget, _, hnlt⟩ := firstKeyGE_some_idx _ key kk hsome
        rw [List.length_map] at hjl
        rw [keys_getD es j hjl] at hget
        have hhd : (es.getD j ⟨[], [], 0⟩).key.headD 0 ≤ lb := by
          rw [hlb]
          exact head_le_last es hwf j hjl
        have hlt : lexCompare (es.getD j ⟨[], [], 0⟩).key key = .lt :=
          lexLt_of_head_lt _ _ (hwf.2.1 _ (getD_mem es j hjl)).1 (by omega)
        rw [hget] at hlt
        exact absurd hlt hnlt
    · -- the slot jump lands on the first entry with the target's first byte
      set j := firstGE es (key.headD 0) with hj
      have hlast : key.headD 0 ≤
          (es.getD (es.length - 1) ⟨[], [], 0⟩).key.headD 0 := by
        rw [← getLastD_getD]
        rw [hlb] at hB2
        exact hB2
      have hjlt : j < es.length := by
        rw [hj]
        exact firstGE_lt_length es _
          ⟨es.getD (es.length - 1) ⟨[], [], 0⟩, getD_mem es _ (by omega), hlast⟩
      have hr0 : (es.getD j ⟨[], [], 0⟩).reuse = 0 := by
        rcases Nat.eq_zero_or_pos j with hz | hp
        · rw [hz]
          exact reuse_zero_head es hwf hes
        · apply reuse_zero_at_boundary es hwf j hjlt hp
          have h1 := firstGE_before es (key.headD 0) (j - 1)
            (by rw [← hj]; omega) (by omega)
          have h2 := firstGE_at es (key.headD 0) (by rw [← hj]; exact hjlt)
          rw [← hj] at h2
          omega
      have hbef : ∀ i, i < j →
          lexCompare ((es.map HEntry.key).getD i []) key = .lt := by
        intro i hi
        have hil : i < es.length := by omega
        rw [keys_getD es i hil]
        apply lexLt_of_head_lt _ _ (hwf.2.1 _ (getD_mem es i hil)).1
        have := firstGE_before es (key.headD 0) i (by rw [← hj]; exact hi) hil
        exact this
      obtain ⟨rest, hrest⟩ := flatten_map_drop 0
        (fun c => be32enc (slotOff es (firstGE es (b0 + c)))) 4
        (List.range (lb - b0 + 1)) (key.headD 0 - b0)
        (fun a _ => be32enc_length _) (by rw [List.length_range]; omega)
      rw [range_getD _ _ (by omega)] at hrest
      have hb0k : b0 + (key.headD 0 - b0) = key.headD 0 := by omega
      rw [hb0k, ← hj, ← hslots] at hrest
      have hdropslot : f.drop (root + 3 + 4 * (key.headD 0 - b0)) =
          be32enc (slotOff es j) ++ rest := by
        rw [← List.drop_drop, hd3]
        exact hrest
      have hjump : be32 f (root + 3 + 4 * (key.headD 0 - b0)) = slotOff es j :=
        be32_of_drop f _ _ rest hdropslot
          (by have := slotOff_lt_data es j hjlt; omega)
      have hrun := findScan_run_first (es.drop j) f root key
        { HoneyCursor.fresh with pos := slotOff es j, last_key := [], is_at_end := false, val_size := 0 }
        rfl rfl
        (by
          show slotOff es j + 0 + (dataBytes true (es.drop j)).length = root
          rw [hroote]
          have := slot_data_len es j hjlt
          omega)
        (by
          show f.drop (slotOff es j + 0) =
            dataBytes true (es.drop j) ++ f.drop root
          rw [Nat.add_zero, hdropr, hfe]
          exact slot_data_drop es (0 :: b0 :: (lb - b0) :: slots) j hjlt)
        (fun e2 he2 => by
          have := hwf.2.1 e2 (List.mem_of_mem_drop he2)
          exact ⟨this.1, this.2.2.2.2.2, this.2.2.2.2.1⟩)
        (reuseChain_nil_drop es j hjlt hwf hr0)
      have hsfx := firstKeyGE_suffix (es.map HEntry.key) key j
        (by rw [List.length_map]; exact hjlt.le) hbef
      have hmain : honeyDoFind f root key HoneyCursor.fresh =
          findScan f root key
            { HoneyCursor.fresh with pos := slotOff es j, last_key := [], is_at_end := false, val_size := 0 } := by
        rw [hdofind, honeyFindIndex, hrootb]
        dsimp only
        rw [hbase, hrange, hfirst]
        rw [if_neg (by omega)]
        rw [hjump]
      constructor
      · intro hnone
        have hnone2 : firstKeyGE ((es.drop j).map HEntry.key) key = none := by
          rw [List.map_drop, ← hsfx]
          exact hnone
        obtain ⟨c', hc', hend⟩ := hrun.1 hnone2
        exact ⟨c', by rw [hmain]; exact hc', hend⟩
      · intro kk hsome
        have hsome2 : firstKeyGE ((es.drop j).map HEntry.key) key = some kk := by
          rw [List.map_drop, ← hsfx]
          exact hsome
        obtain ⟨c', hc', hck, hclk, hend⟩ := hrun.2 kk hsome2
        exact ⟨c', by rw [hmain]; exact hc', hck, hend⟩

theorem lexCompare_refl (a : List Nat) : lexCompare a a = .eq := by
  induction a with
  | nil => rfl
  | cons x xs ih =>
    rw [lexCompare, if_neg (by omega), if_neg (by omega)]
    exact ih

theorem lexCompare_gt_iff (a : List Nat) : ∀ b : List Nat,
    lexCompare a b = .gt ↔ lexCompare b a = .lt := by
  induction a with
  | nil =>
    intro b
    rcases b with _ | ⟨y, ys⟩
    · simp [lexCompare]
    · simp [lexCompare]
  | cons x xs ih =>
    intro b
    rcases b with _ | ⟨y, ys⟩
    · simp [lexCompare]
    · rw [lexCompare, lexCompare]
      by_cases hxy : x < y
      · rw [if_pos hxy, if_neg (by omega), if_pos hxy]
        simp
      · by_cases hyx : y < x
        · rw [if_neg hxy, if_pos hyx, if_pos hyx]
          simp
        · rw [if_neg hxy, if_neg hyx, if_neg hyx, if_neg hxy]
          exact ih ys

theorem lexCompare_le_cases (a b : List Nat) (h : lexCompare a b ≠ .gt) :
    lexCompare a b = .lt ∨ a = b := by
  rcases hc : lexCompare a b with _ | _ | _
  · exact Or.inl rfl
  · exact Or.inr ((lexCompare_eq_iff a b).mp hc)
  · exact absurd hc h

theorem lexLe_trans (a b c : List Nat) (hab : lexCompare a b ≠ .gt)
    (hbc : lexCompare b c ≠ .gt) : lexCompare a c ≠ .gt := by
  rcases lexCompare_le_cases a b hab with h1 | rfl
  · rcases lexCompare_le_cases b c hbc with h2 | rfl
    · rw [lexCompare_trans_lt a b c h1 h2]
      simp
    · rw [h1]
      simp
  · exact hbc

theorem lexLt_of_le_of_lt (a b c : List Nat) (hab : lexCompare a b ≠ .gt)
    (hbc : lexCompare b c = .lt) : lexCompare a c = .lt := by
  rcases lexCompare_le_cases a b hab with h1 | rfl
  · exact lexCompare_trans_lt a b c h1 hbc
  · exact hbc

theorem lexLe_append_right (x w : List Nat) :
    lexCompare x (x ++ w) ≠ .gt := by
  induction x with
  | nil =>
    rcases w with _ | ⟨c, cs⟩ <;> simp [lexCompare]
  | cons a as ih =>
    rw [List.cons_append, lexCompare, if_neg (by omega), if_neg (by omega)]
    exact ih

theorem lexTake_mono (n : Nat) : ∀ a b : List Nat,
    lexCompare a b ≠ .gt → lexCompare (a.take n) (b.take n) ≠ .gt := by
  induction n with
  | zero =>
    intro a b _
    simp [lexCompare]
  | succ n ih =>
    intro a b h
    rcases a with _ | ⟨x, xs⟩
    · rcases b with _ | ⟨y, ys⟩ <;> simp [lexCompare]
    · rcases b with _ | ⟨y, ys⟩
      · rw [lexCompare] at h
        simp at h
      · rw [lexCompare] at h
        rw [List.take_succ_cons, List.take_succ_cons, lexCompare]
        by_cases hxy : x < y
        · rw [if_pos hxy]
          simp
        · by_cases hyx : y < x
          · rw [if_neg hxy, if_pos hyx] at h ⊢
            exact h
          · rw [if_neg hxy, if_neg hyx] at h ⊢
            exact ih xs ys h

theorem zeros_not_lt (w : List Nat) (t : Nat) :
    ∀ h1 : lexCompare w (List.replicate t 0) ≠ .gt,
      w.getLastD 1 ≠ 0 → w = [] := by
  induction w generalizing t with
  | nil => intro _ _; rfl
  | cons c w' ih =>
    intro h1 h2
    rcases t with _ | t'
    · rw [List.replicate_zero, lexCompare] at h1
      simp at h1
    · rw [List.replicate_succ, lexCompare] at h1
      by_cases hc : c = 0
      · subst hc
        rw [if_neg (by omega), if_neg (by omega)] at h1
        rcases hw : w' with _ | ⟨d, w2⟩
        · rw [hw] at h2
          simp [List.getLastD] at h2
        · exfalso
          have hw2 : w'.getLastD 1 ≠ 0 := by
            rw [hw]
            rw [hw] at h2
            simp only [List.getLastD_cons] at h2 ⊢
            exact h2
          have hnil := ih t' h1 hw2
          rw [hnil] at hw
          exact List.noConfusion hw
      · rw [if_neg (by omega), if_pos (by omega)] at h1
        simp at h1

theorem stripped_le_of_le_pad (s : List Nat) : ∀ (x : List Nat) (t : Nat),
    s.getLastD 1 ≠ 0 →
    lexCompare s (x ++ List.replicate t 0) ≠ .gt →
    lexCompare s x ≠ .gt := by
  induction s with
  | nil =>
    intro x t _ _
    rcases x with _ | ⟨y, ys⟩ <;> simp [lexCompare]
  | cons c s' ih =>
    intro x t hnz hle
    rcases x with _ | ⟨y, ys⟩
    · rw [List.nil_append] at hle
      have := zeros_not_lt (c :: s') t hle hnz
      exact absurd this (by simp)
    · rw [List.cons_append, lexCompare] at hle
      rw [lexCompare]
      by_cases hcy : c < y
      · rw [if_pos hcy]
        simp
      · by_cases hyc : y < c
        · rw [if_neg hcy, if_pos hyc] at hle
          exact absurd rfl hle
        · rw [if_neg hcy, if_neg hyc] at hle ⊢
          rcases hs : s' with _ | ⟨d, s2⟩
          · rcases ys with _ | ⟨u, us⟩ <;> simp [lexCompare]
          · rw [← hs]
            refine ih ys t ?_ hle
            rw [List.getLastD_cons] at hnz
            rw [hs] at hnz ⊢
            rw [List.getLastD_cons] at hnz ⊢
            exact hnz

theorem stripNul_decomp (l : List Nat) :
    ∃ t, l = stripNul l ++ List.replicate t 0 := by
  refine ⟨(l.reverse.takeWhile (fun b => decide (b = 0))).length, ?_⟩
  have h1 : l.reverse.takeWhile (fun b => decide (b = 0)) ++
      l.reverse.dropWhile (fun b => decide (b = 0)) = l.reverse :=
    @List.takeWhile_append_dropWhile _ _ _
  have h3 : (l.reverse.takeWhile (fun b => decide (b = 0))).reverse =
      List.replicate (l.reverse.takeWhile (fun b => decide (b = 0))).length 0 := by
    have hall : ∀ b ∈ l.reverse.takeWhile (fun b => decide (b = 0)), b = 0 :=
      fun b hb => by simpa using List.mem_takeWhile_imp hb
    rw [List.eq_replicate_of_mem hall, List.reverse_replicate,
      List.length_replicate]
  rw [stripNul]
  conv_lhs => rw [← l.reverse_reverse, ← h1]
  rw [List.reverse_append, h3]

theorem stripNul_getLastD (l : List Nat) : (stripNul l).getLastD 1 ≠ 0 := by
  rw [stripNul]
  rcases hd : l.reverse.dropWhile (fun b => decide (b = 0)) with _ | ⟨a, t⟩
  · simp [List.getLastD]
  · have hhead := List.head?_dropWhile_not (fun b => decide (b = 0)) l.reverse
    rw [hd] at hhead
    simp only [List.head?_cons] at hhead
    have ha : a ≠ 0 := by simpa using hhead
    rw [List.reverse_cons, List.getLastD_concat]
    exact ha

theorem stripNul_le_self (l : List Nat) : lexCompare (stripNul l) l ≠ .gt := by
  obtain ⟨t, ht⟩ := stripNul_decomp l
  nth_rewrite 2 [ht]
  exact lexLe_append_right _ _

theorem stripped_le_strip (s x : List Nat) (hnz : s.getLastD 1 ≠ 0)
    (h : lexCompare s x ≠ .gt) : lexCompare s (stripNul x) ≠ .gt := by
  obtain ⟨t, ht⟩ := stripNul_decomp x
  rw [ht] at h
  exact stripped_le_of_le_pad s (stripNul x) t hnz h

theorem resizePad_length (l : List Nat) (n : Nat) :
    (resizePad l n).length = n := by
  rw [resizePad]
  simp [List.length_take]
  omega

theorem resizePad_eq_take_pad (l : List Nat) (n : Nat) :
    resizePad l n = l.take n ++ List.replicate (n - l.length) 0 := rfl

theorem sp_le_take (k : List Nat) :
    lexCompare (stripNul (kkeyOf k)) (k.take 4) ≠ .gt := by
  have h1 := stripNul_le_self (kkeyOf k)
  rw [kkeyOf, resizePad_eq_take_pad] at h1
  exact stripped_le_of_le_pad _ _ _ (stripNul_getLastD _) h1

theorem sp_mono (a b : List Nat) (h : lexCompare a b ≠ .gt) :
    lexCompare (stripNul (kkeyOf a)) (stripNul (kkeyOf b)) ≠ .gt := by
  have h1 : lexCompare (stripNul (kkeyOf a)) (a.take 4) ≠ .gt := sp_le_take a
  have h2 : lexCompare (a.take 4) (b.take 4) ≠ .gt := lexTake_mono 4 a b h
  have h3 : lexCompare (b.take 4) (kkeyOf b) ≠ .gt := by
    rw [kkeyOf, resizePad_eq_take_pad]
    exact lexLe_append_right _ _
  have h4 := lexLe_trans _ _ _ (lexLe_trans _ _ _ h1 h2) h3
  exact stripped_le_strip _ _ (stripNul_getLastD _) h4

theorem sp_ne_nil_of_boundary (kp k : List Nat)
    (hle : lexCompare kp k ≠ .gt)
    (hne : stripNul (kkeyOf kp) ≠ stripNul (kkeyOf k)) :
    stripNul (kkeyOf k) ≠ [] := by
  intro hnil
  have hm := sp_mono kp k hle
  rw [hnil] at hm
  rcases lexCompare_le_cases _ _ hm with hlt | heq
  · rcases hsp : stripNul (kkeyOf kp) with _ | ⟨a, t⟩
    · rw [hsp] at hlt
      simp [lexCompare] at hlt
    · rw [hsp, lexCompare] at hlt
      simp at hlt
  · rw [hnil] at hne
    exact hne heq

theorem lexLe_of_not_lt (a b : List Nat) (h : lexCompare a b ≠ .lt) :
    lexCompare b a ≠ .gt := by
  intro hc
  exact h ((lexCompare_gt_iff b a).mp hc)

theorem keys_getD_le (es : List HEntry) (hwf : EntriesWF es) (i j : Nat)
    (hi : i < es.length) (hj : j < es.length) (hij : i ≤ j) :
    lexCompare ((es.getD i ⟨[], [], 0⟩).key) ((es.getD j ⟨[], [], 0⟩).key) ≠
      .gt := by
  rcases Nat.lt_or_ge i j with h | h
  · rw [keys_getD_lt es hwf i j hi hj h]
    simp
  · have hij2 : i = j := by omega
    subst hij2
    rw [lexCompare_refl]
    simp

theorem stripNul_eq_take (x : List Nat) :
    stripNul x = x.take (stripNul x).length := by
  obtain ⟨t, ht⟩ := stripNul_decomp x
  have h1 := List.take_left (stripNul x) (List.replicate t 0)
  rw [← ht] at h1
  exact h1.symm

theorem stripNul_length_le (x : List Nat) :
    (stripNul x).length ≤ x.length := by
  obtain ⟨t, ht⟩ := stripNul_decomp x
  have h2 : x.length = (stripNul x ++ List.replicate t 0).length := by
    rw [← ht]
  rw [List.length_append] at h2
  omega

theorem getLastD_append_zeros (X : List Nat) (s : Nat) (d : Nat) :
    (X ++ List.replicate (s + 1) 0).getLastD d = 0 := by
  have h1 : List.replicate (s + 1) (0 : Nat) = List.replicate s 0 ++ [0] :=
    List.replicate_succ' s 0
  rw [h1, ← List.append_assoc, List.getLastD_concat]

theorem sp_length_le (k : List Nat) :
    (stripNul (kkeyOf k)).length ≤ (k.take 4).length := by
  by_contra hc
  push_neg at hc
  have hlen4 : (stripNul (kkeyOf k)).length ≤ 4 := by
    have h1 := stripNul_length_le (kkeyOf k)
    have h2 : (kkeyOf k).length = 4 := by
      rw [kkeyOf]
      exact resizePad_length k 4
    omega
  have hz := stripNul_getLastD (kkeyOf k)
  have he : stripNul (kkeyOf k) =
      (k.take 4 ++ List.replicate (4 - k.length) 0).take
        (stripNul (kkeyOf k)).length := by
    rw [← resizePad_eq_take_pad, ← kkeyOf]
    exact stripNul_eq_take _
  rw [List.take_append_eq_append_take, List.take_of_length_le hc.le,
    List.take_replicate] at he
  obtain ⟨s, hs⟩ : ∃ s,
      min ((stripNul (kkeyOf k)).length - (k.take 4).length) (4 - k.length) =
        s + 1 := by
    rcases hmin : min ((stripNul (kkeyOf k)).length - (k.take 4).length)
        (4 - k.length) with _ | s
    · rw [Nat.min_eq_zero_iff] at hmin
      have hk4 : (k.take 4).length = min 4 k.length := List.length_take 4 k
      omega
    · exact ⟨s, rfl⟩
  rw [hs] at he
  rw [he, getLastD_append_zeros] at hz
  exact hz rfl

theorem sp_take_eq (k : List Nat) (r : Nat)
    (hr : r ≤ (stripNul (kkeyOf k)).length) :
    (stripNul (kkeyOf k)).take r = k.take r := by
  have hle := sp_length_le k
  have he := stripNul_eq_take (kkeyOf k)
  rw [he, List.take_take]
  have hmin1 : min r (stripNul (kkeyOf k)).length = r := by omega
  rw [hmin1, kkeyOf, resizePad_eq_take_pad, List.take_append_eq_append_take]
  have hrle : r ≤ (k.take 4).length := by omega
  rw [Nat.sub_eq_zero_of_le hrle, List.take_replicate]
  have hm0 : min 0 (4 - k.length) = 0 := Nat.zero_min _
  rw [hm0, List.replicate_zero, List.append_nil, List.take_take]
  have h4 : min r 4 = r := by
    have hk4 : (k.take 4).length = min 4 k.length := List.length_take 4 k
    omega
  rw [h4]

theorem groupStarts_head (es : List HEntry) (hes : es ≠ []) :
    ∃ tl, groupStarts es = 0 :: tl := by
  rw [groupStarts]
  obtain ⟨n, hn⟩ : ∃ n, es.length = n + 1 :=
    ⟨es.length - 1, by have := List.length_pos.mpr hes; omega⟩
  rw [hn, List.range_succ_eq_map]
  rw [List.filter_cons_of_pos (by simp)]
  exact ⟨_, rfl⟩

theorem groupStarts_mem (es : List HEntry) (j : Nat)
    (h : j ∈ groupStarts es) :
    j < es.length ∧ (j = 0 ∨
      stripNul (kkeyOf ((es.getD (j - 1) ⟨[], [], 0⟩).key)) ≠
        stripNul (kkeyOf ((es.getD j ⟨[], [], 0⟩).key))) := by
  rw [groupStarts, List.mem_filter] at h
  exact ⟨List.mem_range.mp h.1, by simpa using h.2⟩

theorem groupStarts_sorted (es : List HEntry) :
    (groupStarts es).Pairwise (· < ·) :=
  List.Pairwise.sublist (List.filter_sublist _) (List.pairwise_lt_range _)

theorem getD_mem_nat (l : List Nat) (m : Nat) (h : m < l.length) :
    l.getD m 0 ∈ l := by
  rw [List.getD_eq_getElem _ _ h]
  exact l.getElem_mem h

theorem groupStarts_getD_lt (es : List HEntry) (m1 m2 : Nat)
    (h1 : m1 < m2) (h2 : m2 < (groupStarts es).length) :
    (groupStarts es).getD m1 0 < (groupStarts es).getD m2 0 := by
  have hpw := groupStarts_sorted es
  have := List.pairwise_iff_getElem.mp hpw m1 m2 (by omega) h2 h1
  rw [List.getD_eq_getElem _ _ (by omega), List.getD_eq_getElem _ _ h2]
  exact this

theorem groupStarts_ne_nil (es : List HEntry) (hes : es ≠ []) :
    groupStarts es ≠ [] := by
  obtain ⟨tl, htl⟩ := groupStarts_head es hes
  rw [htl]
  simp

theorem groupStarts_getD_zero (es : List HEntry) (hes : es ≠ []) :
    (groupStarts es).getD 0 0 = 0 := by
  obtain ⟨tl, htl⟩ := groupStarts_head es hes
  rw [htl]
  rfl

theorem entryOff_pos (es : List HEntry) (j : Nat) (h1 : 1 ≤ j) :
    es ≠ [] → 0 < entryOff es j := by
  intro hes
  rcases es with _ | ⟨e, tl⟩
  · exact absurd rfl hes
  · obtain ⟨j2, rfl⟩ : ∃ j2, j = j2 + 1 := ⟨j - 1, by omega⟩
    have : entryOff (e :: tl) (j2 + 1) =
        (entryBytes true e).length + entryOffAux false tl j2 := rfl
    rw [this]
    have := entryBytes_cons_length_pos true e
    omega

theorem chopLoop_sound (f : List Nat) (key4 : List Nat) (base : Nat)
    (n : Nat) (K : Nat → List Nat)
    (hK : ∀ m, m < n → stripNul ((f.drop (base + m * 8)).take 4) = K m) :
    ∀ i j, i < j → j ≤ n → (i = 0 ∨ lexCompare key4 (K i) ≠ .lt) →
      chopLoop f key4 base i j < n ∧
        (chopLoop f key4 base i j = 0 ∨
          lexCompare key4 (K (chopLoop f key4 base i j)) ≠ .lt) := by
  have main : ∀ (fuel i j : Nat), j - i ≤ fuel → i < j → j ≤ n →
      (i = 0 ∨ lexCompare key4 (K i) ≠ .lt) →
      chopLoop f key4 base i j < n ∧
        (chopLoop f key4 base i j = 0 ∨
          lexCompare key4 (K (chopLoop f key4 base i j)) ≠ .lt) := by
    intro fuel
    induction fuel with
    | zero => intro i j hf hij _ _; omega
    | succ fuel ih =>
      intro i j hf hij hjn hP
      rw [chopLoop]
      split
      · rename_i hcond
        dsimp only
        rcases hcmp : lexCompare key4
            (stripNul ((f.drop (base + (i + (j - i) / 2) * 8)).take 4))
            with _ | _ | _
        · show chopLoop f key4 base i (i + (j - i) / 2) < n ∧
            (chopLoop f key4 base i (i + (j - i) / 2) = 0 ∨
              lexCompare key4 (K (chopLoop f key4 base i (i + (j - i) / 2))) ≠
                .lt)
          exact ih i (i + (j - i) / 2) (by omega) (by omega) (by omega) hP
        · show i + (j - i) / 2 < n ∧
            (i + (j - i) / 2 = 0 ∨
              lexCompare key4 (K (i + (j - i) / 2)) ≠ .lt)
          refine ⟨by omega, Or.inr ?_⟩
          rw [← hK _ (by omega)]
          rw [hcmp]
          simp
        · show chopLoop f key4 base (i + (j - i) / 2) j < n ∧
            (chopLoop f key4 base (i + (j - i) / 2) j = 0 ∨
              lexCompare key4 (K (chopLoop f key4 base (i + (j - i) / 2) j)) ≠
                .lt)
          refine ih (i + (j - i) / 2) j (by omega) (by omega) hjn
            (Or.inr ?_)
          rw [← hK _ (by omega)]
          rw [hcmp]
          simp
      · rename_i hcond
        exact ⟨by omega, hP⟩
  exact fun i j h1 h2 h3 => main (j - i) i j le_rfl h1 h2 h3

theorem drop_of_drop_append (f : List Nat) (p : Nat) (X Y : List Nat)
    (h : f.drop p = X ++ Y) : f.drop (p + X.length) = Y := by
  rw [← List.drop_drop, h, List.drop_left]

theorem honeyTable1_shape (es : List HEntry) :
    (honeyTable1 es).1 = dataBytes true es ++
      1 :: (be32enc (groupStarts es).length ++
        ((groupStarts es).map (fun j => kkeyOf ((es.getD j ⟨[], [], 0⟩).key) ++
          be32enc (entryOff es j))).flatten) := by
  rw [honeyTable1]
  dsimp only
  rw [List.append_assoc, List.append_assoc]
  rfl

theorem record_drop (es : List HEntry) (m : Nat)
    (h : m < (groupStarts es).length) :
    ∃ rest, (honeyTable1 es).1.drop ((honeyTable1 es).2 + 5 + m * 8) =
      kkeyOf ((es.getD ((groupStarts es).getD m 0) ⟨[], [], 0⟩).key) ++
        (be32enc (entryOff es ((groupStarts es).getD m 0)) ++ rest) := by
  have hshape := honeyTable1_shape es
  have hroote : (honeyTable1 es).2 = (dataBytes true es).length := rfl
  have hdropr : (honeyTable1 es).1.drop ((honeyTable1 es).2) =
      1 :: (be32enc (groupStarts es).length ++
        ((groupStarts es).map (fun j => kkeyOf ((es.getD j ⟨[], [], 0⟩).key) ++
          be32enc (entryOff es j))).flatten) := by
    rw [hshape, hroote, List.drop_left]
  have hd1 := drop_succ_of_drop_cons _ _ _ _ hdropr
  have hd5 := drop_of_drop_append _ _ _ _ hd1
  rw [be32enc_length] at hd5
  have hidx : (honeyTable1 es).2 + 1 + 4 = (honeyTable1 es).2 + 5 := by omega
  rw [hidx] at hd5
  obtain ⟨rest, hrest⟩ := flatten_map_drop 0
    (fun j => kkeyOf ((es.getD j ⟨[], [], 0⟩).key) ++ be32enc (entryOff es j))
    8 (groupStarts es) m
    (fun a _ => by
      simp only [List.length_append, be32enc_length]
      rw [kkeyOf, resizePad_length]) h
  refine ⟨rest, ?_⟩
  have hsplit : (honeyTable1 es).1.drop ((honeyTable1 es).2 + 5 + m * 8) =
      ((honeyTable1 es).1.drop ((honeyTable1 es).2 + 5)).drop (m * 8) := by
    rw [List.drop_drop]
  rw [hsplit, hd5, Nat.mul_comm m 8, hrest]
  simp [List.append_assoc]

theorem record_kkey (es : List HEntry) (m : Nat)
    (h : m < (groupStarts es).length) :
    stripNul
        (((honeyTable1 es).1.drop ((honeyTable1 es).2 + 5 + m * 8)).take 4) =
      stripNul
        (kkeyOf ((es.getD ((groupStarts es).getD m 0) ⟨[], [], 0⟩).key)) := by
  obtain ⟨rest, hrest⟩ := record_drop es m h
  rw [hrest]
  congr 1
  have h4 : (kkeyOf
      ((es.getD ((groupStarts es).getD m 0) ⟨[], [], 0⟩).key)).length = 4 := by
    rw [kkeyOf]
    exact resizePad_length _ _
  rw [← h4, List.take_left]

theorem entryOff_le_slotOff (es : List HEntry) (j : Nat) :
    entryOff es j ≤ slotOff es j := by
  rw [slotOff]
  split <;> omega

theorem record_jump (es : List HEntry) (m : Nat)
    (h : m < (groupStarts es).length)
    (hJlt : (groupStarts es).getD m 0 < es.length)
    (hsmall : (dataBytes true es).length < 2 ^ 32) :
    be32 (honeyTable1 es).1 ((honeyTable1 es).2 + 5 + m * 8 + 4) =
      entryOff es ((groupStarts es).getD m 0) := by
  obtain ⟨rest, hrest⟩ := record_drop es m h
  have hstep := drop_of_drop_append _ _ _ _ hrest
  have h4 : (kkeyOf
      ((es.getD ((groupStarts es).getD m 0) ⟨[], [], 0⟩).key)).length = 4 := by
    rw [kkeyOf]
    exact resizePad_length _ _
  rw [h4] at hstep
  refine be32_of_drop _ _ _ rest hstep ?_
  have h1 := slotOff_lt_data es _ hJlt
  have h2 := entryOff_le_slotOff es ((groupStarts es).getD m 0)
  omega

theorem length_le_dataBytes (es : List HEntry) : ∀ first : Bool,
    es.length ≤ (dataBytes first es).length := by
  induction es with
  | nil => intro first; simp [dataBytes]
  | cons e tl ih =>
    intro first
    rw [dataBytes_cons]
    have h1 := entryBytes_cons_length_pos first e
    have h2 := ih false
    simp only [List.length_append, List.length_cons]
    omega

theorem honeyTable1_find (es : List HEntry) (key : List Nat)
    (hwf : EntriesWF es) (hes : es ≠ [])
    (hsmall : (dataBytes true es).length < 2 ^ 32)
    (hgroup : ∀ j ∈ groupStarts es,
      (es.getD j ⟨[], [], 0⟩).reuse ≤
        (stripNul (kkeyOf ((es.getD j ⟨[], [], 0⟩).key))).length) :
    ((firstKeyGE (es.map HEntry.key) key = none →
      ∃ c', honeyDoFind (honeyTable1 es).1 (honeyTable1 es).2 key
          HoneyCursor.fresh = .ok (false, c') ∧ c'.is_at_end = true) ∧
     (∀ kk, firstKeyGE (es.map HEntry.key) key = some kk →
      ∃ c', honeyDoFind (honeyTable1 es).1 (honeyTable1 es).2 key
          HoneyCursor.fresh = .ok (lexCompare kk key == Ordering.eq, c') ∧
        c'.current_key = kk ∧ c'.is_at_end = false)) := by
  have hn : 0 < es.length := List.length_pos.mpr hes
  have hgne : groupStarts es ≠ [] := groupStarts_ne_nil es hes
  have hglen : 0 < (groupStarts es).length := List.length_pos.mpr hgne
  have hglelen : (groupStarts es).length ≤ es.length := by
    rw [groupStarts]
    calc (List.filter _ (List.range es.length)).length
        ≤ (List.range es.length).length := List.length_filter_le _ _
      _ = es.length := List.length_range _
  have hcount32 : (groupStarts es).length < 2 ^ 32 := by
    have hdlen := length_le_dataBytes es true
    omega
  have hroote : (honeyTable1 es).2 = (dataBytes true es).length := rfl
  have hdropr : (honeyTable1 es).1.drop (honeyTable1 es).2 =
      1 :: (be32enc (groupStarts es).length ++
        ((groupStarts es).map (fun j => kkeyOf ((es.getD j ⟨[], [], 0⟩).key) ++
          be32enc (entryOff es j))).flatten) := by
    rw [honeyTable1_shape es, hroote, List.drop_left]
  have hrootb : (honeyTable1 es).1[(honeyTable1 es).2]? = some 1 :=
    getElem?_of_drop_cons _ _ _ _ hdropr
  have hd1 := drop_succ_of_drop_cons _ _ _ _ hdropr
  have hcount : be32 (honeyTable1 es).1 ((honeyTable1 es).2 + 1) =
      (groupStarts es).length := be32_of_drop _ _ _ _ hd1 hcount32
  have hdofind : honeyDoFind (honeyTable1 es).1 (honeyTable1 es).2 key
      HoneyCursor.fresh =
      honeyFindIndex (honeyTable1 es).1 (honeyTable1 es).2 key
        HoneyCursor.fresh := by
    rw [honeyDoFind, if_neg]
    simp [HoneyCursor.fresh]
  set iStar := chopLoop (honeyTable1 es).1 (key.take 4)
    ((honeyTable1 es).2 + 5) 0 (groupStarts es).length with hi
  have hchop := chopLoop_sound (honeyTable1 es).1 (key.take 4)
    ((honeyTable1 es).2 + 5) (groupStarts es).length
    (fun m => stripNul
      (kkeyOf ((es.getD ((groupStarts es).getD m 0) ⟨[], [], 0⟩).key)))
    (fun m hm => record_kkey es m hm) 0 (groupStarts es).length hglen le_rfl
    (Or.inl rfl)
  rw [← hi] at hchop
  obtain ⟨hilt, hiP⟩ := hchop
  set J := (groupStarts es).getD iStar 0 with hJ
  have hJmem : J ∈ groupStarts es := by
    rw [hJ]
    exact getD_mem_nat _ _ hilt
  have hJlt : J < es.length := (groupStarts_mem es J hJmem).1
  have hkkeyI := record_kkey es iStar hilt
  rw [← hJ] at hkkeyI
  have hjumpI := record_jump es iStar hilt (by rw [← hJ]; exact hJlt) hsmall
  rw [← hJ] at hjumpI
  have hbef : ∀ t, t < J →
      lexCompare ((es.map HEntry.key).getD t []) key = .lt := by
    intro t ht
    have htlen : t < es.length := by omega
    rw [keys_getD es t htlen]
    have hne0 : iStar ≠ 0 := by
      intro h0
      rw [h0, groupStarts_getD_zero es hes] at hJ
      omega
    have hKle : lexCompare (stripNul (kkeyOf ((es.getD J ⟨[], [], 0⟩).key)))
        (key.take 4) ≠ .gt := by
      rcases hiP with h0 | hP2
      · exact absurd h0 hne0
      · exact lexLe_of_not_lt _ _ hP2
    by_contra hcon
    have hkey_le : lexCompare key ((es.getD t ⟨[], [], 0⟩).key) ≠ .gt :=
      lexLe_of_not_lt _ _ hcon
    have h1 : lexCompare (stripNul (kkeyOf ((es.getD J ⟨[], [], 0⟩).key)))
        (stripNul (kkeyOf key)) ≠ .gt := by
      have h2 : lexCompare (key.take 4) (kkeyOf key) ≠ .gt := by
        rw [kkeyOf, resizePad_eq_take_pad]
        exact lexLe_append_right _ _
      exact stripped_le_strip _ _ (stripNul_getLastD _)
        (lexLe_trans _ _ _ hKle h2)
    have h3 : lexCompare (stripNul (kkeyOf key))
        (stripNul (kkeyOf ((es.getD t ⟨[], [], 0⟩).key))) ≠ .gt :=
      sp_mono _ _ hkey_le
    have h4 : lexCompare (stripNul (kkeyOf ((es.getD t ⟨[], [], 0⟩).key)))
        (stripNul (kkeyOf ((es.getD (J - 1) ⟨[], [], 0⟩).key))) ≠ .gt :=
      sp_mono _ _ (keys_getD_le es hwf t (J - 1) htlen (by omega) (by omega))
    have h5lt : lexCompare (stripNul (kkeyOf ((es.getD (J - 1) ⟨[], [], 0⟩).key)))
        (stripNul (kkeyOf ((es.getD J ⟨[], [], 0⟩).key))) = .lt := by
      rcases (groupStarts_mem es J hJmem).2 with h0 | hne
      · omega
      · have hmono := sp_mono _ _
          (keys_getD_le es hwf (J - 1) J (by omega) hJlt (by omega))
        rcases lexCompare_le_cases _ _ hmono with h | h
        · exact h
        · exact absurd h hne
    have hchain := lexLe_trans _ _ _ (lexLe_trans _ _ _ h1 h3) h4
    have hfin := lexLt_of_le_of_lt _ _ _ hchain h5lt
    rw [lexCompare_refl] at hfin
    exact Ordering.noConfusion hfin
  have hsfx := firstKeyGE_suffix (es.map HEntry.key) key J
    (by rw [List.length_map]; exact hJlt.le) hbef
  by_cases hJ0 : J = 0
  · -- jump to the very start of the table
    have hjump0 : entryOff es J = 0 := by
      rw [hJ0, entryOff, entryOffAux_zero]
    have hrun := findScan_run_first es (honeyTable1 es).1 (honeyTable1 es).2
      key
      { HoneyCursor.fresh with pos := 0, last_key := [], is_at_end := false, val_size := 0 }
      rfl rfl
      (by
        show 0 + 0 + (dataBytes true es).length = (honeyTable1 es).2
        rw [hroote]
        omega)
      (by
        show (honeyTable1 es).1.drop (0 + 0) =
          dataBytes true es ++ (honeyTable1 es).1.drop (honeyTable1 es).2
        rw [show (0 + 0 : Nat) = 0 from rfl, List.drop_zero, hdropr]
        exact honeyTable1_shape es)
      (fun e2 he2 => by
        have := hwf.2.1 e2 he2
        exact ⟨this.1, this.2.2.2.2.2, this.2.2.2.2.1⟩)
      (reuseChain_full es hwf)
    constructor
    · intro hnone
      obtain ⟨c', hc', hend⟩ := hrun.1 hnone
      refine ⟨c', ?_, hend⟩
      rw [hdofind, honeyFindIndex, hrootb]
      dsimp only
      rw [hcount, if_neg (by omega), ← hi, hkkeyI, hjumpI, hjump0,
        if_pos rfl]
      exact hc'
    · intro kk hsome
      obtain ⟨c', hc', hck, hclk, hend⟩ := hrun.2 kk hsome
      refine ⟨c', ?_, hck, hend⟩
      rw [hdofind, honeyFindIndex, hrootb]
      dsimp only
      rw [hcount, if_neg (by omega), ← hi, hkkeyI, hjumpI, hjump0,
        if_pos rfl]
      exact hc'
  · -- jump lands on the start of a later prefix group
    have hJpos : 1 ≤ J := by omega
    have hjumpne : ¬ entryOff es J = 0 := by
      have := entryOff_pos es J hJpos hes
      omega
    have hkkne : stripNul (kkeyOf ((es.getD J ⟨[], [], 0⟩).key)) ≠ [] := by
      rcases (groupStarts_mem es J hJmem).2 with h0 | hne
      · omega
      · exact sp_ne_nil_of_boundary _ _
          (keys_getD_le es hwf (J - 1) J (by omega) hJlt (by omega)) hne
    have hchainJ : reuseChain (stripNul (kkeyOf ((es.getD J ⟨[], [], 0⟩).key)))
        (es.drop J) := by
      have hdj : es.drop J = es.getD J ⟨[], [], 0⟩ :: es.drop (J + 1) := by
        rw [List.getD_eq_getElem _ _ hJlt]
        exact List.drop_eq_getElem_cons hJlt
      rw [hdj]
      refine ⟨?_, ?_⟩
      · rw [sp_take_eq _ _ (hgroup J hJmem)]
      · have hrc := reuseChain_drop es J hJpos hJlt.le hwf.2.2.2
        rw [hdj] at hrc
        exact hrc.2
    have hrun := findScan_run (es.drop J) (honeyTable1 es).1
      (honeyTable1 es).2 key
      { HoneyCursor.fresh with pos := entryOff es J, last_key := stripNul (kkeyOf ((es.getD J ⟨[], [], 0⟩).key)), is_at_end := false, val_size := 0 }
      rfl hkkne
      (by
        show entryOff es J + 0 + (dataBytes false (es.drop J)).length =
          (honeyTable1 es).2
        have haux := dataBytes_drop_aux es true J hJpos hJlt.le
        rw [hroote]
        rw [entryOff]
        omega)
      (by
        show (honeyTable1 es).1.drop (entryOff es J + 0) =
          dataBytes false (es.drop J) ++
            (honeyTable1 es).1.drop (honeyTable1 es).2
        rw [Nat.add_zero, hdropr, honeyTable1_shape es]
        exact table_drop_data es _ J hJpos hJlt.le)
      (fun e2 he2 => by
        have := hwf.2.1 e2 (List.mem_of_mem_drop he2)
        exact ⟨this.1, this.2.2.2.2.2, this.2.2.2.2.1⟩)
      hchainJ
    constructor
    · intro hnone
      have hnone2 : firstKeyGE ((es.drop J).map HEntry.key) key = none := by
        rw [List.map_drop, ← hsfx]
        exact hnone
      obtain ⟨c', hc', hend⟩ := hrun.1 hnone2
      refine ⟨c', ?_, hend⟩
      rw [hdofind, honeyFindIndex, hrootb]
      dsimp only
      rw [hcount, if_neg (by omega), ← hi, hkkeyI, hjumpI, if_neg hjumpne]
      exact hc'
    · intro kk hsome
      have hsome2 : firstKeyGE ((es.drop J).map HEntry.key) key = some kk := by
        rw [List.map_drop, ← hsfx]
        exact hsome
      obtain ⟨c', hc', hck, hclk, hend⟩ := hrun.2 kk hsome2
      refine ⟨c', ?_, hck, hend⟩
      rw [hdofind, honeyFindIndex, hrootb]
      dsimp only
      rw [hcount, if_neg (by omega), ← hi, hkkeyI, hjumpI, if_neg hjumpne]
      exact hc'

theorem firstKeyGE_of_mem (keys : List (List Nat)) (k : List Nat)
    (hpw : keys.Pairwise (fun a b => lexCompare a b = .lt))
    (hmem : k ∈ keys) : firstKeyGE keys k = some k := by
  induction keys with
  | nil => simp at hmem
  | cons k0 rest ih =>
    rcases List.mem_cons.mp hmem with rfl | hmem2
    · rw [firstKeyGE, List.find?_cons_of_pos _ (by simp [lexCompare_refl])]
    · have hk0 : lexCompare k0 k = .lt := (List.pairwise_cons.mp hpw).1 k hmem2
      have hih := ih (List.pairwise_cons.mp hpw).2 hmem2
      rw [firstKeyGE, List.find?_cons_of_neg _ (by simp [hk0])]
      exact hih

theorem firstKeyGE_mem_of_some (keys : List (List Nat)) (k kk : List Nat)
    (h : firstKeyGE keys k = some kk) : kk ∈ keys :=
  List.mem_of_find?_eq_some h

theorem firstKeyGE_not_lt (keys : List (List Nat)) (k kk : List Nat)
    (h : firstKeyGE keys k = some kk) : lexCompare kk k ≠ .lt := by
  have := List.find?_some h
  simpa using this

theorem firstKeyGE_gt_of_not_mem (keys : List (List Nat)) (k kk : List Nat)
    (h : firstKeyGE keys k = some kk) (hnm : k ∉ keys) :
    lexCompare k kk = .lt := by
  have hmem := firstKeyGE_mem_of_some keys k kk h
  have hnlt := firstKeyGE_not_lt keys k kk h
  rcases hc : lexCompare kk k with _ | _ | _
  · exact absurd hc hnlt
  · rw [(lexCompare_eq_iff _ _).mp hc] at hmem
    exact absurd hmem hnm
  · exact (lexCompare_gt_iff kk k).mp hc

theorem firstKeyGE_min (keys : List (List Nat)) (k : List Nat)
    (hpw : keys.Pairwise (fun a b => lexCompare a b = .lt)) :
    ∀ kk, firstKeyGE keys k = some kk →
      ∀ k2 ∈ keys, lexCompare k2 k ≠ .lt → lexCompare kk k2 ≠ .gt := by
  induction keys with
  | nil => intro kk h; simp [firstKeyGE] at h
  | cons k0 rest ih =>
    intro kk h k2 hk2 hk2p
    by_cases hp : lexCompare k0 k = .lt
    · rw [firstKeyGE, List.find?_cons_of_neg _ (by simp [hp])] at h
      rcases List.mem_cons.mp hk2 with rfl | hk2r
      · exact absurd hp hk2p
      · exact ih (List.pairwise_cons.mp hpw).2 kk h k2 hk2r hk2p
    · rw [firstKeyGE, List.find?_cons_of_pos _ (by simpa using hp)] at h
      obtain rfl : k0 = kk := Option.some.inj h
      rcases List.mem_cons.mp hk2 with rfl | hk2r
      · rw [lexCompare_refl]
        simp
      · rw [(List.pairwise_cons.mp hpw).1 k2 hk2r]
        simp

theorem flag_false_of_ne (kk key : List Nat) (hne : kk ≠ key) :
    (lexCompare kk key == Ordering.eq) = false := by
  rcases hc : lexCompare kk key with _ | _ | _
  · rfl
  · exact absurd ((lexCompare_eq_iff _ _).mp hc) hne
  · rfl

theorem flag_true_refl (key : List Nat) :
    (lexCompare key key == Ordering.eq) = true := by
  rw [lexCompare_refl]
  rfl

theorem find_block_of_firstKeyGE (es : List HEntry) (key : List Nat)
    (F : List Nat) (R : Nat) (hwf : EntriesWF es)
    (hn : firstKeyGE (es.map HEntry.key) key = none →
      ∃ c', honeyDoFind F R key HoneyCursor.fresh = .ok (false, c') ∧
        c'.is_at_end = true)
    (hs : ∀ kk, firstKeyGE (es.map HEntry.key) key = some kk →
      ∃ c', honeyDoFind F R key HoneyCursor.fresh =
          .ok (lexCompare kk key == Ordering.eq, c') ∧
        c'.current_key = kk ∧ c'.is_at_end = false) :
    FindBehaviour es key F R := by
  have hpw := keys_pairwise es hwf
  refine ⟨?_, ?_, hn⟩
  · intro hmem
    obtain ⟨c', hc', hck, hend⟩ := hs key (firstKeyGE_of_mem _ _ hpw hmem)
    rw [flag_true_refl] at hc'
    exact ⟨c', hc', hck, hend⟩
  · intro hnm kk hsome
    have hkkmem := firstKeyGE_mem_of_some _ _ _ hsome
    have hgt := firstKeyGE_gt_of_not_mem _ _ _ hsome hnm
    have hmin := firstKeyGE_min _ _ hpw kk hsome
    obtain ⟨c', hc', hck, hend⟩ := hs kk hsome
    have hne : kk ≠ key := fun he => hnm (he ▸ hkkmem)
    rw [flag_false_of_ne kk key hne] at hc'
    exact ⟨hkkmem, hgt, hmin, c', hc', hck, hend⟩

/-- C4 counterexample: the dense (`0x00`) index answers a `find` for a key
whose first byte is below the index's base byte with `false` and the
cursor at the end, even though a greater key (`"b"` here, searched with
`"a"`) is stored: the claimed positioning on the least greater key does
not happen. -/
theorem lebEncode_two : lebEncode 2 = [2] := by
  rw [lebEncode]
  rfl

theorem C4_counterexample :
    lexCompare [97] [98] = .lt ∧
    [98] ∈ ([⟨[98], [7], 0⟩] : List HEntry).map HEntry.key ∧
    ∃ c', honeyDoFind (honeyTable0 [⟨[98], [7], 0⟩]).1
        (honeyTable0 [⟨[98], [7], 0⟩]).2 [97] HoneyCursor.fresh =
      .ok (false, c') ∧ c'.is_at_end = true := by
  have hwf : EntriesWF [⟨[98], [7], 0⟩] := by
    refine ⟨by simp, by decide, ?_, by simp⟩
    intro e he
    obtain rfl : (⟨[98], [7], 0⟩ : HEntry) = e := Option.some.inj he
    rfl
  have hdb : dataBytes true [⟨[98], [7], 0⟩] = [1, 98, 2, 7] := by
    simp [dataBytes, entryBytes, lebEncode_two]
  have h := honeyTable0_find [⟨[98], [7], 0⟩] [97] hwf (by simp)
    (by simp) (by decide) (by rw [hdb]; decide)
  exact ⟨by decide, by simp, h.1 (by decide)⟩

/-- C4 (amended): for every well-formed honey table over entries `es` and
every non-empty byte key, `do_find(key, false)` from a fresh cursor
returns `true` positioned on `key` when `key` is stored, and otherwise
returns `false` positioned on the least stored key greater than `key`
(or at the end when there is none) — unconditionally for the binary-chop
(`0x01`) and skiplist (`0x02`) index types, and for the dense (`0x00`)
index type only when `key`'s first byte is at least the index's base
byte; when `key`'s first byte is below the base byte, the reader's 8-bit
wrap-around makes the dense index return `false` with the cursor at the
end regardless of the stored keys. -/
theorem C4_honey_find_amended (es : List HEntry) (key : List Nat)
    (hwf : EntriesWF es) (hes : es ≠ []) (hkey : key ≠ [])
    (hkb : ∀ b ∈ key, b < 256)
    (hsmall : (dataBytes true es).length < 2 ^ 32)
    (hgroup : ∀ j ∈ groupStarts es,
      (es.getD j ⟨[], [], 0⟩).reuse ≤
        (stripNul (kkeyOf ((es.getD j ⟨[], [], 0⟩).key))).length) :
    ((key.headD 0 < ((es.headD ⟨[], [], 0⟩).key).headD 0 →
       ∃ c', honeyDoFind (honeyTable0 es).1 (honeyTable0 es).2 key
           HoneyCursor.fresh = .ok (false, c') ∧ c'.is_at_end = true) ∧
     (((es.headD ⟨[], [], 0⟩).key).headD 0 ≤ key.headD 0 →
       FindBehaviour es key (honeyTable0 es).1 (honeyTable0 es).2)) ∧
    FindBehaviour es key (honeyTable1 es).1 (honeyTable1 es).2 ∧
    FindBehaviour es key (honeyTable2 es).1 (honeyTable2 es).2 := by
  have h0 := honeyTable0_find es key hwf hes hkey hkb hsmall
  have h1 := honeyTable1_find es key hwf hes hsmall hgroup
  have h2 := honeyTable2_find es key hwf hes hsmall
  refine ⟨⟨h0.1, fun hge => ?_⟩, ?_, ?_⟩
  · exact find_block_of_firstKeyGE es key _ _ hwf (h0.2 hge).1 (h0.2 hge).2
  · exact find_block_of_firstKeyGE es key _ _ hwf h1.1 h1.2
  · exact find_block_of_firstKeyGE es key _ _ hwf h2.1 h2.2

theorem C4_honey_find_amended_witness :
    EntriesWF [⟨[97], [5], 0⟩, ⟨[97, 98], [6], 1⟩] ∧
    ([97, 98] : List Nat) ≠ [] ∧
    FindBehaviour [⟨[97], [5], 0⟩, ⟨[97, 98], [6], 1⟩] [97, 98]
      (honeyTable2 [⟨[97], [5], 0⟩, ⟨[97, 98], [6], 1⟩]).1
      (honeyTable2 [⟨[97], [5], 0⟩, ⟨[97, 98], [6], 1⟩]).2 := by
  have hwf : EntriesWF [⟨[97], [5], 0⟩, ⟨[97, 98], [6], 1⟩] := by
    refine ⟨?_, by decide, ?_, ?_⟩
    · simp only [List.map_cons, List.map_nil, List.chain'_cons,
        List.chain'_singleton, and_true]
      decide
    · intro e he
      obtain rfl : (⟨[97], [5], 0⟩ : HEntry) = e := Option.some.inj he
      rfl
    · simp only [List.chain'_cons, List.chain'_singleton, and_true]
      decide
  have hdb : dataBytes true [⟨[97], [5], 0⟩, ⟨[97, 98], [6], 1⟩] =
      [1, 97, 2, 5, 1, 1, 98, 2, 6] := by
    simp [dataBytes, entryBytes, lebEncode_two]
  refine ⟨hwf, by simp, ?_⟩
  exact (C4_honey_find_amended [⟨[97], [5], 0⟩, ⟨[97, 98], [6], 1⟩] [97, 98]
    hwf (by simp) (by simp) (by decide) (by rw [hdb]; decide)
    (by decide)).2.2
